import Mathlib

/-!
# CpuFreq: the `/proc/cpuinfo` line parser and record aggregator

A shallow embedding of `CpuFreq/CpuFreq.h`.

* A block of memory is a list of characters and a pointer is an integer index
  into it.  Reading or writing an index outside the block is undefined
  behaviour in C; every embedded function returns `none` in that case.
* A null pointer is `none` in an `Option Int`.
* The loops of the source walk a pointer through memory.  Each iteration
  reads one cell and moves by one, so a loop started on a block of `n` cells
  ends (by returning or by leaving the block) within `n + 1` iterations; the
  loop functions take that bound as their first argument
  (`parser_loops_fuel`: a larger bound changes nothing).
-/

namespace CpuFreq

/-- A block of memory: the cells at the indices `0, 1, 2, ...`. -/
abbrev Mem := List Char

/-- The terminator of a C string. -/
def NUL : Char := Char.ofNat 0

/-- Read `*p`; `none` when `p` lies outside the block. -/
def load (mem : Mem) (p : Int) : Option Char :=
  if p < 0 then none else mem[p.toNat]?

/-- Write `*p = c`; `none` when `p` lies outside the block. -/
def store (mem : Mem) (p : Int) (c : Char) : Option Mem :=
  if p < 0 then none
  else if p.toNat < mem.length then some (mem.set p.toNat c)
  else none

namespace detail

/-- Source: `detail::isWhitespace`. -/
def isWhitespace (c : Char) : Bool :=
  c = ' ' || c = '\t' || c = '\n' || c = '\r'

/-- Source: the `while` loop of `detail::findDelimiter`.  The inner `Option`
is the returned pointer (`none` is `nullptr`). -/
def findDelimiterLoop (mem : Mem) (delimiter : Char) : Nat → Int → Option (Option Int)
  | 0, _ => none
  | fuel + 1, str =>
    match load mem str with
    | none => none
    | some c =>
      if c = NUL then some none
      else if c = delimiter then some (some str)
      else findDelimiterLoop mem delimiter fuel (str + 1)

/-- Source: `detail::findDelimiter`. -/
def findDelimiter (mem : Mem) (str : Int) (delimiter : Char) : Option (Option Int) :=
  findDelimiterLoop mem delimiter (mem.length + 1) str

/-- Source: the `for` loop of `detail::skipWhitespaceFront`. -/
def skipWhitespaceFrontLoop (mem : Mem) : Nat → Int → Int → Option Int
  | 0, _, _ => none
  | fuel + 1, front, back =>
    if front = back then some back
    else
      match load mem front with
      | none => none
      | some c =>
        if !isWhitespace c then some front
        else skipWhitespaceFrontLoop mem fuel (front + 1) back

/-- Source: `detail::skipWhitespaceFront`. -/
def skipWhitespaceFront (mem : Mem) (front back : Int) : Option Int :=
  skipWhitespaceFrontLoop mem (mem.length + 1) front back

/-- Source: the `for` loop of `detail::skipWhitespaceBack`. -/
def skipWhitespaceBackLoop (mem : Mem) : Nat → Int → Int → Option Int
  | 0, _, _ => none
  | fuel + 1, front, back =>
    if back = front then some front
    else
      match load mem back with
      | none => none
      | some c =>
        if !isWhitespace c then some back
        else skipWhitespaceBackLoop mem fuel front (back - 1)

/-- Source: `detail::skipWhitespaceBack`. -/
def skipWhitespaceBack (mem : Mem) (front back : Int) : Option Int :=
  skipWhitespaceBackLoop mem (mem.length + 1) front back

/-- Source: `detail::KeyValue`, two nullable pointers into the line buffer. -/
structure KeyValue where
  key : Option Int
  value : Option Int
deriving DecidableEq

/-- The result `KeyValue{nullptr, nullptr}`. -/
def KeyValue.absent : KeyValue := ⟨none, none⟩

/-- Source: `detail::parseCpuInfoEntry`.  Returns the pair of pointers and the
line buffer as the function leaves it (it writes two terminators). -/
def parseCpuInfoEntry (mem : Mem) (front back : Int) : Option (KeyValue × Mem) :=
  match skipWhitespaceFront mem front back with
  | none => none
  | some front =>
    match skipWhitespaceBack mem front back with
    | none => none
    | some back =>
      if front = back then some (KeyValue.absent, mem)
      else
        let keyFront := front
        let valueBack := back
        match findDelimiter mem keyFront ':' with
        | none => none
        | some none => some (KeyValue.absent, mem)
        | some (some keyBack) =>
          let valueFront := keyBack + 1
          let keyBack := keyBack - 1
          match skipWhitespaceBack mem keyFront keyBack with
          | none => none
          | some keyBack =>
            if keyFront = keyBack + 1 then some (KeyValue.absent, mem)
            else
              match skipWhitespaceFront mem valueFront valueBack with
              | none => none
              | some valueFront =>
                if valueFront = valueBack + 1 then some (KeyValue.absent, mem)
                else
                  match store mem (keyBack + 1) NUL with
                  | none => none
                  | some mem =>
                    match store mem (valueBack + 1) NUL with
                    | none => none
                    | some mem => some (⟨some keyFront, some valueFront⟩, mem)

/-- Source: the constant `kMaxStringSize` of `detail::strEqual`. -/
def kMaxStringSize : Nat := 1000

/-- Source: the `for` loop of `detail::strEqual`, with `n` iterations left and
the index `i`.  `str` points into `smem` and `pattern` into `pmem`; `str[i]`
is read before `pattern[i]`. -/
def strEqualLoop (smem : Mem) (str : Int) (pmem : Mem) (pattern : Int) :
    Nat → Nat → Option Bool
  | 0, _ => some false
  | n + 1, i =>
    match load smem (str + i) with
    | none => none
    | some c =>
      match load pmem (pattern + i) with
      | none => none
      | some pc =>
        if c ≠ pc then some false
        else if pc = NUL then some true
        else strEqualLoop smem str pmem pattern n (i + 1)

/-- Source: `detail::strEqual`. -/
def strEqual (smem : Mem) (str : Int) (pmem : Mem) (pattern : Int) : Option Bool :=
  strEqualLoop smem str pmem pattern kMaxStringSize 0

end detail

/-- Source: `strlen`: the number of cells before the first terminator. -/
def strlen (mem : Mem) : Nat :=
  (mem.takeWhile (fun c => c != NUL)).length

/-- The C string that starts at `p`: the cells from `p` up to the first
terminator; `none` when `p` is outside the block or no terminator follows. -/
def cstrAt (mem : Mem) (p : Int) : Option (List Char) :=
  if p < 0 then none
  else if NUL ∈ mem.drop p.toNat then some ((mem.drop p.toNat).takeWhile (fun c => c != NUL))
  else none

/-- What `readCpuInfo` sees of one line (source lines 209-215): a line of
length zero is skipped, otherwise the parser runs on `tmp .. tmp + len - 1`
and the entry counts when both pointers are non-null.  The result is the line
buffer after the parser together with the two pointers.

The block handed to the parser is what `fgets` has just written into `tmp`:
the characters of the line and the terminator.  The cells of `tmp` after the
terminator hold what earlier lines left there (nothing determinate on the
first line), and the cells before `tmp` belong to other objects; the parser
has no business in either, so an access to them is `none` here. -/
def parseLine (line : List Char) : Option (Option (Int × Int × Mem)) :=
  let tmp : Mem := line ++ [NUL]
  let len := strlen tmp
  if len = 0 then some none
  else
    match detail.parseCpuInfoEntry tmp 0 ((len : Int) - 1) with
    | none => none
    | some (kv, tmp) =>
      match kv.key, kv.value with
      | some key, some value => some (some (key, value, tmp))
      | _, _ => some none

/-- The key and value strings of a line as `readCpuInfo` reads them. -/
def lineEntry (line : List Char) : Option (Option (List Char × List Char)) :=
  match parseLine line with
  | none => none
  | some none => some none
  | some (some (key, value, tmp)) =>
    match cstrAt tmp key, cstrAt tmp value with
    | some k, some v => some (some (k, v))
    | _, _ => none


/-- A string literal of the source: its characters and the terminator. -/
def literal (s : String) : Mem := s.toList ++ [NUL]

/-! ## C library functions

`atoi`, `strtol`, `fgets`, `sprintf` and the system calls `open` and `read`
belong to the C library.  They are modelled after ISO C and POSIX for the
LP64 data model of 64-bit Android: `int` has 32 bits, `long` and `size_t`
have 64. -/

/-- The C library `isspace` in the "C" locale. -/
def isspace (c : Char) : Bool :=
  c = ' ' || c = '\t' || c = '\n' || c = Char.ofNat 11 || c = Char.ofNat 12 || c = '\r'

/-- The value of a digit character, for bases up to 36. -/
def digitValue (c : Char) : Option Nat :=
  if '0' ≤ c ∧ c ≤ '9' then some (c.toNat - '0'.toNat)
  else if 'a' ≤ c ∧ c ≤ 'z' then some (c.toNat - 'a'.toNat + 10)
  else if 'A' ≤ c ∧ c ≤ 'Z' then some (c.toNat - 'A'.toNat + 10)
  else none

/-- Accumulate the longest run of digits of the base at the head of the string. -/
def digitsValue (base : Nat) : List Char → Nat → Nat
  | [], acc => acc
  | c :: cs, acc =>
    match digitValue c with
    | some d => if d < base then digitsValue base cs (acc * base + d) else acc
    | none => acc

/-- The largest `long`. -/
def LONG_MAX : Int := 2 ^ 63 - 1

/-- The smallest `long`. -/
def LONG_MIN : Int := -(2 ^ 63)

/-- A digit of the base. -/
def isDigitOf (base : Nat) (c : Char) : Bool :=
  (digitValue c).any (fun d => decide (d < base))

/-- Drop the `0x` or `0X` that may precede a hexadecimal number; it is part of
the number only when a hexadecimal digit follows. -/
def dropHexPrefix (s : List Char) : List Char :=
  match s with
  | z :: x :: h :: t =>
    if z = '0' ∧ (x = 'x' ∨ x = 'X') ∧ isDigitOf 16 h = true then h :: t else s
  | _ => s

/-- The optional sign of a number: whether it is negative, and the text after
the sign. -/
def takeSign (s : List Char) : Bool × List Char :=
  match s with
  | c :: t => if c = '-' then (true, t) else if c = '+' then (false, t) else (false, s)
  | [] => (false, s)

/-- A value outside `long` is replaced by `LONG_MAX` or `LONG_MIN`. -/
def clampLong (n : Int) : Int :=
  if n > LONG_MAX then LONG_MAX else if n < LONG_MIN then LONG_MIN else n

/-- The C library `strtol(s, nullptr, base)` for base 10 and 16: white space,
an optional sign, for base 16 an optional `0x`, then digits. -/
def strtol (s : List Char) (base : Nat) : Int :=
  let s := s.dropWhile isspace
  let sign := takeSign s
  let digits := if base = 16 then dropHexPrefix sign.2 else sign.2
  let n : Int := digitsValue base digits 0
  clampLong (if sign.1 then -n else n)

/-- Conversion of a `long` to `int`: the low 32 bits, two's complement. -/
def toInt32 (n : Int) : Int := (n + 2 ^ 31) % 2 ^ 32 - 2 ^ 31

/-- The C library `atoi(s)`, which is `(int) strtol(s, nullptr, 10)`. -/
def atoi (s : List Char) : Int := toInt32 (strtol s 10)

/-- The characters `fgets` stores when it may store `n` more, and the rest of
the stream: it stops after a newline. -/
def fgetsTake : Nat → List Char → List Char × List Char
  | 0, stream => ([], stream)
  | _ + 1, [] => ([], [])
  | n + 1, c :: cs =>
    if c = '\n' then ([c], cs)
    else ((c :: (fgetsTake n cs).1), (fgetsTake n cs).2)

/-- The C library `fgets(buf, size, fp)` on a stream: `none` is the null
return at end of file; otherwise the characters stored before the terminator
(at most `size - 1`) and the rest of the stream. -/
def fgets (size : Nat) (stream : List Char) : Option (List Char × List Char) :=
  if stream = [] then none else some (fgetsTake (size - 1) stream)

/-- What `read` does on an opened file. -/
inductive ReadResult where
  /-- The bytes `read` delivers. -/
  | data (bytes : List Char)
  /-- The call fails and returns `-1`. -/
  | error
deriving DecidableEq

/-- The files the program opens. -/
structure FileSystem where
  /-- The content of `/proc/cpuinfo`; `none` when `fopen` fails. -/
  procCpuinfo : Option (List Char)
  /-- For a path, what `open` and `read` do: `none` when `open` returns `-1`. -/
  sysfs : List Char → Option ReadResult

/-- The largest `size_t`. -/
def SIZE_MAX : Nat := 2 ^ 64 - 1

/-- The system call `read(fd, dst, count)`: the value stored in the `size_t`
variable `bytesRead` and the buffer afterwards; `none` when the bytes do not
fit in the buffer. -/
def sysRead (r : ReadResult) (dst : Mem) (count : Nat) : Option (Nat × Mem) :=
  match r with
  | .data bytes =>
    let got := bytes.take count
    if got.length ≤ dst.length then some (got.length, got ++ dst.drop got.length) else none
  | .error => some (SIZE_MAX, dst)

namespace detail

/-- Source: `detail::readFile`.  Returns the boolean result and the buffer. -/
def readFile (fs : FileSystem) (fileName : List Char) (dstBuffer : Mem)
    (maxBufferSize : Nat) : Option (Bool × Mem) :=
  if maxBufferSize = 0 then some (false, dstBuffer)
  else
    match fs.sysfs fileName with
    | none => some (false, dstBuffer)
    | some r =>
      match sysRead r dstBuffer (maxBufferSize - 1) with
      | none => none
      | some (bytesRead, dstBuffer) =>
        match store dstBuffer bytesRead NUL with
        | none => none
        | some dstBuffer => some (true, dstBuffer)

end detail

/-- Source: `struct CpuInfo` with its default member initialisers. -/
structure CpuInfo where
  cpuIndex : Int := -1
  cpuImplementer : Int := 0
  cpuArch : Int := 0
  cpuVariant : Int := 0
  cpuPart : Int := 0
  cpuRevision : Int := 0
  minFreq : Int := 0
  maxFreq : Int := 0
  currentFreq : Int := 0
  packageId : Int := -1
deriving DecidableEq

/-- The four auxiliary files of a processor. -/
inductive AuxFile where
  | minFreq
  | maxFreq
  | currentFreq
  | packageId
deriving DecidableEq

/-- The text after the number in the path of an auxiliary file. -/
def AuxFile.suffix : AuxFile → List Char
  | .minFreq => "/cpufreq/cpuinfo_min_freq".toList
  | .maxFreq => "/cpufreq/cpuinfo_max_freq".toList
  | .currentFreq => "/cpufreq/scaling_cur_freq".toList
  | .packageId => "/topology/physical_package_id".toList

/-- Source: the four `sprintf(fileName, "/sys/devices/system/cpu/cpu%" PRIu32
"...", cpuInfo.cpuIndex)` calls: the `int` is printed as an unsigned 32-bit
number. -/
def auxPath (f : AuxFile) (cpuIndex : Int) : List Char :=
  "/sys/devices/system/cpu/cpu".toList ++ Nat.toDigits 10 (cpuIndex % 2 ^ 32).toNat ++ f.suffix

/-- Source: `atoi(p)` for a pointer into a block: the C string at `p` is read. -/
def atoiAt (mem : Mem) (p : Int) : Option Int :=
  match cstrAt mem p with
  | none => none
  | some s => some (atoi s)

/-- Source: `strtol(p, nullptr, base)` for a pointer into a block. -/
def strtolAt (mem : Mem) (p : Int) (base : Nat) : Option Int :=
  match cstrAt mem p with
  | none => none
  | some s => some (strtol s base)

/-- Source: one `if (detail::readFile(fileName, tmpBuffer, 8192)) field =
atoi(tmpBuffer);` of `readCpuInfo` (lines 222-244): the number read, `none`
inside when the field is left alone, and the buffer afterwards. -/
def auxLookup (fs : FileSystem) (f : AuxFile) (cpuIndex : Int) (tmpBuffer : Mem) :
    Option (Option Int × Mem) :=
  match detail.readFile fs (auxPath f cpuIndex) tmpBuffer 8192 with
  | none => none
  | some (false, tmpBuffer) => some (none, tmpBuffer)
  | some (true, tmpBuffer) =>
    match atoiAt tmpBuffer 0 with
    | none => none
    | some n => some (some n, tmpBuffer)

/-- Source: lines 222-244 of `readCpuInfo`: the four auxiliary lookups for
the record `cpuInfo`, in the order of the source. -/
def fillAux (fs : FileSystem) (tmpBuffer : Mem) (cpuInfo : CpuInfo) :
    Option (CpuInfo × Mem) :=
  match auxLookup fs .minFreq cpuInfo.cpuIndex tmpBuffer with
  | none => none
  | some (r, tmpBuffer) =>
    let cpuInfo := match r with
      | some n => { cpuInfo with minFreq := n }
      | none => cpuInfo
    match auxLookup fs .maxFreq cpuInfo.cpuIndex tmpBuffer with
    | none => none
    | some (r, tmpBuffer) =>
      let cpuInfo := match r with
        | some n => { cpuInfo with maxFreq := n }
        | none => cpuInfo
      match auxLookup fs .currentFreq cpuInfo.cpuIndex tmpBuffer with
      | none => none
      | some (r, tmpBuffer) =>
        let cpuInfo := match r with
          | some n => { cpuInfo with currentFreq := n }
          | none => cpuInfo
        match auxLookup fs .packageId cpuInfo.cpuIndex tmpBuffer with
        | none => none
        | some (r, tmpBuffer) =>
          let cpuInfo := match r with
            | some n => { cpuInfo with packageId := n }
            | none => cpuInfo
          some (cpuInfo, tmpBuffer)

/-- Source: lines 219-245 of `readCpuInfo`: the record opened by a
"processor" line; `tmp` is the line buffer after the parser and `value` the
pointer `kv.value`. -/
def openRecord (fs : FileSystem) (tmpBuffer : Mem) (tmp : Mem) (value : Int) :
    Option (CpuInfo × Mem) :=
  match atoiAt tmp value with
  | none => none
  | some index => fillAux fs tmpBuffer { cpuIndex := index }

/-- Source: lines 249-269 of `readCpuInfo`: a line that is not a "processor"
line, applied to the record `res.back()`.  `tmp` is the line buffer after the
parser, `key` and `value` the two pointers. -/
def setField (tmp : Mem) (key value : Int) (cpuInfo : CpuInfo) : Option CpuInfo :=
  match detail.strEqual tmp key (literal "CPU implementer") 0 with
  | none => none
  | some true =>
    match strtolAt tmp value 16 with
    | none => none
    | some n => some { cpuInfo with cpuImplementer := n }
  | some false =>
    match detail.strEqual tmp key (literal "CPU architecture") 0 with
    | none => none
    | some true =>
      match atoiAt tmp value with
      | none => none
      | some n => some { cpuInfo with cpuArch := n }
    | some false =>
      match detail.strEqual tmp key (literal "CPU variant") 0 with
      | none => none
      | some true =>
        match strtolAt tmp value 16 with
        | none => none
        | some n => some { cpuInfo with cpuVariant := n }
      | some false =>
        match detail.strEqual tmp key (literal "CPU part") 0 with
        | none => none
        | some true =>
          match strtolAt tmp value 16 with
          | none => none
          | some n => some { cpuInfo with cpuPart := n }
        | some false =>
          match detail.strEqual tmp key (literal "CPU revision") 0 with
          | none => none
          | some true =>
            match atoiAt tmp value with
            | none => none
            | some n => some { cpuInfo with cpuRevision := n }
          | some false => some cpuInfo

/-- The state of the loop of `readCpuInfo`: the vector `res` and the local
array `tmpBuffer`. -/
structure State where
  res : List CpuInfo
  tmpBuffer : Mem
deriving DecidableEq

/-- Replace the last element of a vector, as an assignment through
`res.back()` does. -/
def setBack (res : List CpuInfo) (cpuInfo : CpuInfo) : List CpuInfo :=
  res.dropLast ++ [cpuInfo]

/-- Source: the body of the `while` loop of `readCpuInfo` (lines 209-271) for
the line `fgets` stored. -/
def processLine (fs : FileSystem) (st : State) (line : List Char) : Option State :=
  match parseLine line with
  | none => none
  | some none => some st
  | some (some (key, value, tmp)) =>
    match detail.strEqual tmp key (literal "processor") 0 with
    | none => none
    | some true =>
      match openRecord fs st.tmpBuffer tmp value with
      | none => none
      | some (cpuInfo, tmpBuffer) => some ⟨st.res ++ [cpuInfo], tmpBuffer⟩
    | some false =>
      match st.res.getLast? with
      | none => some st
      | some back =>
        match setField tmp key value back with
        | none => none
        | some cpuInfo => some ⟨setBack st.res cpuInfo, st.tmpBuffer⟩

/-- Source: the `while (fgets(tmp, 16384, fp) != nullptr)` loop of
`readCpuInfo`.  Every turn takes at least one character off the stream, so
the length of the stream bounds the number of turns. -/
def readLoop (fs : FileSystem) : Nat → List Char → State → Option State
  | 0, _, st => some st
  | fuel + 1, stream, st =>
    match fgets 16384 stream with
    | none => some st
    | some (line, rest) =>
      match processLine fs st line with
      | none => none
      | some st => readLoop fs fuel rest st

/-- A local array of `n` characters that has not been written yet: its
content is whatever the stack holds. -/
def stackArray (n : Nat) (garbage : Nat → Char) : Mem :=
  (List.range n).map garbage

/-- Source: `readCpuInfo`.  `res` is the vector passed in; the result is the
vector when the function returns. -/
def readCpuInfo (fs : FileSystem) (garbage : Nat → Char) (res : List CpuInfo) :
    Option (List CpuInfo) :=
  -- res.clear()
  let res : List CpuInfo := res.take 0
  match fs.procCpuinfo with
  | none => some res
  | some text =>
    match readLoop fs text.length text ⟨res, stackArray 8192 garbage⟩ with
    | none => none
    | some st => some st.res

/-- The lines `fgets(tmp, 16384, fp)` delivers from a stream, one per turn
of the loop of `readCpuInfo`. -/
def fgetsLines : Nat → List Char → List (List Char)
  | 0, _ => []
  | fuel + 1, stream =>
    match fgets 16384 stream with
    | none => []
    | some (line, rest) => line :: fgetsLines fuel rest

/-- The lines of a source text as the loop of `readCpuInfo` sees them. -/
def sourceLines (text : List Char) : List (List Char) :=
  fgetsLines text.length text

/-! ## The text of a line -/

/-- A text without the whitespace at its start. -/
def trimFront (s : List Char) : List Char := s.dropWhile detail.isWhitespace

/-- A text without the whitespace at its end. -/
def trimBack (s : List Char) : List Char := (s.reverse.dropWhile detail.isWhitespace).reverse

/-- The whitespace-trimmed text: no whitespace at either end. -/
def trim (s : List Char) : List Char := trimBack (trimFront s)

/-- The assignment a field line makes to a record (source lines 250-269), by
the key and value strings of the line. -/
def fieldUpdate (key value : List Char) (cpuInfo : CpuInfo) : CpuInfo :=
  if key = "CPU implementer".toList then { cpuInfo with cpuImplementer := strtol value 16 }
  else if key = "CPU architecture".toList then { cpuInfo with cpuArch := atoi value }
  else if key = "CPU variant".toList then { cpuInfo with cpuVariant := strtol value 16 }
  else if key = "CPU part".toList then { cpuInfo with cpuPart := strtol value 16 }
  else if key = "CPU revision".toList then { cpuInfo with cpuRevision := atoi value }
  else cpuInfo

/-- The body of the loop of `readCpuInfo` for a line with the key and value
strings `key` and `value`. -/
def entryStep (fs : FileSystem) (st : State) (key value : List Char) : Option State :=
  if key = "processor".toList then
    match fillAux fs st.tmpBuffer { cpuIndex := atoi value } with
    | none => none
    | some (cpuInfo, tmpBuffer) => some ⟨st.res ++ [cpuInfo], tmpBuffer⟩
  else
    match st.res.getLast? with
    | none => some st
    | some back => some ⟨setBack st.res (fieldUpdate key value back), st.tmpBuffer⟩

/-- The number an auxiliary lookup stores in its field: `none` when the file
does not open (the field is left alone), otherwise `atoi` of the bytes `read`
delivered into the 8192-byte buffer. -/
def auxValue (fs : FileSystem) (f : AuxFile) (cpuIndex : Int) : Option Int :=
  match fs.sysfs (auxPath f cpuIndex) with
  | some (.data bytes) => some (atoi ((bytes.take 8191).takeWhile (fun c => c != NUL)))
  | _ => none

/-- The strings a result of the parser denotes: the C strings at the key and
value pointers in the buffer the parser leaves, `none` for a null pointer. -/
def entryStrings (r : detail.KeyValue × Mem) : Option (List Char) × Option (List Char) :=
  (r.1.key.bind (cstrAt r.2), r.1.value.bind (cstrAt r.2))

/-- A file system in which `/proc/cpuinfo` holds `text` and `read` succeeds on
every file that opens: `files` gives the bytes of the files that exist. -/
def fileSystem (text : List Char) (files : List Char → Option (List Char)) : FileSystem :=
  ⟨some text, fun path => (files path).map ReadResult.data⟩

/-- The parser stays inside the line buffer on this line. -/
def parses (line : List Char) : Bool := (lineEntry line).isSome

/-- The parser stays inside the line buffer on this line and the line has no
entry or an entry whose key is not "processor". -/
def notProcessorLine (line : List Char) : Bool :=
  match lineEntry line with
  | none => false
  | some none => true
  | some (some (key, _)) => key != "processor".toList

/-! ## Numbers as the specification reads them -/

/-- The number a text of digits denotes in a base. -/
def numeralValue (base : Nat) (s : List Char) : Nat :=
  s.foldl (fun acc c => acc * base + (digitValue c).getD 0) 0

/-- A text of one or more digits of the base. -/
def isNumeral (base : Nat) (s : List Char) : Bool :=
  !s.isEmpty && s.all (isDigitOf base)

/-- The digits of a hexadecimal text: the text without an `0x` or `0X` at its
start. -/
def hexDigits (s : List Char) : List Char :=
  match s with
  | z :: x :: t => if z = '0' ∧ (x = 'x' ∨ x = 'X') then t else s
  | _ => s

/-- A text read as a decimal number; `none` when it is not one. -/
def readDecimal (s : List Char) : Option Nat :=
  if isNumeral 10 s then some (numeralValue 10 s) else none

/-- A text read as a hexadecimal number, with or without `0x`; `none` when
it is not one. -/
def readHex (s : List Char) : Option Nat :=
  if isNumeral 16 (hexDigits s) then some (numeralValue 16 (hexDigits s)) else none

/-- The largest `int`. -/
def INT_MAX : Int := 2 ^ 31 - 1

/-- The five fields of a record that lines of the text set. -/
inductive Field where
  | implementer
  | architecture
  | variant
  | part
  | revision
deriving DecidableEq

/-- The key of the line of a field. -/
def Field.key : Field → List Char
  | .implementer => "CPU implementer".toList
  | .architecture => "CPU architecture".toList
  | .variant => "CPU variant".toList
  | .part => "CPU part".toList
  | .revision => "CPU revision".toList

/-- The member of `CpuInfo` a field is stored in. -/
def Field.get : Field → CpuInfo → Int
  | .implementer, c => c.cpuImplementer
  | .architecture, c => c.cpuArch
  | .variant, c => c.cpuVariant
  | .part, c => c.cpuPart
  | .revision, c => c.cpuRevision

/-- The value of a field read from its text: hexadecimal for implementer,
variant and part, decimal for architecture and revision. -/
def Field.read : Field → List Char → Option Nat
  | .implementer, s => readHex s
  | .architecture, s => readDecimal s
  | .variant, s => readHex s
  | .part, s => readHex s
  | .revision, s => readDecimal s

/-- The largest value the member of a field holds: the members of implementer,
variant and part are `long`, those of architecture and revision are `int`. -/
def Field.max : Field → Int
  | .implementer => LONG_MAX
  | .architecture => INT_MAX
  | .variant => LONG_MAX
  | .part => LONG_MAX
  | .revision => INT_MAX

/-- A field line of a text: the field, the value text and the whole line. -/
structure FieldLine where
  field : Field
  value : List Char
  line : List Char

/-- A line as `fgets` delivers it whole: it ends with its only newline and has
at most 16383 characters. -/
def isLine (l : List Char) : Bool :=
  l.getLast? = some '\n' && !l.dropLast.contains '\n' && decide (l.length ≤ 16383)

/-- A field line whose entry is the key of its field with its value text, the
value a number that its member holds. -/
def FieldLine.wellFormed (x : FieldLine) : Bool :=
  isLine x.line && decide (lineEntry x.line = some (some (x.field.key, x.value)))
    && (match x.field.read x.value with
        | some m => decide ((m : Int) ≤ x.field.max)
        | none => false)

/-- The value the specification gives a field of the record of a text: the
value read from the line of the field, 0 when the text has no such line. -/
def fieldValue (fields : List FieldLine) (f : Field) : Int :=
  match fields.find? (fun x => decide (x.field = f)) with
  | some x => ((x.field.read x.value).getD 0 : Nat)
  | none => 0

/-- The record the specification gives for a text of one "processor" line with
the value `n` and the field lines `fields`, when no auxiliary file opens. -/
def expectedRecord (n : Nat) (fields : List FieldLine) : CpuInfo :=
  { cpuIndex := n
    cpuImplementer := fieldValue fields .implementer
    cpuArch := fieldValue fields .architecture
    cpuVariant := fieldValue fields .variant
    cpuPart := fieldValue fields .part
    cpuRevision := fieldValue fields .revision
    minFreq := 0
    maxFreq := 0
    currentFreq := 0
    packageId := -1 }

/-- The record after the field lines of a text: the assignments of the lines,
first to last. -/
def applyFields (fields : List FieldLine) (c : CpuInfo) : CpuInfo :=
  fields.foldl (fun r x => fieldUpdate x.field.key x.value r) c

/-- The default of the field an auxiliary lookup fills: the field of a record
set back to the value it has before the lookup. -/
def AuxFile.reset : AuxFile → CpuInfo → CpuInfo
  | .minFreq, c => { c with minFreq := 0 }
  | .maxFreq, c => { c with maxFreq := 0 }
  | .currentFreq, c => { c with currentFreq := 0 }
  | .packageId, c => { c with packageId := -1 }

/-- The values of the "processor" lines among some lines, in order. -/
def processorValues (lines : List (List Char)) : List (List Char) :=
  lines.filterMap fun line =>
    match lineEntry line with
    | some (some (key, value)) => if key = "processor".toList then some value else none
    | _ => none

/-- The key of the entry of a line; `none` for a line without an entry. -/
def lineKey (line : List Char) : Option (List Char) :=
  match lineEntry line with
  | some (some (key, _)) => some key
  | _ => none

/-- The lines of a text as the specification counts them: each line with its
newline; the last line may lack one. -/
def textLines : List Char → List (List Char)
  | [] => []
  | c :: cs =>
    if c = '\n' then [c] :: textLines cs
    else
      match textLines cs with
      | [] => [[c]]
      | l :: ls => (c :: l) :: ls

/-- Every line of the text, its newline included, fits the line buffer
`tmp[16384]` together with the terminator: it has at most 16383 characters. -/
def linesFit (text : List Char) : Bool :=
  (textLines text).all (fun l => decide (l.length ≤ 16383))

/-- A piece of text without a newline that fills the line buffer: the key
"BogoMIPS", a colon and a value, 16383 characters in all. -/
def longPiece : List Char := "BogoMIPS : ".toList ++ List.replicate 16372 'x'

/-- The number of positions from the start at which two texts hold the same
character. -/
def commonPrefixLen : List Char → List Char → Nat
  | x :: xs, y :: ys => if x = y then commonPrefixLen xs ys + 1 else 0
  | _, _ => 0

end CpuFreq

/-! ## Memory and the loops of the parser -/

namespace CpuFreq
open detail

theorem load_append_right (p r : List Char) (i : Nat) :
    load (p ++ r) ((p.length : Int) + i) = load r i := by
  unfold load
  have h1 : ¬ ((p.length : Int) + i < 0) := by omega
  have h2 : ¬ ((i : Int) < 0) := by omega
  have h3 : ((p.length : Int) + i).toNat = p.length + i := by omega
  simp only [h1, h2, h3, if_false, Int.toNat_ofNat]
  rw [List.getElem?_append_right (by omega)]
  simp

theorem load_seg (p s r : List Char) (i : Nat) (h : i < s.length) :
    load (p ++ s ++ r) ((p.length : Int) + i) = some (s[i]) := by
  rw [List.append_assoc, load_append_right]
  unfold load
  have h2 : ¬ ((i : Int) < 0) := by omega
  simp only [h2, if_false, Int.toNat_ofNat]
  rw [List.getElem?_append_left h]
  simp [h]

theorem load_neg (mem : Mem) (p : Int) (h : p < 0) : load mem p = none := by
  simp [load, h]

theorem skipWhitespaceFrontLoop_spec (mem : Mem) (back : Int) :
    ∀ (n fuel : Nat) (front : Int), n < fuel →
      (∀ i : Nat, i < n → front + i ≠ back ∧
        ∃ c, load mem (front + i) = some c ∧ isWhitespace c = true) →
      (front + n = back ∨ ∃ c, load mem (front + n) = some c ∧ isWhitespace c = false) →
      skipWhitespaceFrontLoop mem fuel front back = some (front + n) := by
  intro n
  induction n with
  | zero =>
    intro fuel front hf _ hend
    obtain ⟨f, rfl⟩ : ∃ f, fuel = f + 1 := ⟨fuel - 1, by omega⟩
    simp only [Nat.cast_zero, add_zero] at hend ⊢
    unfold skipWhitespaceFrontLoop
    by_cases hfb : front = back
    · simp [hfb]
    · rcases hend with h | ⟨c, hc, hw⟩
      · exact absurd h hfb
      · simp [hfb, hc, hw]
  | succ n ih =>
    intro fuel front hf hws hend
    obtain ⟨f, rfl⟩ : ∃ f, fuel = f + 1 := ⟨fuel - 1, by omega⟩
    have h0 := hws 0 (by omega)
    simp only [Nat.cast_zero, add_zero] at h0
    obtain ⟨hne, c, hc, hw⟩ := h0
    unfold skipWhitespaceFrontLoop
    simp only [hne, if_false, hc, hw, Bool.not_true]
    have key := ih f (front + 1) (by omega)
      (fun i hi => by
        have := hws (i + 1) (by omega)
        have e : front + ((i + 1 : Nat) : Int) = front + 1 + (i : Int) := by push_cast; ring
        rw [e] at this; exact this)
      (by
        have e : front + ((n + 1 : Nat) : Int) = front + 1 + (n : Int) := by push_cast; ring
        rw [e] at hend; exact hend)
    have e : front + ((n + 1 : Nat) : Int) = front + 1 + (n : Int) := by push_cast; ring
    rw [e]
    simpa using key

theorem skipWhitespaceBackLoop_spec (mem : Mem) (front : Int) :
    ∀ (n fuel : Nat) (back : Int), n < fuel →
      (∀ i : Nat, i < n → back - i ≠ front ∧
        ∃ c, load mem (back - i) = some c ∧ isWhitespace c = true) →
      (back - n = front ∨ ∃ c, load mem (back - n) = some c ∧ isWhitespace c = false) →
      skipWhitespaceBackLoop mem fuel front back = some (back - n) := by
  intro n
  induction n with
  | zero =>
    intro fuel back hf _ hend
    obtain ⟨f, rfl⟩ : ∃ f, fuel = f + 1 := ⟨fuel - 1, by omega⟩
    simp only [Nat.cast_zero, sub_zero] at hend ⊢
    unfold skipWhitespaceBackLoop
    by_cases hfb : back = front
    · simp [hfb]
    · rcases hend with h | ⟨c, hc, hw⟩
      · exact absurd h hfb
      · simp [hfb, hc, hw]
  | succ n ih =>
    intro fuel back hf hws hend
    obtain ⟨f, rfl⟩ : ∃ f, fuel = f + 1 := ⟨fuel - 1, by omega⟩
    have h0 := hws 0 (by omega)
    simp only [Nat.cast_zero, sub_zero] at h0
    obtain ⟨hne, c, hc, hw⟩ := h0
    unfold skipWhitespaceBackLoop
    simp only [hne, if_false, hc, hw, Bool.not_true]
    have e : back - ((n + 1 : Nat) : Int) = back - 1 - (n : Int) := by push_cast; ring
    have key := ih f (back - 1) (by omega)
      (fun i hi => by
        have := hws (i + 1) (by omega)
        have e : back - ((i + 1 : Nat) : Int) = back - 1 - (i : Int) := by push_cast; ring
        rw [e] at this; exact this)
      (by rw [e] at hend; exact hend)
    rw [e]
    simpa using key

theorem findDelimiterLoop_found (mem : Mem) (delimiter : Char) (hd : delimiter ≠ NUL) :
    ∀ (n fuel : Nat) (str : Int), n < fuel →
      (∀ i : Nat, i < n → ∃ c, load mem (str + i) = some c ∧ c ≠ NUL ∧ c ≠ delimiter) →
      load mem (str + n) = some delimiter →
      findDelimiterLoop mem delimiter fuel str = some (some (str + n)) := by
  intro n
  induction n with
  | zero =>
    intro fuel str hf _ hend
    obtain ⟨f, rfl⟩ : ∃ f, fuel = f + 1 := ⟨fuel - 1, by omega⟩
    simp only [Nat.cast_zero, add_zero] at hend ⊢
    unfold findDelimiterLoop
    simp [hend, hd]
  | succ n ih =>
    intro fuel str hf hpre hend
    obtain ⟨f, rfl⟩ : ∃ f, fuel = f + 1 := ⟨fuel - 1, by omega⟩
    have h0 := hpre 0 (by omega)
    simp only [Nat.cast_zero, add_zero] at h0
    obtain ⟨c, hc, hn, hcd⟩ := h0
    have e : str + ((n + 1 : Nat) : Int) = str + 1 + (n : Int) := by push_cast; ring
    unfold findDelimiterLoop
    simp only [hc, hn, hcd, if_false]
    rw [e]
    exact ih f (str + 1) (by omega)
      (fun i hi => by
        have := hpre (i + 1) (by omega)
        have e : str + ((i + 1 : Nat) : Int) = str + 1 + (i : Int) := by push_cast; ring
        rw [e] at this; exact this)
      (by rw [e] at hend; exact hend)

theorem findDelimiterLoop_absent (mem : Mem) (delimiter : Char) :
    ∀ (n fuel : Nat) (str : Int), n < fuel →
      (∀ i : Nat, i < n → ∃ c, load mem (str + i) = some c ∧ c ≠ NUL ∧ c ≠ delimiter) →
      load mem (str + n) = some NUL →
      findDelimiterLoop mem delimiter fuel str = some none := by
  intro n
  induction n with
  | zero =>
    intro fuel str hf _ hend
    obtain ⟨f, rfl⟩ : ∃ f, fuel = f + 1 := ⟨fuel - 1, by omega⟩
    simp only [Nat.cast_zero, add_zero] at hend ⊢
    unfold findDelimiterLoop
    simp [hend]
  | succ n ih =>
    intro fuel str hf hpre hend
    obtain ⟨f, rfl⟩ : ∃ f, fuel = f + 1 := ⟨fuel - 1, by omega⟩
    have h0 := hpre 0 (by omega)
    simp only [Nat.cast_zero, add_zero] at h0
    obtain ⟨c, hc, hn, hcd⟩ := h0
    have e : str + ((n + 1 : Nat) : Int) = str + 1 + (n : Int) := by push_cast; ring
    unfold findDelimiterLoop
    simp only [hc, hn, hcd, if_false]
    exact ih f (str + 1) (by omega)
      (fun i hi => by
        have := hpre (i + 1) (by omega)
        have e : str + ((i + 1 : Nat) : Int) = str + 1 + (i : Int) := by push_cast; ring
        rw [e] at this; exact this)
      (by rw [e] at hend; exact hend)

theorem load_at (mem L s R : List Char) (hmem : mem = L ++ s ++ R) (i : Nat)
    (h : i < s.length) (j : Int) (hj : j = (L.length : Int) + i) :
    load mem j = some (s[i]) := by
  subst hmem; subst hj; exact load_seg L s R i h

theorem load_at_ws (mem L s R : List Char) (hmem : mem = L ++ s ++ R)
    (hs : ∀ x ∈ s, isWhitespace x = true) (i : Nat)
    (h : i < s.length) (j : Int) (hj : j = (L.length : Int) + i) :
    ∃ c, load mem j = some c ∧ isWhitespace c = true :=
  ⟨s[i], load_at mem L s R hmem i h j hj, hs _ (List.getElem_mem h)⟩

theorem load_store (mem mem2 : Mem) (p : Int) (c : Char) (h : store mem p c = some mem2)
    (q : Int) : load mem2 q = if q = p then some c else load mem q := by
  unfold store at h
  by_cases hp : p < 0
  · simp [hp] at h
  · by_cases hl : p.toNat < mem.length
    · simp only [hp, hl, if_false, if_true, Option.some.injEq] at h
      subst h
      unfold load
      by_cases hq : q < 0
      · have : q ≠ p := by omega
        simp [hq, this]
      · simp only [hq, if_false]
        by_cases hqp : q = p
        · subst hqp
          simp [List.getElem?_set, hl]
        · have : ¬ (p.toNat = q.toNat) := by omega
          simp [hqp, List.getElem?_set, this]
    · simp [hp, hl] at h

theorem store_ok (mem : Mem) (p : Int) (c d : Char) (h : load mem p = some d) :
    ∃ mem2, store mem p c = some mem2 ∧ mem2.length = mem.length := by
  unfold load at h
  by_cases hp : p < 0
  · simp [hp] at h
  · simp only [hp, if_false] at h
    have hl : p.toNat < mem.length := by
      by_contra hc
      rw [List.getElem?_eq_none (by omega)] at h
      exact Option.noConfusion h
    exact ⟨mem.set p.toNat c, by simp [store, hp, hl], by simp⟩

theorem takeWhile_append_nul (s t : List Char) (h : NUL ∉ s) :
    (s ++ NUL :: t).takeWhile (fun c => c != NUL) = s := by
  induction s with
  | nil => simp [List.takeWhile]
  | cons x xs ih =>
    have hx : x ≠ NUL := fun e => h (by simp [e])
    have hxs : NUL ∉ xs := fun e => h (by simp [e])
    have hb : (x != NUL) = true := by simp [hx]
    simp [List.takeWhile, hb, ih hxs]

theorem cstrAt_of_load (mem : Mem) (p : Int) (s : List Char) (hs : NUL ∉ s)
    (hload : ∀ i : Nat, i < s.length → load mem (p + i) = s[i]?)
    (hend : load mem (p + s.length) = some NUL) : cstrAt mem p = some s := by
  have hp : ¬ p < 0 := by
    intro hp
    by_cases h0 : s.length = 0
    · rw [h0] at hend; simp [load, hp] at hend
    · have := hload 0 (by omega)
      simp [load, hp] at this
      exact h0 (by simpa using this)
  have hdrop : mem.drop p.toNat = s ++ NUL :: mem.drop (p.toNat + s.length + 1) := by
    apply List.ext_getElem?
    intro i
    rw [List.getElem?_drop]
    by_cases hi : i < s.length
    · have := hload i hi
      unfold load at this
      have h1 : ¬ (p + (i : Int) < 0) := by omega
      have h2 : (p + (i : Int)).toNat = p.toNat + i := by omega
      simp only [h1, if_false, h2] at this
      rw [this, List.getElem?_append_left hi]
    · rw [List.getElem?_append_right (by omega)]
      by_cases hi2 : i = s.length
      · subst hi2
        unfold load at hend
        have h1 : ¬ (p + (s.length : Int) < 0) := by omega
        have h2 : (p + (s.length : Int)).toNat = p.toNat + s.length := by omega
        simp only [h1, if_false, h2] at hend
        simp [hend]
      · obtain ⟨j, hj⟩ : ∃ j, i - s.length = j + 1 := ⟨i - s.length - 1, by omega⟩
        rw [hj, List.getElem?_cons_succ, List.getElem?_drop]
        congr 1
        omega
  unfold cstrAt
  simp only [hp, if_false]
  rw [hdrop]
  simp only [List.mem_append, List.mem_cons, true_or, or_true, if_true]
  rw [takeWhile_append_nul s _ hs]

theorem load_some_bounds (mem : Mem) (p : Int) (c : Char) (h : load mem p = some c) :
    0 ≤ p ∧ p < mem.length := by
  unfold load at h
  by_cases hp : p < 0
  · simp [hp] at h
  · simp only [hp, if_false] at h
    have hl : p.toNat < mem.length := by
      by_contra hc
      rw [List.getElem?_eq_none (by omega)] at h
      exact Option.noConfusion h
    omega

theorem isWhitespace_ne_nul (c : Char) (h : isWhitespace c = true) : c ≠ NUL := by
  intro e; subst e; revert h; decide

theorem isWhitespace_ne_colon (c : Char) (h : isWhitespace c = true) : c ≠ ':' := by
  intro e; subst e; revert h; decide

/-- The parser on a buffer laid out as whitespace, key, whitespace, colon,
whitespace, value, whitespace, stated through the cells of the buffer. -/
theorem parseCpuInfoEntry_layout (mem : Mem) (P : Int) (A K B C V D : Nat)
    (hKpos : 0 < K) (hVpos : 0 < V)
    (hA : ∀ i : Nat, i < A → ∃ c, load mem (P + i) = some c ∧ isWhitespace c = true)
    (hK : ∀ i : Nat, i < K → ∃ c, load mem (P + A + i) = some c ∧ c ≠ NUL ∧ c ≠ ':')
    (hK0 : ∃ c, load mem (P + A) = some c ∧ isWhitespace c = false)
    (hK1 : ∃ c, load mem (P + A + K - 1) = some c ∧ isWhitespace c = false)
    (hB : ∀ i : Nat, i < B → ∃ c, load mem (P + A + K + i) = some c ∧ isWhitespace c = true)
    (hcolon : load mem (P + A + K + B) = some ':')
    (hC : ∀ i : Nat, i < C →
      ∃ c, load mem (P + A + K + B + 1 + i) = some c ∧ isWhitespace c = true)
    (hV0 : ∃ c, load mem (P + A + K + B + 1 + C) = some c ∧ isWhitespace c = false)
    (hV1 : ∃ c, load mem (P + A + K + B + 1 + C + V - 1) = some c ∧ isWhitespace c = false)
    (hD : ∀ i : Nat, i < D →
      ∃ c, load mem (P + A + K + B + 1 + C + V + i) = some c ∧ isWhitespace c = true)
    (hZ : ∃ c, load mem (P + A + K + B + 1 + C + V + D) = some c) :
    ∃ mem2, parseCpuInfoEntry mem P (P + A + K + B + 1 + C + V + D - 1)
        = some (⟨some (P + A), some (P + A + K + B + 1 + C)⟩, mem2) ∧
      ∀ q, load mem2 q =
        if q = P + A + K + B + 1 + C + V then some NUL
        else if q = P + A + K then some NUL else load mem q := by
  obtain ⟨cz, hz⟩ := hZ
  have hzb := load_some_bounds _ _ _ hz
  obtain ⟨ck0, hk0, hk0w⟩ := hK0
  have hPb := (load_some_bounds _ _ _ hk0).1
  have hP0 : 0 ≤ P := by
    by_cases ha : 0 < A
    · obtain ⟨c, hc, _⟩ := hA 0 ha
      have := (load_some_bounds _ _ _ hc).1
      simpa using this
    · have : A = 0 := by omega
      subst this
      simpa using hPb
  -- 1. the leading whitespace
  have s1 : skipWhitespaceFront mem P (P + A + K + B + 1 + C + V + D - 1) = some (P + A) :=
    skipWhitespaceFrontLoop_spec mem _ A _ P (by omega)
      (fun i hi => ⟨by omega, hA i hi⟩) (Or.inr ⟨ck0, hk0, hk0w⟩)
  -- 2. the trailing whitespace
  have s2 : skipWhitespaceBack mem (P + A) (P + A + K + B + 1 + C + V + D - 1)
      = some (P + A + K + B + 1 + C + V - 1) := by
    have := skipWhitespaceBackLoop_spec mem (P + A) D (mem.length + 1)
      (P + A + K + B + 1 + C + V + D - 1) (by omega)
      (fun i hi => ⟨by omega, by
        obtain ⟨c, hc, hw⟩ := hD (D - 1 - i) (by omega)
        refine ⟨c, ?_, hw⟩
        rw [← hc]; congr 1; omega⟩)
      (Or.inr (by
        obtain ⟨c, hc, hw⟩ := hV1
        refine ⟨c, ?_, hw⟩
        rw [← hc]; congr 1; omega))
    unfold skipWhitespaceBack
    rw [this]; congr 1; omega
  -- 3. the delimiter
  have s3 : findDelimiter mem (P + A) ':' = some (some (P + A + K + B)) := by
    have := findDelimiterLoop_found mem ':' (by decide) (K + B) (mem.length + 1) (P + A)
      (by omega)
      (fun i hi => by
        by_cases hik : i < K
        · exact hK i hik
        · obtain ⟨c, hc, hw⟩ := hB (i - K) (by omega)
          refine ⟨c, ?_, isWhitespace_ne_nul c hw, isWhitespace_ne_colon c hw⟩
          rw [← hc]; congr 1; omega)
      (by rw [← hcolon]; congr 1; push_cast; ring)
    unfold findDelimiter
    rw [this]; congr 2; push_cast; ring
  -- 4. the whitespace between key and delimiter
  have s4 : skipWhitespaceBack mem (P + A) (P + A + K + B - 1) = some (P + A + K - 1) := by
    have := skipWhitespaceBackLoop_spec mem (P + A) B (mem.length + 1)
      (P + A + K + B - 1) (by omega)
      (fun i hi => ⟨by omega, by
        obtain ⟨c, hc, hw⟩ := hB (B - 1 - i) (by omega)
        refine ⟨c, ?_, hw⟩
        rw [← hc]; congr 1; omega⟩)
      (Or.inr (by
        obtain ⟨c, hc, hw⟩ := hK1
        refine ⟨c, ?_, hw⟩
        rw [← hc]; congr 1; omega))
    unfold skipWhitespaceBack
    rw [this]; congr 1; omega
  -- 5. the whitespace between delimiter and value
  have s5 : skipWhitespaceFront mem (P + A + K + B + 1) (P + A + K + B + 1 + C + V - 1)
      = some (P + A + K + B + 1 + C) :=
    skipWhitespaceFrontLoop_spec mem _ C _ (P + A + K + B + 1) (by omega)
      (fun i hi => ⟨by omega, hC i hi⟩) (Or.inr hV0)
  -- 6. the two terminators
  obtain ⟨ck, hck, _⟩ : ∃ c, load mem (P + A + K) = some c ∧ True := by
    by_cases hb : 0 < B
    · obtain ⟨c, hc, _⟩ := hB 0 hb
      exact ⟨c, by simpa using hc, trivial⟩
    · have : B = 0 := by omega
      subst this
      exact ⟨':', by simpa using hcolon, trivial⟩
  obtain ⟨m1, hm1, hl1⟩ := store_ok mem (P + A + K) NUL ck hck
  obtain ⟨cv, hcv, _⟩ : ∃ c, load mem (P + A + K + B + 1 + C + V) = some c ∧ True := by
    by_cases hd : 0 < D
    · obtain ⟨c, hc, _⟩ := hD 0 hd
      exact ⟨c, by simpa using hc, trivial⟩
    · have : D = 0 := by omega
      subst this
      exact ⟨cz, by simpa using hz, trivial⟩
  have hcv1 : load m1 (P + A + K + B + 1 + C + V) = some cv := by
    rw [load_store mem m1 _ _ hm1]
    have : ¬ (P + A + K + B + 1 + C + V = P + A + K) := by omega
    simp [this, hcv]
  obtain ⟨m2, hm2, hl2⟩ := store_ok m1 (P + A + K + B + 1 + C + V) NUL cv hcv1
  refine ⟨m2, ?_, ?_⟩
  · unfold parseCpuInfoEntry
    have e1 : P + A + K + B + 1 + C + V - 1 + 1 = P + A + K + B + 1 + C + V := by ring
    have e2 : P + A + K - 1 + 1 = P + A + K := by ring
    have n1 : ¬ (P + A = P + A + K + B + 1 + C + V - 1) := by omega
    have n2 : ¬ (P + A = P + A + K) := by omega
    have n3 : ¬ (P + A + K + B + 1 + C = P + A + K + B + 1 + C + V) := by omega
    simp only [s1, s2, n1, if_false, s3, s4, e1, e2, n2, s5, n3, hm1, hm2]
  · intro q
    rw [load_store m1 m2 _ _ hm2, load_store mem m1 _ _ hm1]

/-- The parser on a well-formed line stored anywhere in a block of memory. -/
theorem parseCpuInfoEntry_wellFormed_mem (p0 a k b c v d stale : List Char)
    (hk : k ≠ []) (hv : v ≠ [])
    (hkn : NUL ∉ k) (hvn : NUL ∉ v) (hkc : ':' ∉ k)
    (hkh : isWhitespace (k.head hk) = false) (hkl : isWhitespace (k.getLast hk) = false)
    (hvh : isWhitespace (v.head hv) = false) (hvl : isWhitespace (v.getLast hv) = false)
    (ha : ∀ x ∈ a, isWhitespace x = true) (hb : ∀ x ∈ b, isWhitespace x = true)
    (hc : ∀ x ∈ c, isWhitespace x = true) (hd : ∀ x ∈ d, isWhitespace x = true) :
    ∃ mem2,
      parseCpuInfoEntry (p0 ++ (a ++ k ++ b ++ ':' :: (c ++ v ++ d)) ++ NUL :: stale)
          p0.length ((p0.length : Int) + (a ++ k ++ b ++ ':' :: (c ++ v ++ d)).length - 1)
        = some (⟨some ((p0.length : Int) + a.length),
            some ((p0.length : Int) + a.length + k.length + b.length + 1 + c.length)⟩, mem2) ∧
      cstrAt mem2 ((p0.length : Int) + a.length) = some k ∧
      cstrAt mem2 ((p0.length : Int) + a.length + k.length + b.length + 1 + c.length)
        = some v := by
  have hKpos : 0 < k.length := List.length_pos.mpr hk
  have hVpos : 0 < v.length := List.length_pos.mpr hv
  generalize hmem : p0 ++ (a ++ k ++ b ++ ':' :: (c ++ v ++ d)) ++ NUL :: stale = mem
  have hlen : ((a ++ k ++ b ++ ':' :: (c ++ v ++ d)).length : Int)
      = a.length + k.length + b.length + 1 + c.length + v.length + d.length := by
    simp only [List.length_append, List.length_cons]; push_cast; ring
  have fA : ∀ i : Nat, i < a.length → ∃ x, load mem (p0.length + i) = some x ∧
      isWhitespace x = true := fun i hi =>
    load_at_ws mem p0 a (k ++ b ++ ':' :: (c ++ v ++ d) ++ NUL :: stale)
      (by rw [← hmem]; simp [List.append_assoc]) ha i hi _ rfl
  have fK : ∀ i : Nat, (hi : i < k.length) →
      load mem ((p0.length : Int) + a.length + i) = some (k[i]) := fun i hi =>
    load_at mem (p0 ++ a) k (b ++ ':' :: (c ++ v ++ d) ++ NUL :: stale)
      (by rw [← hmem]; simp [List.append_assoc]) i hi _ (by simp only [List.length_append, List.length_cons, List.length_nil]; push_cast; ring)
  have fB : ∀ i : Nat, i < b.length →
      ∃ x, load mem ((p0.length : Int) + a.length + k.length + i) = some x ∧
        isWhitespace x = true := fun i hi =>
    load_at_ws mem (p0 ++ a ++ k) b (':' :: (c ++ v ++ d) ++ NUL :: stale)
      (by rw [← hmem]; simp [List.append_assoc]) hb i hi _ (by simp only [List.length_append, List.length_cons, List.length_nil]; push_cast; ring)
  have fcolon : load mem ((p0.length : Int) + a.length + k.length + b.length) = some ':' :=
    load_at mem (p0 ++ a ++ k ++ b) [':'] (c ++ v ++ d ++ NUL :: stale)
      (by rw [← hmem]; simp [List.append_assoc]) 0 (by simp) _ (by simp only [List.length_append, List.length_cons, List.length_nil]; push_cast; ring)
  have fC : ∀ i : Nat, i < c.length →
      ∃ x, load mem ((p0.length : Int) + a.length + k.length + b.length + 1 + i) = some x ∧
        isWhitespace x = true := fun i hi =>
    load_at_ws mem (p0 ++ a ++ k ++ b ++ [':']) c (v ++ d ++ NUL :: stale)
      (by rw [← hmem]; simp [List.append_assoc]) hc i hi _ (by simp only [List.length_append, List.length_cons, List.length_nil]; push_cast; ring)
  have fV : ∀ i : Nat, (hi : i < v.length) →
      load mem ((p0.length : Int) + a.length + k.length + b.length + 1 + c.length + i)
        = some (v[i]) := fun i hi =>
    load_at mem (p0 ++ a ++ k ++ b ++ [':'] ++ c) v (d ++ NUL :: stale)
      (by rw [← hmem]; simp [List.append_assoc]) i hi _ (by simp only [List.length_append, List.length_cons, List.length_nil]; push_cast; ring)
  have fD : ∀ i : Nat, i < d.length →
      ∃ x, load mem ((p0.length : Int) + a.length + k.length + b.length + 1 + c.length
        + v.length + i) = some x ∧ isWhitespace x = true := fun i hi =>
    load_at_ws mem (p0 ++ a ++ k ++ b ++ [':'] ++ c ++ v) d (NUL :: stale)
      (by rw [← hmem]; simp [List.append_assoc]) hd i hi _ (by simp only [List.length_append, List.length_cons, List.length_nil]; push_cast; ring)
  have fZ : load mem ((p0.length : Int) + a.length + k.length + b.length + 1 + c.length
        + v.length + d.length) = some NUL :=
    load_at mem (p0 ++ a ++ k ++ b ++ [':'] ++ c ++ v ++ d) [NUL] stale
      (by rw [← hmem]; simp [List.append_assoc]) 0 (by simp) _ (by simp only [List.length_append, List.length_cons, List.length_nil]; push_cast; ring)
  have hk0 : k[0] = k.head hk := by cases k with
    | nil => exact absurd rfl hk
    | cons x xs => rfl
  have hv0 : v[0] = v.head hv := by cases v with
    | nil => exact absurd rfl hv
    | cons x xs => rfl
  have hk1 : k[k.length - 1] = k.getLast hk := (List.getLast_eq_getElem k hk).symm
  have hv1 : v[v.length - 1] = v.getLast hv := (List.getLast_eq_getElem v hv).symm
  obtain ⟨mem2, hparse, hload⟩ := parseCpuInfoEntry_layout mem p0.length
    a.length k.length b.length c.length v.length d.length hKpos hVpos fA
    (fun i hi => ⟨k[i], fK i hi,
      fun e => hkn (e ▸ List.getElem_mem hi), fun e => hkc (e ▸ List.getElem_mem hi)⟩)
    ⟨k[0], by simpa using fK 0 hKpos, by rw [hk0]; exact hkh⟩
    ⟨k[k.length - 1], by
      have := fK (k.length - 1) (by omega)
      rw [← this]; congr 1; omega, by rw [hk1]; exact hkl⟩
    fB fcolon fC
    ⟨v[0], by simpa using fV 0 hVpos, by rw [hv0]; exact hvh⟩
    ⟨v[v.length - 1], by
      have := fV (v.length - 1) (by omega)
      rw [← this]; congr 1; omega, by rw [hv1]; exact hvl⟩
    fD ⟨NUL, fZ⟩
  refine ⟨mem2, ?_, ?_, ?_⟩
  · rw [hlen]
    rw [← hparse]; congr 1; ring
  · apply cstrAt_of_load mem2 _ k hkn
    · intro i hi
      rw [hload, List.getElem?_eq_getElem hi, ← fK i hi]
      have n1 : ¬ ((p0.length : Int) + a.length + i = (p0.length : Int) + a.length + k.length
          + b.length + 1 + c.length + v.length) := by omega
      have n2 : ¬ ((p0.length : Int) + a.length + i = (p0.length : Int) + a.length + k.length) := by
        omega
      simp only [n1, n2, if_false]
    · rw [hload]
      have n1 : ¬ ((p0.length : Int) + a.length + k.length = (p0.length : Int) + a.length
          + k.length + b.length + 1 + c.length + v.length) := by omega
      simp only [n1, if_false, if_true]
  · apply cstrAt_of_load mem2 _ v hvn
    · intro i hi
      rw [hload, List.getElem?_eq_getElem hi, ← fV i hi]
      have n1 : ¬ ((p0.length : Int) + a.length + k.length + b.length + 1 + c.length + i
          = (p0.length : Int) + a.length + k.length + b.length + 1 + c.length + v.length) := by
        omega
      have n2 : ¬ ((p0.length : Int) + a.length + k.length + b.length + 1 + c.length + i
          = (p0.length : Int) + a.length + k.length) := by
        omega
      simp only [n1, n2, if_false]
    · rw [hload]
      simp only [if_true]

theorem strlen_append_nul (s t : List Char) (h : NUL ∉ s) :
    strlen (s ++ NUL :: t) = s.length := by
  unfold strlen; rw [takeWhile_append_nul s t h]

theorem nul_not_mem_of_whitespace (w : List Char) (h : ∀ x ∈ w, isWhitespace x = true) :
    NUL ∉ w := fun hm => isWhitespace_ne_nul NUL (h NUL hm) rfl

theorem colon_not_mem_of_whitespace (w : List Char) (h : ∀ x ∈ w, isWhitespace x = true) :
    ':' ∉ w := fun hm => isWhitespace_ne_colon ':' (h ':' hm) rfl

/-- The entry `readCpuInfo` reads from a well-formed line. -/
theorem lineEntry_wellFormed (k v a b c d : List Char)
    (hk : k ≠ []) (hv : v ≠ [])
    (hkn : NUL ∉ k) (hvn : NUL ∉ v) (hkc : ':' ∉ k)
    (hkh : isWhitespace (k.head hk) = false) (hkl : isWhitespace (k.getLast hk) = false)
    (hvh : isWhitespace (v.head hv) = false) (hvl : isWhitespace (v.getLast hv) = false)
    (ha : ∀ x ∈ a, isWhitespace x = true) (hb : ∀ x ∈ b, isWhitespace x = true)
    (hc : ∀ x ∈ c, isWhitespace x = true) (hd : ∀ x ∈ d, isWhitespace x = true) :
    ∃ key value tmp,
      parseCpuInfoEntry ((a ++ k ++ b ++ ':' :: (c ++ v ++ d)) ++ [NUL]) 0
          (((a ++ k ++ b ++ ':' :: (c ++ v ++ d)).length : Int) - 1)
        = some (⟨some key, some value⟩, tmp) ∧
      cstrAt tmp key = some k ∧ cstrAt tmp value = some v ∧
      parseLine (a ++ k ++ b ++ ':' :: (c ++ v ++ d)) = some (some (key, value, tmp)) ∧
      lineEntry (a ++ k ++ b ++ ':' :: (c ++ v ++ d)) = some (some (k, v)) := by
  obtain ⟨tmp, hp, hck, hcv⟩ := parseCpuInfoEntry_wellFormed_mem [] a k b c v d []
    hk hv hkn hvn hkc hkh hkl hvh hvl ha hb hc hd
  simp only [List.nil_append, List.length_nil, Nat.cast_zero, zero_add] at hp hck hcv
  have hnul : NUL ∉ a ++ k ++ b ++ ':' :: (c ++ v ++ d) := by
    have h1 := nul_not_mem_of_whitespace a ha
    have h2 := nul_not_mem_of_whitespace b hb
    have h3 := nul_not_mem_of_whitespace c hc
    have h4 := nul_not_mem_of_whitespace d hd
    have h5 : NUL ≠ ':' := by decide
    simp [h1, h2, h3, h4, h5, hkn, hvn]
  have hpl : parseLine (a ++ k ++ b ++ ':' :: (c ++ v ++ d))
      = some (some ((a.length : Int),
          (a.length : Int) + k.length + b.length + 1 + c.length, tmp)) := by
    unfold parseLine
    have hs := strlen_append_nul _ [] hnul
    have hpos : (a ++ k ++ b ++ ':' :: (c ++ v ++ d)).length ≠ 0 := by simp
    simp only [hs, hpos, if_false, hp]
  refine ⟨_, _, tmp, hp, hck, hcv, hpl, ?_⟩
  unfold lineEntry
  simp only [hpl, hck, hcv]

theorem head_dropWhile_isWhitespace (s : List Char) (h : s.dropWhile isWhitespace ≠ []) :
    isWhitespace ((s.dropWhile isWhitespace).head h) = false := by
  induction s with
  | nil => exact absurd rfl h
  | cons x xs ih =>
    by_cases hx : isWhitespace x = true
    · have e : (x :: xs).dropWhile isWhitespace = xs.dropWhile isWhitespace := by
        simp [List.dropWhile, hx]
      have h2 : xs.dropWhile isWhitespace ≠ [] := by rw [← e]; exact h
      have := ih h2
      simp only [e]
      exact this
    · have hx2 : isWhitespace x = false := by simpa using hx
      have e : (x :: xs).dropWhile isWhitespace = x :: xs := by
        simp [List.dropWhile, hx2]
      simp only [e, List.head_cons]
      exact hx2

theorem dropWhile_ne_nil_of_mem (s : List Char) (x : Char) (hx : x ∈ s)
    (hw : isWhitespace x = false) : s.dropWhile isWhitespace ≠ [] := by
  induction s with
  | nil => simp at hx
  | cons y ys ih =>
    by_cases hy : isWhitespace y = true
    · have e : (y :: ys).dropWhile isWhitespace = ys.dropWhile isWhitespace := by
        simp [List.dropWhile, hy]
      rw [e]
      rcases List.mem_cons.mp hx with rfl | h
      · rw [hw] at hy; exact absurd hy (by decide)
      · exact ih h
    · have hy2 : isWhitespace y = false := by simpa using hy
      simp [List.dropWhile, hy2]

/-- A text with a character that is not whitespace is its trimmed text between
two runs of whitespace, and the trimmed text starts and ends with a character
that is not whitespace. -/
theorem trim_decompose (s : List Char) (x : Char) (hx : x ∈ s) (hw : isWhitespace x = false) :
    ∃ (a b : List Char) (hne : trim s ≠ []),
      s = a ++ trim s ++ b ∧
      (∀ y ∈ a, isWhitespace y = true) ∧ (∀ y ∈ b, isWhitespace y = true) ∧
      isWhitespace ((trim s).head hne) = false ∧
      isWhitespace ((trim s).getLast hne) = false := by
  have h1 : s = s.takeWhile isWhitespace ++ trimFront s :=
    (List.takeWhile_append_dropWhile isWhitespace s).symm
  have hf : trimFront s ≠ [] := dropWhile_ne_nil_of_mem s x hx hw
  have hfh : isWhitespace ((trimFront s).head hf) = false := head_dropWhile_isWhitespace s hf
  have h2 : (trimFront s).reverse
      = (trimFront s).reverse.takeWhile isWhitespace
        ++ (trimFront s).reverse.dropWhile isWhitespace :=
    (List.takeWhile_append_dropWhile isWhitespace _).symm
  have h3 : trimFront s = trim s ++ ((trimFront s).reverse.takeWhile isWhitespace).reverse := by
    have := congrArg List.reverse h2
    rw [List.reverse_reverse, List.reverse_append] at this
    exact this
  have hlastmem : (trimFront s).head hf ∈ (trimFront s).reverse := by
    rw [List.mem_reverse]; exact List.head_mem hf
  have hr : (trimFront s).reverse.dropWhile isWhitespace ≠ [] :=
    dropWhile_ne_nil_of_mem _ _ hlastmem hfh
  have hne : trim s ≠ [] := by
    unfold trim trimBack
    intro h
    exact hr (List.reverse_eq_nil_iff.mp h)
  refine ⟨s.takeWhile isWhitespace, ((trimFront s).reverse.takeWhile isWhitespace).reverse,
    hne, ?_, ?_, ?_, ?_, ?_⟩
  · rw [List.append_assoc, ← h3]; exact h1
  · intro y hy
    exact (List.mem_takeWhile_imp hy)
  · intro y hy
    rw [List.mem_reverse] at hy
    exact (List.mem_takeWhile_imp hy)
  · have e : (trimFront s).head hf = (trim s).head hne := by
      have : (trimFront s).head? = (trim s).head? := by
        conv_lhs => rw [h3]
        rw [List.head?_append_of_ne_nil _ hne]
      rw [List.head?_eq_head hf, List.head?_eq_head hne] at this
      exact Option.some.inj this
    rw [← e]; exact hfh
  · have e : (trim s).getLast hne
        = ((trimFront s).reverse.dropWhile isWhitespace).head hr := by
      unfold trim trimBack
      rw [List.getLast_reverse]
    rw [e]
    exact head_dropWhile_isWhitespace _ hr

theorem not_mem_trim (s : List Char) (c : Char) (h : c ∉ s) : c ∉ trim s := by
  intro hm
  apply h
  unfold trim trimBack trimFront at hm
  rw [List.mem_reverse] at hm
  have := (List.dropWhile_sublist _).mem hm
  rw [List.mem_reverse] at this
  exact (List.dropWhile_sublist _).mem this

/-- The entry of a line with a key and a value around its first colon. -/
theorem lineEntry_split (pre post : List Char) (hc : ':' ∉ pre)
    (hpn : NUL ∉ pre) (hqn : NUL ∉ post)
    (x : Char) (hx : x ∈ pre) (hxw : isWhitespace x = false)
    (y : Char) (hy : y ∈ post) (hyw : isWhitespace y = false) :
    lineEntry (pre ++ ':' :: post) = some (some (trim pre, trim post)) := by
  obtain ⟨a, b, hk, hpre, ha, hb, hkh, hkl⟩ := trim_decompose pre x hx hxw
  obtain ⟨c, d, hv, hpost, hc2, hd, hvh, hvl⟩ := trim_decompose post y hy hyw
  obtain ⟨_, _, _, _, _, _, _, h⟩ := lineEntry_wellFormed (trim pre) (trim post) a b c d hk hv
    (not_mem_trim pre NUL hpn) (not_mem_trim post NUL hqn) (not_mem_trim pre ':' hc)
    hkh hkl hvh hvl ha hb hc2 hd
  rw [← hpre, ← hpost] at h
  exact h

theorem skipWhitespaceFrontLoop_range (mem : Mem) :
    ∀ (n fuel : Nat) (front back : Int), back = front + n → n < fuel →
      (∀ i : Nat, i < n → ∃ c, load mem (front + i) = some c) →
      ∃ r, skipWhitespaceFrontLoop mem fuel front back = some r ∧ front ≤ r ∧ r ≤ back := by
  intro n
  induction n with
  | zero =>
    intro fuel front back hb hf _
    obtain ⟨f, rfl⟩ : ∃ f, fuel = f + 1 := ⟨fuel - 1, by omega⟩
    have : front = back := by simp [hb]
    exact ⟨back, by simp [skipWhitespaceFrontLoop, this], by omega, le_refl _⟩
  | succ n ih =>
    intro fuel front back hb hf hl
    obtain ⟨f, rfl⟩ : ∃ f, fuel = f + 1 := ⟨fuel - 1, by omega⟩
    have hne : front ≠ back := by push_cast at hb; omega
    obtain ⟨c, hc⟩ := hl 0 (by omega)
    simp only [Nat.cast_zero, add_zero] at hc
    unfold skipWhitespaceFrontLoop
    simp only [hne, if_false, hc]
    by_cases hw : isWhitespace c = true
    · simp only [hw, Bool.not_true]
      obtain ⟨r, hr, h1, h2⟩ := ih f (front + 1) back (by push_cast at hb; omega) (by omega)
        (fun i hi => by
          obtain ⟨c, hc⟩ := hl (i + 1) (by omega)
          exact ⟨c, by rw [← hc]; congr 1; push_cast; ring⟩)
      exact ⟨r, by simpa using hr, by omega, h2⟩
    · have hw2 : isWhitespace c = false := by simpa using hw
      exact ⟨front, by simp [hw2], le_refl _, by push_cast at hb; omega⟩

theorem skipWhitespaceBackLoop_range (mem : Mem) :
    ∀ (n fuel : Nat) (front back : Int), back = front + n → n < fuel →
      (∀ i : Nat, i < n → ∃ c, load mem (back - i) = some c) →
      ∃ r, skipWhitespaceBackLoop mem fuel front back = some r ∧ front ≤ r ∧ r ≤ back := by
  intro n
  induction n with
  | zero =>
    intro fuel front back hb hf _
    obtain ⟨f, rfl⟩ : ∃ f, fuel = f + 1 := ⟨fuel - 1, by omega⟩
    have : back = front := by simp [hb]
    exact ⟨front, by simp [skipWhitespaceBackLoop, this], le_refl _, by omega⟩
  | succ n ih =>
    intro fuel front back hb hf hl
    obtain ⟨f, rfl⟩ : ∃ f, fuel = f + 1 := ⟨fuel - 1, by omega⟩
    have hne : back ≠ front := by push_cast at hb; omega
    obtain ⟨c, hc⟩ := hl 0 (by omega)
    simp only [Nat.cast_zero, sub_zero] at hc
    unfold skipWhitespaceBackLoop
    simp only [hne, if_false, hc]
    by_cases hw : isWhitespace c = true
    · simp only [hw, Bool.not_true]
      obtain ⟨r, hr, h1, h2⟩ := ih f front (back - 1) (by push_cast at hb; omega) (by omega)
        (fun i hi => by
          obtain ⟨c, hc⟩ := hl (i + 1) (by omega)
          exact ⟨c, by rw [← hc]; congr 1; push_cast; ring⟩)
      exact ⟨r, by simpa using hr, h1, by omega⟩
    · have hw2 : isWhitespace c = false := by simpa using hw
      exact ⟨back, by simp [hw2], by push_cast at hb; omega, le_refl _⟩

/-- The parser on a C string without a colon. -/
theorem parseCpuInfoEntry_mem_noColon (s t : List Char) (hs : s ≠ []) (hn : NUL ∉ s)
    (hc : ':' ∉ s) :
    parseCpuInfoEntry (s ++ NUL :: t) 0 ((s.length : Int) - 1)
      = some (KeyValue.absent, s ++ NUL :: t) := by
  have hpos : 0 < s.length := List.length_pos.mpr hs
  generalize hmem : s ++ NUL :: t = mem
  have hlen : mem.length = s.length + 1 + t.length := by
    rw [← hmem]; simp; omega
  have fS : ∀ i : Nat, (hi : i < s.length) → load mem i = some (s[i]) := fun i hi =>
    load_at mem [] s (NUL :: t) (by rw [← hmem]; simp) i hi _ (by simp)
  have fZ : load mem s.length = some NUL :=
    load_at mem s [NUL] t (by rw [← hmem]; simp) 0 (by simp) _ (by simp)
  obtain ⟨r, hr, hr1, hr2⟩ := skipWhitespaceFrontLoop_range mem (s.length - 1)
    (mem.length + 1) 0 ((s.length : Int) - 1) (by omega) (by omega)
    (fun i hi => ⟨s[i], by simpa using fS i (by omega)⟩)
  obtain ⟨n, hn1⟩ : ∃ n : Nat, (s.length : Int) - 1 = r + n :=
    ⟨((s.length : Int) - 1 - r).toNat, by omega⟩
  obtain ⟨r2, hr3, hr4, hr5⟩ := skipWhitespaceBackLoop_range mem n
    (mem.length + 1) r ((s.length : Int) - 1) hn1 (by omega)
    (fun i hi => by
      obtain ⟨j, hj⟩ : ∃ j : Nat, (s.length : Int) - 1 - i = j :=
        ⟨((s.length : Int) - 1 - i).toNat, by omega⟩
      rw [hj]
      have hjs : j < s.length := by omega
      exact ⟨s[j], fS j hjs⟩)
  unfold parseCpuInfoEntry skipWhitespaceFront skipWhitespaceBack
  simp only [hr, hr3]
  by_cases he : r = r2
  · simp [he]
  · simp only [he, if_false]
    obtain ⟨m, hm⟩ : ∃ m : Nat, (s.length : Int) = r + m := ⟨((s.length : Int) - r).toNat, by omega⟩
    have := findDelimiterLoop_absent mem ':' m (mem.length + 1) r (by omega)
      (fun i hi => by
        obtain ⟨j, hj⟩ : ∃ j : Nat, r + i = j := ⟨(r + i).toNat, by omega⟩
        rw [hj]
        have hjs : j < s.length := by omega
        exact ⟨s[j], fS j hjs, fun e => hn (e ▸ List.getElem_mem hjs),
          fun e => hc (e ▸ List.getElem_mem hjs)⟩)
      (by rw [← hm]; exact fZ)
    unfold findDelimiter
    simp only [this]

theorem append_nul_split (line : List Char) :
    ∃ t, line ++ [NUL] = line.takeWhile (fun c => c != NUL) ++ NUL :: t := by
  induction line with
  | nil => exact ⟨[], rfl⟩
  | cons x xs ih =>
    by_cases hx : x = NUL
    · subst hx
      exact ⟨xs ++ [NUL], by simp [List.takeWhile]⟩
    · obtain ⟨t, ht⟩ := ih
      have hb : (x != NUL) = true := by simp [hx]
      exact ⟨t, by simp only [List.takeWhile, hb, List.cons_append, ht]⟩

theorem nul_not_mem_takeWhile (line : List Char) :
    NUL ∉ line.takeWhile (fun c => c != NUL) := by
  intro h
  have := List.mem_takeWhile_imp h
  simp at this

/-- A line without a colon gives no entry. -/
theorem lineEntry_noColon (line : List Char) (hc : ':' ∉ line) : lineEntry line = some none := by
  obtain ⟨t, ht⟩ := append_nul_split line
  have hn := nul_not_mem_takeWhile line
  have hc2 : ':' ∉ line.takeWhile (fun c => c != NUL) :=
    fun h => hc ((List.takeWhile_sublist _).mem h)
  unfold lineEntry parseLine
  simp only [ht, strlen_append_nul _ t hn]
  by_cases h0 : (line.takeWhile (fun c => c != NUL)).length = 0
  · simp [h0]
  · have hs : line.takeWhile (fun c => c != NUL) ≠ [] := fun e => h0 (by simp [e])
    simp only [h0, if_false, parseCpuInfoEntry_mem_noColon _ t hs hn hc2, KeyValue.absent]

theorem skipWhitespaceBackLoop_below (mem : Mem) :
    ∀ (fuel : Nat) (front back r : Int), back < front →
      skipWhitespaceBackLoop mem fuel front back = some r →
      r ≤ back ∧ ∃ c, load mem r = some c ∧ isWhitespace c = false := by
  intro fuel
  induction fuel with
  | zero => intro front back r _ h; simp [skipWhitespaceBackLoop] at h
  | succ f ih =>
    intro front back r hlt h
    have hne : back ≠ front := by omega
    unfold skipWhitespaceBackLoop at h
    simp only [hne, if_false] at h
    cases hl : load mem back with
    | none => simp [hl] at h
    | some c =>
      simp only [hl] at h
      by_cases hw : isWhitespace c = true
      · simp only [hw, Bool.not_true] at h
        obtain ⟨h1, h2⟩ := ih front (back - 1) r (by omega) (by simpa using h)
        exact ⟨by omega, h2⟩
      · have hw2 : isWhitespace c = false := by simpa using hw
        simp only [hw2, Bool.not_false, if_true, Option.some.injEq] at h
        subst h
        exact ⟨le_refl _, c, hl, hw2⟩

/-- The line `"  :value\n"`, whose key is empty, stored anywhere in memory:
the search for the end of the key starts below the start of the key and the
parser does not return the absent result. -/
theorem parseCpuInfoEntry_emptyKey_mem (below stale : List Char) (tmp : Mem) :
    parseCpuInfoEntry (below ++ "  :value\n".toList ++ NUL :: stale) below.length
      ((below.length : Int) + 8) ≠ some (KeyValue.absent, tmp) := by
  generalize hmem : below ++ "  :value\n".toList ++ NUL :: stale = mem
  have fS : ∀ i : Nat, (hi : i < "  :value\n".toList.length) →
      load mem ((below.length : Int) + i) = some ("  :value\n".toList[i]) := fun i hi =>
    load_at mem below _ (NUL :: stale) hmem.symm i hi _ rfl
  have f0 := fS 0 (by decide)
  have f1 := fS 1 (by decide)
  have f2 := fS 2 (by decide)
  have f3 := fS 3 (by decide)
  have f7 := fS 7 (by decide)
  have f8 := fS 8 (by decide)
  have hlen : mem.length = below.length + 9 + (stale.length + 1) := by
    rw [← hmem]; simp only [List.length_append, List.length_cons]; rfl
  have s1 : skipWhitespaceFront mem below.length ((below.length : Int) + 8)
      = some ((below.length : Int) + 2) := by
    have := skipWhitespaceFrontLoop_spec mem ((below.length : Int) + 8) 2 (mem.length + 1)
      below.length (by omega)
      (fun i hi => ⟨by omega, by
        interval_cases i
        · exact ⟨_, f0, by decide⟩
        · exact ⟨_, f1, by decide⟩⟩)
      (Or.inr ⟨_, f2, by decide⟩)
    exact this
  have s2 : skipWhitespaceBack mem ((below.length : Int) + 2) ((below.length : Int) + 8)
      = some ((below.length : Int) + 7) := by
    have := skipWhitespaceBackLoop_spec mem ((below.length : Int) + 2) 1 (mem.length + 1)
      ((below.length : Int) + 8) (by omega)
      (fun i hi => ⟨by omega, by
        interval_cases i
        exact ⟨_, by simpa using f8, by decide⟩⟩)
      (Or.inr ⟨_, by
        have e : (below.length : Int) + 8 - ((1 : Nat) : Int) = (below.length : Int) + (7 : Nat) := by
          push_cast; ring
        rw [e]; exact f7, by decide⟩)
    unfold skipWhitespaceBack
    rw [this]; congr 1; push_cast; ring
  have s3 : findDelimiter mem ((below.length : Int) + 2) ':'
      = some (some ((below.length : Int) + 2)) := by
    have := findDelimiterLoop_found mem ':' (by decide) 0 (mem.length + 1)
      ((below.length : Int) + 2) (by omega) (fun i hi => absurd hi (by omega))
      (by simpa using f2)
    unfold findDelimiter
    rw [this]; simp
  have s5 : skipWhitespaceFront mem ((below.length : Int) + 2 + 1) ((below.length : Int) + 7)
      = some ((below.length : Int) + 3) := by
    have := skipWhitespaceFrontLoop_spec mem ((below.length : Int) + 7) 0 (mem.length + 1)
      ((below.length : Int) + 2 + 1) (by omega) (fun i hi => absurd hi (by omega))
      (Or.inr ⟨_, by
        have e : (below.length : Int) + 2 + 1 + ((0 : Nat) : Int) = (below.length : Int) + (3 : Nat) := by
          push_cast; ring
        rw [e]; exact f3, by decide⟩)
    unfold skipWhitespaceFront
    rw [this]; simp; ring
  unfold parseCpuInfoEntry
  have n1 : ¬ ((below.length : Int) + 2 = (below.length : Int) + 7) := by omega
  simp only [s1, s2, n1, if_false, s3]
  cases h4 : skipWhitespaceBack mem ((below.length : Int) + 2) ((below.length : Int) + 2 - 1) with
  | none => simp
  | some r =>
    obtain ⟨hr, c, hc, hw⟩ := skipWhitespaceBackLoop_below mem _ _ _ r (by omega) h4
    have hr1 : r ≠ (below.length : Int) + 1 := by
      intro e
      rw [e] at hc
      have e2 : (below.length : Int) + 1 = (below.length : Int) + ((1 : Nat) : Int) := by push_cast; ring
      rw [e2, f1] at hc
      have : c = ' ' := (Option.some.inj hc).symm
      subst this
      revert hw; decide
    have n2 : ¬ ((below.length : Int) + 2 = r + 1) := by omega
    have n3 : ¬ ((below.length : Int) + 3 = (below.length : Int) + 7 + 1) := by omega
    simp only [n2, if_false, s5, n3]
    split
    · simp
    · split
      · simp
      · simp [KeyValue.absent]

/-! ## C strings and `strEqual` -/

theorem mem_split_nul (l : List Char) (h : NUL ∈ l) :
    ∃ t, l = l.takeWhile (fun c => c != NUL) ++ NUL :: t := by
  induction l with
  | nil => simp at h
  | cons x xs ih =>
    by_cases hx : x = NUL
    · subst hx
      exact ⟨xs, by simp [List.takeWhile]⟩
    · have hb : (x != NUL) = true := by simp [hx]
      have hm : NUL ∈ xs := by
        rcases List.mem_cons.mp h with e | e
        · exact absurd e.symm hx
        · exact e
      obtain ⟨t, ht⟩ := ih hm
      exact ⟨t, by simp only [List.takeWhile, hb, List.cons_append]; rw [← ht]⟩

/-- The cells of a C string: `cstrAt` read cell by cell. -/
theorem cstrAt_load (mem : Mem) (p : Int) (s : List Char) (h : cstrAt mem p = some s) :
    NUL ∉ s ∧ (∀ i : Nat, i < s.length → load mem (p + i) = s[i]?) ∧
      load mem (p + s.length) = some NUL := by
  unfold cstrAt at h
  by_cases hp : p < 0
  · simp [hp] at h
  · simp only [hp, if_false] at h
    by_cases hm : NUL ∈ mem.drop p.toNat
    · simp only [hm, if_true, Option.some.injEq] at h
      obtain ⟨t, ht⟩ := mem_split_nul _ hm
      rw [h] at ht
      have hn : NUL ∉ s := by rw [← h]; exact nul_not_mem_takeWhile _
      have key : ∀ i : Nat, load mem (p + i) = (s ++ NUL :: t)[i]? := by
        intro i
        unfold load
        have h1 : ¬ (p + (i : Int) < 0) := by omega
        have h2 : (p + (i : Int)).toNat = p.toNat + i := by omega
        simp only [h1, if_false, h2]
        rw [← ht, List.getElem?_drop]
      refine ⟨hn, ?_, ?_⟩
      · intro i hi
        rw [key, List.getElem?_append_left hi]
      · rw [key, List.getElem?_append_right (le_refl _)]
        simp
    · simp [hm] at h

theorem cstrAt_tail (mem : Mem) (p : Int) (x : Char) (xs : List Char)
    (h : NUL ∉ x :: xs ∧ (∀ i : Nat, i < (x :: xs).length → load mem (p + i) = (x :: xs)[i]?) ∧
      load mem (p + (x :: xs).length) = some NUL) :
    load mem p = some x ∧ x ≠ NUL ∧
      (NUL ∉ xs ∧ (∀ i : Nat, i < xs.length → load mem (p + 1 + i) = xs[i]?) ∧
        load mem (p + 1 + xs.length) = some NUL) := by
  obtain ⟨hn, hl, he⟩ := h
  refine ⟨by simpa using hl 0 (by simp), fun e => hn (by simp [e]), fun e => hn (by simp [e]),
    ?_, ?_⟩
  · intro i hi
    have := hl (i + 1) (by simp; omega)
    rw [List.getElem?_cons_succ] at this
    rw [← this]; congr 1; push_cast; ring
  · rw [← he]; congr 1; simp; ring

theorem strEqualLoop_shift (smem : Mem) (str : Int) (pmem : Mem) (pattern : Int) :
    ∀ (n i : Nat), strEqualLoop smem str pmem pattern n (i + 1)
      = strEqualLoop smem (str + 1) pmem (pattern + 1) n i := by
  intro n
  induction n with
  | zero => intro i; rfl
  | succ n ih =>
    intro i
    unfold strEqualLoop
    have e1 : str + ((i + 1 : Nat) : Int) = str + 1 + (i : Int) := by push_cast; ring
    have e2 : pattern + ((i + 1 : Nat) : Int) = pattern + 1 + (i : Int) := by push_cast; ring
    rw [e1, e2, ih (i + 1)]

/-- The loop of `strEqual` on two C strings, the second shorter than the
number of turns: it decides equality. -/
theorem strEqualLoop_cstr (smem pmem : Mem) :
    ∀ (k pat : List Char) (str pattern : Int) (n : Nat), pat.length < n →
      (NUL ∉ k ∧ (∀ i : Nat, i < k.length → load smem (str + i) = k[i]?) ∧
        load smem (str + k.length) = some NUL) →
      (NUL ∉ pat ∧ (∀ i : Nat, i < pat.length → load pmem (pattern + i) = pat[i]?) ∧
        load pmem (pattern + pat.length) = some NUL) →
      strEqualLoop smem str pmem pattern n 0 = some (decide (k = pat)) := by
  intro k
  induction k with
  | nil =>
    intro pat str pattern n hn hk hp
    obtain ⟨m, rfl⟩ : ∃ m, n = m + 1 := ⟨n - 1, by omega⟩
    have hk0 : load smem str = some NUL := by simpa using hk.2.2
    cases pat with
    | nil =>
      have hp0 : load pmem pattern = some NUL := by simpa using hp.2.2
      unfold strEqualLoop
      simp [hk0, hp0]
    | cons y ys =>
      obtain ⟨hy, hyn, _⟩ := cstrAt_tail pmem pattern y ys hp
      unfold strEqualLoop
      simp only [Nat.cast_zero, add_zero, hk0, hy]
      have : NUL ≠ y := fun e => hyn e.symm
      simp [this]
  | cons x xs ih =>
    intro pat str pattern n hn hk hp
    obtain ⟨m, rfl⟩ : ∃ m, n = m + 1 := ⟨n - 1, by omega⟩
    obtain ⟨hx, hxn, hxs⟩ := cstrAt_tail smem str x xs hk
    cases pat with
    | nil =>
      have hp0 : load pmem pattern = some NUL := by simpa using hp.2.2
      unfold strEqualLoop
      simp only [Nat.cast_zero, add_zero, hx, hp0]
      simp [hxn]
    | cons y ys =>
      obtain ⟨hy, hyn, hys⟩ := cstrAt_tail pmem pattern y ys hp
      unfold strEqualLoop
      simp only [Nat.cast_zero, add_zero, hx, hy]
      by_cases hxy : x = y
      · subst hxy
        simp only [ne_eq, not_true_eq_false, if_false, hxn]
        rw [strEqualLoop_shift, ih ys (str + 1) (pattern + 1) m (by simp at hn; omega) hxs hys]
        simp
      · simp [hxy]

theorem literal_cstr (s : String) (h : NUL ∉ s.toList) :
    NUL ∉ s.toList ∧ (∀ i : Nat, i < s.toList.length → load (literal s) ((0 : Int) + i) = s.toList[i]?) ∧
      load (literal s) ((0 : Int) + s.toList.length) = some NUL := by
  refine ⟨h, ?_, ?_⟩
  · intro i hi
    have := load_at (literal s) [] s.toList [NUL] (by simp [literal]) i hi ((0 : Int) + i) (by simp)
    rw [this, List.getElem?_eq_getElem hi]
  · exact load_at (literal s) s.toList [NUL] [] (by simp [literal]) 0 (by simp) _ (by simp)

/-- On the key string `k` of a parsed line `strEqual` against a literal of
fewer than 1000 characters tells whether `k` is the literal. -/
theorem strEqual_literal (tmp : Mem) (key : Int) (k : List Char) (s : String)
    (hk : cstrAt tmp key = some k) (hs : NUL ∉ s.toList) (hl : s.toList.length < 1000) :
    strEqual tmp key (literal s) 0 = some (decide (k = s.toList)) :=
  strEqualLoop_cstr tmp (literal s) k s.toList key 0 kMaxStringSize hl
    (cstrAt_load tmp key k hk) (literal_cstr s hs)

/-! ## The loop body by key and value strings -/

theorem lineEntry_some_inv (line : List Char) (k v : List Char)
    (h : lineEntry line = some (some (k, v))) :
    ∃ key value tmp, parseLine line = some (some (key, value, tmp)) ∧
      cstrAt tmp key = some k ∧ cstrAt tmp value = some v := by
  unfold lineEntry at h
  cases hp : parseLine line with
  | none => simp [hp] at h
  | some r =>
    cases r with
    | none => simp [hp] at h
    | some e =>
      obtain ⟨key, value, tmp⟩ := e
      simp only [hp] at h
      cases hk : cstrAt tmp key with
      | none => simp [hk] at h
      | some k2 =>
        cases hv : cstrAt tmp value with
        | none => simp [hk, hv] at h
        | some v2 =>
          simp only [hk, hv, Option.some.injEq, Prod.mk.injEq] at h
          obtain ⟨rfl, rfl⟩ := h
          exact ⟨key, value, tmp, rfl, hk, hv⟩

theorem lineEntry_absent_inv (line : List Char) (h : lineEntry line = some none) :
    parseLine line = some none := by
  unfold lineEntry at h
  cases hp : parseLine line with
  | none => simp [hp] at h
  | some r =>
    cases r with
    | none => rfl
    | some e =>
      obtain ⟨key, value, tmp⟩ := e
      simp only [hp] at h
      cases hk : cstrAt tmp key with
      | none => simp [hk] at h
      | some k2 =>
        cases hv : cstrAt tmp value with
        | none => simp [hk, hv] at h
        | some v2 => simp [hk, hv] at h

theorem setField_eq (tmp : Mem) (key value : Int) (k v : List Char) (cpuInfo : CpuInfo)
    (hk : cstrAt tmp key = some k) (hv : cstrAt tmp value = some v) :
    setField tmp key value cpuInfo = some (fieldUpdate k v cpuInfo) := by
  have e1 := strEqual_literal tmp key k "CPU implementer" hk (by decide) (by decide)
  have e2 := strEqual_literal tmp key k "CPU architecture" hk (by decide) (by decide)
  have e3 := strEqual_literal tmp key k "CPU variant" hk (by decide) (by decide)
  have e4 := strEqual_literal tmp key k "CPU part" hk (by decide) (by decide)
  have e5 := strEqual_literal tmp key k "CPU revision" hk (by decide) (by decide)
  unfold setField fieldUpdate strtolAt atoiAt
  rw [e1, e2, e3, e4, e5]
  simp only [hv]
  generalize "CPU implementer".toList = p1
  generalize "CPU architecture".toList = p2
  generalize "CPU variant".toList = p3
  generalize "CPU part".toList = p4
  generalize "CPU revision".toList = p5
  by_cases h1 : k = p1
  · simp only [decide_eq_true h1, if_pos h1]
  · simp only [decide_eq_false h1, if_neg h1]
    by_cases h2 : k = p2
    · simp only [decide_eq_true h2, if_pos h2]
    · simp only [decide_eq_false h2, if_neg h2]
      by_cases h3 : k = p3
      · simp only [decide_eq_true h3, if_pos h3]
      · simp only [decide_eq_false h3, if_neg h3]
        by_cases h4 : k = p4
        · simp only [decide_eq_true h4, if_pos h4]
        · simp only [decide_eq_false h4, if_neg h4]
          by_cases h5 : k = p5
          · simp only [decide_eq_true h5, if_pos h5]
          · simp only [decide_eq_false h5, if_neg h5]

/-- A line without an entry leaves the state alone. -/
theorem processLine_absent (fs : FileSystem) (st : State) (line : List Char)
    (h : lineEntry line = some none) : processLine fs st line = some st := by
  unfold processLine
  rw [lineEntry_absent_inv line h]

/-- The loop body on a line with an entry. -/
theorem processLine_entry (fs : FileSystem) (st : State) (line k v : List Char)
    (h : lineEntry line = some (some (k, v))) :
    processLine fs st line = entryStep fs st k v := by
  obtain ⟨key, value, tmp, hp, hk, hv⟩ := lineEntry_some_inv line k v h
  have e := strEqual_literal tmp key k "processor" hk (by decide) (by decide)
  unfold processLine entryStep
  simp only [hp, e]
  generalize "processor".toList = pr
  by_cases hproc : k = pr
  · simp only [decide_eq_true hproc, if_pos hproc]
    unfold openRecord atoiAt
    simp only [hv]
  · simp only [decide_eq_false hproc, if_neg hproc]
    cases hb : st.res.getLast? with
    | none => rfl
    | some back => simp only [setField_eq tmp key value k v back hk hv]

/-! ## The loop over the lines -/

theorem readLoop_eq_foldlM (fs : FileSystem) :
    ∀ (fuel : Nat) (stream : List Char) (st : State),
      readLoop fs fuel stream st = List.foldlM (processLine fs) st (fgetsLines fuel stream) := by
  intro fuel
  induction fuel with
  | zero => intro stream st; rfl
  | succ f ih =>
    intro stream st
    unfold readLoop fgetsLines
    cases hg : fgets 16384 stream with
    | none => rfl
    | some lr =>
      obtain ⟨line, rest⟩ := lr
      simp only [List.foldlM_cons]
      cases hp : processLine fs st line with
      | none => rfl
      | some st2 => exact ih rest st2

theorem readCpuInfo_eq (fs : FileSystem) (garbage : Nat → Char) (res : List CpuInfo)
    (text : List Char) (h : fs.procCpuinfo = some text) :
    readCpuInfo fs garbage res
      = (List.foldlM (processLine fs) ⟨[], stackArray 8192 garbage⟩ (sourceLines text)).map
          State.res := by
  unfold readCpuInfo sourceLines
  simp only [h, List.take_zero, readLoop_eq_foldlM]
  cases List.foldlM (processLine fs) ⟨[], stackArray 8192 garbage⟩
      (fgetsLines text.length text) with
  | none => rfl
  | some st => rfl

theorem fgetsTake_length (n : Nat) :
    ∀ stream : List Char,
      ((fgetsTake n stream).1 ++ (fgetsTake n stream).2 = stream) ∧
      (0 < n → stream ≠ [] → (fgetsTake n stream).2.length < stream.length) := by
  induction n with
  | zero => intro stream; exact ⟨rfl, fun h => absurd h (by omega)⟩
  | succ n ih =>
    intro stream
    cases stream with
    | nil => exact ⟨rfl, fun _ h => absurd rfl h⟩
    | cons c cs =>
      unfold fgetsTake
      by_cases hc : c = '\n'
      · simp [hc]
      · simp only [hc, if_false]
        obtain ⟨h1, h2⟩ := ih cs
        refine ⟨by simp [h1], fun _ _ => ?_⟩
        have : (fgetsTake n cs).2.length ≤ cs.length := by
          have := congrArg List.length h1
          simp at this; omega
        simp; omega

theorem fgets_cons (stream : List Char) (h : stream ≠ []) :
    fgets 16384 stream = some (fgetsTake 16383 stream) := by
  simp [fgets, h]

theorem fgetsLines_nil (fuel : Nat) : fgetsLines fuel [] = [] := by
  cases fuel with
  | zero => rfl
  | succ f => simp [fgetsLines, fgets]

theorem fgetsLines_succ (fuel : Nat) (stream : List Char) (h : stream ≠ []) :
    fgetsLines (fuel + 1) stream
      = (fgetsTake 16383 stream).1 :: fgetsLines fuel (fgetsTake 16383 stream).2 := by
  rw [fgetsLines, fgets_cons stream h]

theorem fgetsLines_fuel :
    ∀ (f1 f2 : Nat) (stream : List Char), stream.length ≤ f1 → stream.length ≤ f2 →
      fgetsLines f1 stream = fgetsLines f2 stream := by
  intro f1
  induction f1 with
  | zero =>
    intro f2 stream h1 _
    have : stream = [] := List.length_eq_zero.mp (by omega)
    subst this
    rw [fgetsLines_nil, fgetsLines_nil]
  | succ f1 ih =>
    intro f2 stream h1 h2
    by_cases hs : stream = []
    · subst hs
      rw [fgetsLines_nil, fgetsLines_nil]
    · obtain ⟨g2, rfl⟩ : ∃ g, f2 = g + 1 :=
        ⟨f2 - 1, by have := List.length_pos.mpr hs; omega⟩
      have hlt := (fgetsTake_length 16383 stream).2 (by omega) hs
      rw [fgetsLines_succ _ _ hs, fgetsLines_succ _ _ hs, ih g2 _ (by omega) (by omega)]

theorem fgetsTake_append (n : Nat) :
    ∀ (pre rest : List Char), pre.getLast? = some '\n' →
      fgetsTake n (pre ++ rest) = ((fgetsTake n pre).1, (fgetsTake n pre).2 ++ rest) ∧
      ((fgetsTake n pre).2 = [] ∨ (fgetsTake n pre).2.getLast? = some '\n') := by
  induction n with
  | zero => intro pre rest h; exact ⟨rfl, Or.inr h⟩
  | succ n ih =>
    intro pre rest h
    cases pre with
    | nil => simp at h
    | cons c cs =>
      by_cases hc : c = '\n'
      · subst hc
        refine ⟨by simp [fgetsTake], ?_⟩
        simp only [fgetsTake, if_true]
        cases cs with
        | nil => exact Or.inl rfl
        | cons d ds => exact Or.inr (by simpa [List.getLast?_cons_cons] using h)
      · have hcs : cs.getLast? = some '\n' := by
          cases cs with
          | nil => simp at h; exact absurd h hc
          | cons d ds => simpa [List.getLast?_cons_cons] using h
        obtain ⟨h1, h2⟩ := ih cs rest hcs
        have e1 : fgetsTake (n + 1) (c :: cs ++ rest)
            = (c :: (fgetsTake n (cs ++ rest)).1, (fgetsTake n (cs ++ rest)).2) := by
          rw [List.cons_append, fgetsTake]; simp only [hc, if_false]
        have e2 : fgetsTake (n + 1) (c :: cs) = (c :: (fgetsTake n cs).1, (fgetsTake n cs).2) := by
          rw [fgetsTake]; simp only [hc, if_false]
        rw [e1, e2, h1]
        exact ⟨rfl, h2⟩

/-- The lines of a text that continues after a newline are the lines before
the newline followed by the lines after it. -/
theorem sourceLines_append (pre rest : List Char) (h : pre = [] ∨ pre.getLast? = some '\n') :
    sourceLines (pre ++ rest) = sourceLines pre ++ sourceLines rest := by
  generalize hn : pre.length = n
  induction n using Nat.strong_induction_on generalizing pre with
  | _ n ih =>
    rcases h with h | h
    · subst h; simp [sourceLines, fgetsLines_nil]
    · have hne : pre ≠ [] := by intro e; rw [e] at h; simp at h
      obtain ⟨h1, h2⟩ := fgetsTake_append 16383 pre rest h
      have hlt := (fgetsTake_length 16383 pre).2 (by omega) hne
      have hsplit := (fgetsTake_length 16383 pre).1
      have hne2 : pre ++ rest ≠ [] := by simp [hne]
      have hpl : 0 < pre.length := List.length_pos.mpr hne
      have e1 : sourceLines (pre ++ rest)
          = (fgetsTake 16383 pre).1 :: sourceLines ((fgetsTake 16383 pre).2 ++ rest) := by
        unfold sourceLines
        obtain ⟨m, hm⟩ : ∃ m, (pre ++ rest).length = m + 1 :=
          ⟨(pre ++ rest).length - 1, by simp; omega⟩
        rw [hm, fgetsLines_succ _ _ hne2, h1]
        congr 1
        apply fgetsLines_fuel
        · have := congrArg List.length hsplit
          simp at this hm ⊢; omega
        · exact le_refl _
      have e2 : sourceLines pre = (fgetsTake 16383 pre).1 :: sourceLines (fgetsTake 16383 pre).2 := by
        unfold sourceLines
        obtain ⟨m, hm⟩ : ∃ m, pre.length = m + 1 := ⟨pre.length - 1, by omega⟩
        rw [hm, fgetsLines_succ _ _ hne]
        congr 1
        apply fgetsLines_fuel
        · omega
        · exact le_refl _
      rw [e1, e2, ih _ (by omega) _ h2 rfl]
      rfl

/-! ## The auxiliary lookups -/

theorem takeWhile_append_nul_any (s t : List Char) :
    (s ++ NUL :: t).takeWhile (fun c => c != NUL) = s.takeWhile (fun c => c != NUL) := by
  induction s with
  | nil => simp [List.takeWhile]
  | cons x xs ih =>
    by_cases hx : x = NUL
    · subst hx; simp [List.takeWhile]
    · have hb : (x != NUL) = true := by simp [hx]
      simp [List.takeWhile, hb, ih]

theorem cstrAt_zero_append_nul (s t : List Char) :
    cstrAt (s ++ NUL :: t) 0 = some (s.takeWhile (fun c => c != NUL)) := by
  unfold cstrAt
  simp [takeWhile_append_nul_any]

theorem store_append (s t : List Char) (c : Char) (ht : t ≠ []) :
    store (s ++ t) (s.length : Int) c = some (s ++ c :: t.tail) := by
  unfold store
  have h1 : ¬ ((s.length : Int) < 0) := by omega
  have h2 : (s.length : Int).toNat < (s ++ t).length := by
    have := List.length_pos.mpr ht
    simp; omega
  simp only [h1, h2, if_false, if_true, Int.toNat_ofNat]
  cases t with
  | nil => exact absurd rfl ht
  | cons y ys => simp

/-- An auxiliary lookup with a buffer of 8192 bytes, when `read` does not
fail: the field gets `auxValue` and the buffer keeps its size. -/
theorem auxLookup_eq (fs : FileSystem) (f : AuxFile) (cpuIndex : Int) (tmpBuffer : Mem)
    (hl : tmpBuffer.length = 8192) (he : fs.sysfs (auxPath f cpuIndex) ≠ some .error) :
    ∃ tmpBuffer2, auxLookup fs f cpuIndex tmpBuffer = some (auxValue fs f cpuIndex, tmpBuffer2) ∧
      tmpBuffer2.length = 8192 := by
  unfold auxLookup readFile auxValue
  cases hs : fs.sysfs (auxPath f cpuIndex) with
  | none => exact ⟨tmpBuffer, by simp, hl⟩
  | some r =>
    cases r with
    | error => exact absurd hs he
    | data bytes =>
      have hg : (bytes.take 8191).length ≤ 8191 := by simp
      have hdrop : tmpBuffer.drop (bytes.take 8191).length ≠ [] := by
        intro e
        have := congrArg List.length e
        simp only [List.length_drop, List.length_nil] at this
        omega
      have hst := store_append (bytes.take 8191) (tmpBuffer.drop (bytes.take 8191).length) NUL hdrop
      refine ⟨bytes.take 8191 ++ NUL :: (tmpBuffer.drop (bytes.take 8191).length).tail, ?_, ?_⟩
      · have hle : (bytes.take 8191).length ≤ tmpBuffer.length := by omega
        simp only [show (8192 : Nat) ≠ 0 by decide, if_false, sysRead,
          show (8192 - 1 : Nat) = 8191 from rfl, hle, if_true, hst, atoiAt,
          cstrAt_zero_append_nul]
      · simp only [List.length_append, List.length_cons, List.length_tail, List.length_drop]
        omega

/-- The four lookups of a record, when no `read` fails. -/
theorem fillAux_eq (fs : FileSystem) (tmpBuffer : Mem) (cpuInfo : CpuInfo)
    (hl : tmpBuffer.length = 8192)
    (he : ∀ f, fs.sysfs (auxPath f cpuInfo.cpuIndex) ≠ some .error) :
    ∃ tmpBuffer2, fillAux fs tmpBuffer cpuInfo = some
      ({ cpuInfo with
          minFreq := (auxValue fs .minFreq cpuInfo.cpuIndex).getD cpuInfo.minFreq
          maxFreq := (auxValue fs .maxFreq cpuInfo.cpuIndex).getD cpuInfo.maxFreq
          currentFreq := (auxValue fs .currentFreq cpuInfo.cpuIndex).getD cpuInfo.currentFreq
          packageId := (auxValue fs .packageId cpuInfo.cpuIndex).getD cpuInfo.packageId },
        tmpBuffer2) ∧ tmpBuffer2.length = 8192 := by
  obtain ⟨b1, h1, l1⟩ := auxLookup_eq fs .minFreq cpuInfo.cpuIndex tmpBuffer hl (he _)
  obtain ⟨b2, h2, l2⟩ := auxLookup_eq fs .maxFreq cpuInfo.cpuIndex b1 l1 (he _)
  obtain ⟨b3, h3, l3⟩ := auxLookup_eq fs .currentFreq cpuInfo.cpuIndex b2 l2 (he _)
  obtain ⟨b4, h4, l4⟩ := auxLookup_eq fs .packageId cpuInfo.cpuIndex b3 l3 (he _)
  refine ⟨b4, ?_, l4⟩
  generalize auxValue fs .minFreq cpuInfo.cpuIndex = v1 at h1 ⊢
  generalize auxValue fs .maxFreq cpuInfo.cpuIndex = v2 at h2 ⊢
  generalize auxValue fs .currentFreq cpuInfo.cpuIndex = v3 at h3 ⊢
  generalize auxValue fs .packageId cpuInfo.cpuIndex = v4 at h4 ⊢
  cases v1 <;> cases v2 <;> cases v3 <;> cases v4 <;>
    simp [fillAux, h1, h2, h3, h4]

/-! ## The records built by the loop -/

theorem fieldUpdate_cpuIndex (k v : List Char) (c : CpuInfo) :
    (fieldUpdate k v c).cpuIndex = c.cpuIndex := by
  unfold fieldUpdate
  split_ifs <;> rfl

theorem setBack_length (res : List CpuInfo) (c : CpuInfo) (h : res ≠ []) :
    (setBack res c).length = res.length := by
  have := List.length_pos.mpr h
  simp [setBack]; omega

theorem setBack_dropLast (res : List CpuInfo) (c : CpuInfo) :
    (setBack res c).dropLast = res.dropLast := by
  simp [setBack]

theorem setBack_map_cpuIndex (res : List CpuInfo) (back c : CpuInfo)
    (hb : res.getLast? = some back) (hc : c.cpuIndex = back.cpuIndex) :
    (setBack res c).map (fun r => r.cpuIndex) = res.map (fun r => r.cpuIndex) := by
  have h := List.dropLast_append_getLast? back hb
  conv_rhs => rw [← h]
  simp [setBack, hc]

/-- A line that is not a "processor" line keeps the number of records and
every record but the last. -/
theorem entryStep_field (fs : FileSystem) (st : State) (k v : List Char)
    (hk : k ≠ "processor".toList) :
    ∃ st2, entryStep fs st k v = some st2 ∧ st2.tmpBuffer = st.tmpBuffer ∧
      st2.res.length = st.res.length ∧ st2.res.dropLast = st.res.dropLast ∧
      st2.res.map (fun r => r.cpuIndex) = st.res.map (fun r => r.cpuIndex) ∧
      (st.res = [] → st2 = st) := by
  unfold entryStep
  simp only [if_neg hk]
  cases hb : st.res.getLast? with
  | none => exact ⟨st, rfl, rfl, rfl, rfl, rfl, fun _ => rfl⟩
  | some back =>
    have hne : st.res ≠ [] := by intro e; rw [e] at hb; simp at hb
    exact ⟨_, rfl, rfl, setBack_length _ _ hne, setBack_dropLast _ _,
      setBack_map_cpuIndex _ back _ hb (fieldUpdate_cpuIndex k v back), fun e => absurd e hne⟩

/-- A "processor" line appends one record with the index `atoi` reads. -/
theorem entryStep_processor (fs : FileSystem) (st : State) (v : List Char)
    (hl : st.tmpBuffer.length = 8192) (he : ∀ path, fs.sysfs path ≠ some .error) :
    ∃ r tb, entryStep fs st "processor".toList v = some ⟨st.res ++ [r], tb⟩ ∧
      tb.length = 8192 ∧ r.cpuIndex = atoi v := by
  obtain ⟨tb, h, hl2⟩ := fillAux_eq fs st.tmpBuffer { cpuIndex := atoi v } hl (fun f => he _)
  unfold entryStep
  simp only [if_true, h]
  exact ⟨_, tb, rfl, hl2, rfl⟩

theorem processorValues_cons_absent (line : List Char) (rest : List (List Char))
    (h : lineEntry line = some none) :
    processorValues (line :: rest) = processorValues rest := by
  unfold processorValues
  rw [List.filterMap_cons]
  simp only [h]

theorem processorValues_cons_processor (line v : List Char) (rest : List (List Char))
    (h : lineEntry line = some (some ("processor".toList, v))) :
    processorValues (line :: rest) = v :: processorValues rest := by
  unfold processorValues
  rw [List.filterMap_cons]
  simp only [h, if_true]

theorem processorValues_cons_other (line k v : List Char) (rest : List (List Char))
    (h : lineEntry line = some (some (k, v))) (hk : k ≠ "processor".toList) :
    processorValues (line :: rest) = processorValues rest := by
  unfold processorValues
  rw [List.filterMap_cons]
  simp only [h, if_neg hk]

/-- The indices of the records after a run over some lines. -/
theorem foldlM_processLine_indices (fs : FileSystem)
    (he : ∀ path, fs.sysfs path ≠ some .error) :
    ∀ (lines : List (List Char)) (st : State), (∀ line ∈ lines, lineEntry line ≠ none) →
      st.tmpBuffer.length = 8192 →
      ∃ st2, List.foldlM (processLine fs) st lines = some st2 ∧ st2.tmpBuffer.length = 8192 ∧
        st2.res.map (fun r => r.cpuIndex)
          = st.res.map (fun r => r.cpuIndex) ++ (processorValues lines).map atoi := by
  intro lines
  induction lines with
  | nil => intro st _ hl; exact ⟨st, rfl, hl, by simp [processorValues]⟩
  | cons line rest ih =>
    intro st hp hl
    have hrest : ∀ l ∈ rest, lineEntry l ≠ none := fun l hm => hp l (List.mem_cons_of_mem _ hm)
    cases hle : lineEntry line with
    | none => exact absurd hle (hp line (List.mem_cons_self _ _))
    | some e =>
      cases e with
      | none =>
        obtain ⟨st2, h2, hl2, hi2⟩ := ih st hrest hl
        refine ⟨st2, ?_, hl2, ?_⟩
        · simp only [List.foldlM_cons, processLine_absent fs st line hle]
          exact h2
        · rw [hi2, processorValues_cons_absent line rest hle]
      | some kv =>
        obtain ⟨k, v⟩ := kv
        by_cases hk : k = "processor".toList
        · subst hk
          obtain ⟨r, tb, hs, hl1, hr⟩ := entryStep_processor fs st v hl he
          obtain ⟨st2, h2, hl2, hi2⟩ := ih ⟨st.res ++ [r], tb⟩ hrest hl1
          refine ⟨st2, ?_, hl2, ?_⟩
          · simp only [List.foldlM_cons, processLine_entry fs st line _ v hle, hs]
            exact h2
          · rw [hi2, processorValues_cons_processor line v rest hle]
            simp [hr]
        · obtain ⟨st1, hs, htb, _, _, hidx, _⟩ := entryStep_field fs st k v hk
          obtain ⟨st2, h2, hl2, hi2⟩ := ih st1 hrest (by rw [htb]; exact hl)
          refine ⟨st2, ?_, hl2, ?_⟩
          · simp only [List.foldlM_cons, processLine_entry fs st line k v hle, hs]
            exact h2
          · rw [hi2, hidx, processorValues_cons_other line k v rest hle hk]

/-- Lines without a "processor" key do nothing while no record is open. -/
theorem foldlM_processLine_noRecord (fs : FileSystem) :
    ∀ (lines : List (List Char)) (st : State), st.res = [] →
      (∀ line ∈ lines, ∃ e, lineEntry line = some e ∧
        ∀ k v, e = some (k, v) → k ≠ "processor".toList) →
      List.foldlM (processLine fs) st lines = some st := by
  intro lines
  induction lines with
  | nil => intro st _ _; rfl
  | cons line rest ih =>
    intro st hres hp
    obtain ⟨e, hle, hk⟩ := hp line (List.mem_cons_self _ _)
    have hrest := fun l hm => hp l (List.mem_cons_of_mem line hm)
    cases e with
    | none =>
      simp only [List.foldlM_cons, processLine_absent fs st line hle]
      exact ih st hres hrest
    | some kv =>
      obtain ⟨k, v⟩ := kv
      obtain ⟨st1, hs, _, _, _, _, hsame⟩ := entryStep_field fs st k v (hk k v rfl)
      have := hsame hres
      subst this
      simp only [List.foldlM_cons, processLine_entry fs st1 line k v hle, hs]
      exact ih st1 hres hrest

/-! ## `strtol` and `atoi` on numbers -/

theorem isDigitOf_not_special (c : Char) (h : isDigitOf 16 c = true) :
    isspace c = false ∧ c ≠ '-' ∧ c ≠ '+' ∧ c ≠ 'x' ∧ c ≠ 'X' := by
  refine ⟨?_, ?_, ?_, ?_, ?_⟩
  · by_contra hs
    have hs2 : isspace c = true := by simpa using hs
    unfold isspace at hs2
    simp only [Bool.or_eq_true, decide_eq_true_eq] at hs2
    rcases hs2 with ((((rfl | rfl) | rfl) | rfl) | rfl) | rfl <;> revert h <;> decide
  · rintro rfl; revert h; decide
  · rintro rfl; revert h; decide
  · rintro rfl; revert h; decide
  · rintro rfl; revert h; decide

theorem isDigitOf_mono (c : Char) (h : isDigitOf 10 c = true) : isDigitOf 16 c = true := by
  unfold isDigitOf at *
  cases hd : digitValue c with
  | none => simp [hd] at h
  | some d =>
    simp only [hd, Option.any_some, decide_eq_true_eq] at h ⊢
    omega

theorem digitsValue_numeral (base : Nat) :
    ∀ (s : List Char) (acc : Nat), s.all (isDigitOf base) = true →
      digitsValue base s acc
        = s.foldl (fun acc c => acc * base + (digitValue c).getD 0) acc := by
  intro s
  induction s with
  | nil => intro acc _; rfl
  | cons c cs ih =>
    intro acc h
    simp only [List.all_cons, Bool.and_eq_true] at h
    obtain ⟨hc, hcs⟩ := h
    unfold isDigitOf at hc
    cases hd : digitValue c with
    | none => simp [hd] at hc
    | some d =>
      simp only [hd, Option.any_some, decide_eq_true_eq] at hc
      simp only [digitsValue, hd, hc, if_true, List.foldl_cons, Option.getD_some]
      exact ih _ hcs

theorem clampLong_of_range (n : Nat) (h : (n : Int) ≤ LONG_MAX) : clampLong n = n := by
  unfold clampLong
  unfold LONG_MAX at h
  have h1 : ¬ ((n : Int) > LONG_MAX) := by unfold LONG_MAX; omega
  have h2 : ¬ ((n : Int) < LONG_MIN) := by unfold LONG_MIN; omega
  simp only [h1, h2, if_false]

/-- The start of `strtol` on a text whose first character is a hexadecimal
digit: no white space and no sign. -/
theorem strtol_of_digit_head (c : Char) (t : List Char) (base : Nat)
    (hc : isDigitOf 16 c = true) :
    strtol (c :: t) base
      = clampLong (digitsValue base
          (if base = 16 then dropHexPrefix (c :: t) else c :: t) 0 : Nat) := by
  obtain ⟨h1, h2, h3, _, _⟩ := isDigitOf_not_special c hc
  unfold strtol
  have e1 : (c :: t).dropWhile isspace = c :: t := by simp [List.dropWhile, h1]
  simp only [e1, takeSign, h2, h3, if_false, Bool.false_eq_true]

theorem strtol_decimal (s : List Char) (m : Nat) (h : readDecimal s = some m)
    (hm : (m : Int) ≤ LONG_MAX) : strtol s 10 = m := by
  unfold readDecimal at h
  by_cases hn : isNumeral 10 s = true
  · simp only [hn, if_true, Option.some.injEq] at h
    unfold isNumeral at hn
    simp only [Bool.and_eq_true, Bool.not_eq_true', List.isEmpty_eq_false] at hn
    obtain ⟨hne, hall⟩ := hn
    cases s with
    | nil => exact absurd rfl hne
    | cons c t =>
      have hc : isDigitOf 10 c = true := by
        simp only [List.all_cons, Bool.and_eq_true] at hall; exact hall.1
      rw [strtol_of_digit_head c t 10 (isDigitOf_mono c hc)]
      simp only [show ¬ ((10 : Nat) = 16) by decide, if_false]
      rw [digitsValue_numeral 10 _ 0 hall]
      unfold numeralValue at h
      rw [h]
      exact clampLong_of_range m hm
  · simp [hn] at h

theorem dropHexPrefix_eq_hexDigits (s : List Char) (h : isNumeral 16 (hexDigits s) = true) :
    dropHexPrefix s = hexDigits s := by
  unfold isNumeral at h
  simp only [Bool.and_eq_true, Bool.not_eq_true', List.isEmpty_eq_false] at h
  obtain ⟨hne, hall⟩ := h
  cases s with
  | nil => rfl
  | cons z t =>
    cases t with
    | nil => rfl
    | cons x t2 =>
      by_cases hp : z = '0' ∧ (x = 'x' ∨ x = 'X')
      · have e : hexDigits (z :: x :: t2) = t2 := by simp [hexDigits, hp]
        rw [e] at hne hall ⊢
        cases t2 with
        | nil => exact absurd rfl hne
        | cons h t3 =>
          have hh : isDigitOf 16 h = true := by
            simp only [List.all_cons, Bool.and_eq_true] at hall; exact hall.1
          simp [dropHexPrefix, hp.1, hp.2, hh]
      · have e : hexDigits (z :: x :: t2) = z :: x :: t2 := by simp [hexDigits, hp]
        rw [e] at hall ⊢
        simp only [List.all_cons, Bool.and_eq_true] at hall
        obtain ⟨_, _, _, hx1, hx2⟩ := isDigitOf_not_special x hall.2.1
        cases t2 with
        | nil => rfl
        | cons h t3 => simp [dropHexPrefix, hx1, hx2]

theorem head_digit_of_readHex (s : List Char) (h : isNumeral 16 (hexDigits s) = true) :
    ∃ c t, s = c :: t ∧ isDigitOf 16 c = true := by
  unfold isNumeral at h
  simp only [Bool.and_eq_true, Bool.not_eq_true', List.isEmpty_eq_false] at h
  obtain ⟨hne, hall⟩ := h
  cases s with
  | nil => exact absurd rfl hne
  | cons z t =>
    refine ⟨z, t, rfl, ?_⟩
    cases t with
    | nil =>
      simp only [hexDigits, List.all_cons, Bool.and_eq_true] at hall; exact hall.1
    | cons x t2 =>
      by_cases hp : z = '0' ∧ (x = 'x' ∨ x = 'X')
      · rw [hp.1]; decide
      · have e : hexDigits (z :: x :: t2) = z :: x :: t2 := by simp [hexDigits, hp]
        rw [e] at hall
        simp only [List.all_cons, Bool.and_eq_true] at hall; exact hall.1

theorem strtol_hex (s : List Char) (m : Nat) (h : readHex s = some m)
    (hm : (m : Int) ≤ LONG_MAX) : strtol s 16 = m := by
  unfold readHex at h
  by_cases hn : isNumeral 16 (hexDigits s) = true
  · simp only [hn, if_true, Option.some.injEq] at h
    obtain ⟨c, t, rfl, hc⟩ := head_digit_of_readHex s hn
    rw [strtol_of_digit_head c t 16 hc]
    simp only [if_true]
    rw [dropHexPrefix_eq_hexDigits _ hn]
    have hall : (hexDigits (c :: t)).all (isDigitOf 16) = true := by
      unfold isNumeral at hn
      simp only [Bool.and_eq_true] at hn
      exact hn.2
    rw [digitsValue_numeral 16 _ 0 hall]
    unfold numeralValue at h
    rw [h]
    exact clampLong_of_range m hm
  · simp [hn] at h

theorem atoi_decimal (s : List Char) (m : Nat) (h : readDecimal s = some m)
    (hm : (m : Int) ≤ INT_MAX) : atoi s = m := by
  unfold INT_MAX at hm
  unfold atoi
  rw [strtol_decimal s m h (by unfold LONG_MAX; omega)]
  unfold toInt32
  omega

/-! ## A text of whole lines -/

theorem fgetsTake_line :
    ∀ (body : List Char) (n : Nat), '\n' ∉ body → body.length < n →
      fgetsTake n (body ++ ['\n']) = (body ++ ['\n'], []) := by
  intro body
  induction body with
  | nil =>
    intro n _ hn
    obtain ⟨m, rfl⟩ : ∃ m, n = m + 1 := ⟨n - 1, by simp at hn; omega⟩
    simp [fgetsTake]
  | cons c cs ih =>
    intro n hb hn
    obtain ⟨m, rfl⟩ : ∃ m, n = m + 1 := ⟨n - 1, by simp at hn; omega⟩
    have hc : c ≠ '\n' := fun e => hb (by simp [e])
    have hcs : '\n' ∉ cs := fun e => hb (by simp [e])
    have := ih m hcs (by simp at hn; omega)
    rw [List.cons_append, fgetsTake]
    simp only [hc, if_false, this]

theorem isLine_spec (l : List Char) (h : isLine l = true) :
    l ≠ [] ∧ l.getLast? = some '\n' ∧ fgetsTake 16383 l = (l, []) := by
  unfold isLine at h
  simp only [Bool.and_eq_true, decide_eq_true_eq, Bool.not_eq_true'] at h
  obtain ⟨⟨h1, h2⟩, h3⟩ := h
  have hne : l ≠ [] := by intro e; rw [e] at h1; simp at h1
  have hsplit := List.dropLast_append_getLast? '\n' h1
  have hnot : '\n' ∉ l.dropLast := by
    intro hm
    have : l.dropLast.contains '\n' = true := by simpa using hm
    rw [this] at h2; exact absurd h2 (by decide)
  refine ⟨hne, h1, ?_⟩
  have hlen : l.dropLast.length < 16383 := by
    have := List.length_pos.mpr hne
    simp; omega
  have := fgetsTake_line l.dropLast 16383 hnot hlen
  rw [hsplit] at this
  exact this

theorem sourceLines_line (l rest : List Char) (h : isLine l = true) :
    sourceLines (l ++ rest) = l :: sourceLines rest := by
  obtain ⟨hne, hlast, htake⟩ := isLine_spec l h
  rw [sourceLines_append l rest (Or.inr hlast)]
  have : sourceLines l = [l] := by
    unfold sourceLines
    obtain ⟨m, hm⟩ : ∃ m, l.length = m + 1 :=
      ⟨l.length - 1, by have := List.length_pos.mpr hne; omega⟩
    rw [hm, fgetsLines_succ _ _ hne, htake, fgetsLines_nil]
  rw [this]; rfl

theorem sourceLines_join (ls : List (List Char)) (h : ∀ l ∈ ls, isLine l = true) :
    sourceLines ls.flatten = ls := by
  induction ls with
  | nil => simp [sourceLines, fgetsLines_nil]
  | cons l rest ih =>
    rw [List.flatten_cons, sourceLines_line l _ (h l (List.mem_cons_self _ _)),
      ih (fun x hx => h x (List.mem_cons_of_mem _ hx))]

/-! ## The fields of a record -/

theorem Field.key_ne_processor (f : Field) : f.key ≠ "processor".toList := by
  cases f <;> decide

theorem fieldUpdate_aux (k v : List Char) (c : CpuInfo) :
    (fieldUpdate k v c).minFreq = c.minFreq ∧ (fieldUpdate k v c).maxFreq = c.maxFreq ∧
      (fieldUpdate k v c).currentFreq = c.currentFreq ∧
      (fieldUpdate k v c).packageId = c.packageId := by
  unfold fieldUpdate
  split_ifs <;> exact ⟨rfl, rfl, rfl, rfl⟩

theorem fieldUpdate_get (f g : Field) (v : List Char) (m : Nat) (c : CpuInfo)
    (hr : f.read v = some m) (hm : (m : Int) ≤ f.max) :
    g.get (fieldUpdate f.key v c) = if g = f then (m : Int) else g.get c := by
  cases f <;> cases g <;>
    simp only [Field.read, Field.max] at hr hm <;>
    first
    | simp [fieldUpdate, Field.key, Field.get, strtol_hex v m hr hm]
    | simp [fieldUpdate, Field.key, Field.get, atoi_decimal v m hr hm]

theorem FieldLine.wellFormed_spec (x : FieldLine) (h : x.wellFormed = true) :
    isLine x.line = true ∧ lineEntry x.line = some (some (x.field.key, x.value)) ∧
      ∃ m, x.field.read x.value = some m ∧ (m : Int) ≤ x.field.max := by
  unfold FieldLine.wellFormed at h
  simp only [Bool.and_eq_true, decide_eq_true_eq] at h
  obtain ⟨⟨h1, h2⟩, h3⟩ := h
  refine ⟨h1, h2, ?_⟩
  cases hr : x.field.read x.value with
  | none => simp [hr] at h3
  | some m => exact ⟨m, rfl, by simpa [hr] using h3⟩

theorem applyFields_aux (fields : List FieldLine) :
    ∀ c : CpuInfo, (applyFields fields c).cpuIndex = c.cpuIndex ∧
      (applyFields fields c).minFreq = c.minFreq ∧ (applyFields fields c).maxFreq = c.maxFreq ∧
      (applyFields fields c).currentFreq = c.currentFreq ∧
      (applyFields fields c).packageId = c.packageId := by
  induction fields with
  | nil => intro c; exact ⟨rfl, rfl, rfl, rfl, rfl⟩
  | cons x xs ih =>
    intro c
    obtain ⟨h1, h2, h3, h4, h5⟩ := ih (fieldUpdate x.field.key x.value c)
    obtain ⟨a2, a3, a4, a5⟩ := fieldUpdate_aux x.field.key x.value c
    have a1 := fieldUpdate_cpuIndex x.field.key x.value c
    simp only [applyFields, List.foldl_cons] at *
    exact ⟨by rw [h1, a1], by rw [h2, a2], by rw [h3, a3], by rw [h4, a4], by rw [h5, a5]⟩

theorem applyFields_get (fields : List FieldLine) :
    ∀ (c : CpuInfo) (g : Field), (∀ x ∈ fields, x.wellFormed = true) →
      (fields.map (fun x => x.field)).Nodup →
      g.get (applyFields fields c)
        = match fields.find? (fun x => decide (x.field = g)) with
          | some x => ((x.field.read x.value).getD 0 : Nat)
          | none => g.get c := by
  induction fields with
  | nil => intro c g _ _; rfl
  | cons x xs ih =>
    intro c g hwf hnd
    obtain ⟨_, _, m, hr, hm⟩ := FieldLine.wellFormed_spec x (hwf x (List.mem_cons_self _ _))
    have hwf2 : ∀ y ∈ xs, y.wellFormed = true := fun y hy => hwf y (List.mem_cons_of_mem _ hy)
    simp only [List.map_cons, List.nodup_cons] at hnd
    have key := ih (fieldUpdate x.field.key x.value c) g hwf2 hnd.2
    have hstep : applyFields (x :: xs) c = applyFields xs (fieldUpdate x.field.key x.value c) := rfl
    rw [hstep, key]
    by_cases hxg : x.field = g
    · subst hxg
      have hnone : xs.find? (fun y => decide (y.field = x.field)) = none := by
        rw [List.find?_eq_none]
        intro y hy
        simp only [decide_eq_true_eq]
        intro e
        exact hnd.1 (List.mem_map.mpr ⟨y, hy, e⟩)
      rw [hnone, List.find?_cons_of_pos _ (by simp)]
      simp only [fieldUpdate_get x.field x.field x.value m c hr hm, if_true, hr,
        Option.getD_some]
    · rw [List.find?_cons_of_neg _ (by simpa using hxg)]
      cases xs.find? (fun y => decide (y.field = g)) with
      | some y => rfl
      | none =>
        have : ¬ (g = x.field) := fun e => hxg e.symm
        simp only [fieldUpdate_get x.field g x.value m c hr hm, this, if_false]

theorem CpuInfo.eq_of_fields (a b : CpuInfo) (h1 : a.cpuIndex = b.cpuIndex)
    (h2 : a.cpuImplementer = b.cpuImplementer) (h3 : a.cpuArch = b.cpuArch)
    (h4 : a.cpuVariant = b.cpuVariant) (h5 : a.cpuPart = b.cpuPart)
    (h6 : a.cpuRevision = b.cpuRevision) (h7 : a.minFreq = b.minFreq)
    (h8 : a.maxFreq = b.maxFreq) (h9 : a.currentFreq = b.currentFreq)
    (h10 : a.packageId = b.packageId) : a = b := by
  cases a; cases b; simp_all

theorem applyFields_eq_expected (n : Nat) (fields : List FieldLine)
    (hwf : ∀ x ∈ fields, x.wellFormed = true)
    (hnd : (fields.map (fun x => x.field)).Nodup) :
    applyFields fields { cpuIndex := n } = expectedRecord n fields := by
  obtain ⟨a1, a2, a3, a4, a5⟩ := applyFields_aux fields { cpuIndex := n }
  have g := fun f => applyFields_get fields { cpuIndex := n } f hwf hnd
  apply CpuInfo.eq_of_fields
  · exact a1
  · exact g .implementer
  · exact g .architecture
  · exact g .variant
  · exact g .part
  · exact g .revision
  · exact a2
  · exact a3
  · exact a4
  · exact a5

/-- The loop over the field lines of a text with one record open. -/
theorem foldlM_fieldLines (fs : FileSystem) (fields : List FieldLine) :
    ∀ (c : CpuInfo) (tb : Mem), (∀ x ∈ fields, x.wellFormed = true) →
      List.foldlM (processLine fs) ⟨[c], tb⟩ (fields.map (fun x => x.line))
        = some ⟨[applyFields fields c], tb⟩ := by
  induction fields with
  | nil => intro c tb _; rfl
  | cons x xs ih =>
    intro c tb hwf
    obtain ⟨_, hle, _⟩ := FieldLine.wellFormed_spec x (hwf x (List.mem_cons_self _ _))
    have hstep : processLine fs ⟨[c], tb⟩ x.line
        = some ⟨[fieldUpdate x.field.key x.value c], tb⟩ := by
      rw [processLine_entry fs _ x.line _ _ hle]
      unfold entryStep
      rw [if_neg (Field.key_ne_processor x.field)]
      simp [setBack]
    simp only [List.map_cons, List.foldlM_cons, hstep]
    exact ih _ tb (fun y hy => hwf y (List.mem_cons_of_mem _ hy))

/-! ## Lines with an empty value or an empty key -/

/-- The parser on a buffer laid out as whitespace, key, whitespace, colon and
one or more whitespace characters up to the terminator: the value pointer
ends on the terminator and the result is not absent. -/
theorem parseCpuInfoEntry_layout_emptyValue (mem : Mem) (P : Int) (A K B W : Nat)
    (hKpos : 0 < K) (hWpos : 0 < W)
    (hA : ∀ i : Nat, i < A → ∃ c, load mem (P + i) = some c ∧ isWhitespace c = true)
    (hK : ∀ i : Nat, i < K → ∃ c, load mem (P + A + i) = some c ∧ c ≠ NUL ∧ c ≠ ':')
    (hK0 : ∃ c, load mem (P + A) = some c ∧ isWhitespace c = false)
    (hK1 : ∃ c, load mem (P + A + K - 1) = some c ∧ isWhitespace c = false)
    (hB : ∀ i : Nat, i < B → ∃ c, load mem (P + A + K + i) = some c ∧ isWhitespace c = true)
    (hcolon : load mem (P + A + K + B) = some ':')
    (hW : ∀ i : Nat, i < W →
      ∃ c, load mem (P + A + K + B + 1 + i) = some c ∧ isWhitespace c = true)
    (hZ : load mem (P + A + K + B + 1 + W) = some NUL) :
    ∃ mem2, parseCpuInfoEntry mem P (P + A + K + B + 1 + W - 1)
        = some (⟨some (P + A), some (P + A + K + B + 1 + W)⟩, mem2) ∧
      ∀ q, load mem2 q =
        if q = P + A + K + B + 1 then some NUL
        else if q = P + A + K then some NUL else load mem q := by
  have hzb := load_some_bounds _ _ _ hZ
  obtain ⟨ck0, hk0, hk0w⟩ := hK0
  have hPb := (load_some_bounds _ _ _ hk0).1
  have hP0 : 0 ≤ P := by
    by_cases ha : 0 < A
    · obtain ⟨c, hc, _⟩ := hA 0 ha
      have := (load_some_bounds _ _ _ hc).1
      simpa using this
    · have : A = 0 := by omega
      subst this
      simpa using hPb
  have s1 : skipWhitespaceFront mem P (P + A + K + B + 1 + W - 1) = some (P + A) :=
    skipWhitespaceFrontLoop_spec mem _ A _ P (by omega)
      (fun i hi => ⟨by omega, hA i hi⟩) (Or.inr ⟨ck0, hk0, hk0w⟩)
  have s2 : skipWhitespaceBack mem (P + A) (P + A + K + B + 1 + W - 1)
      = some (P + A + K + B) := by
    have := skipWhitespaceBackLoop_spec mem (P + A) W (mem.length + 1)
      (P + A + K + B + 1 + W - 1) (by omega)
      (fun i hi => ⟨by omega, by
        obtain ⟨c, hc, hw⟩ := hW (W - 1 - i) (by omega)
        refine ⟨c, ?_, hw⟩
        rw [← hc]; congr 1; omega⟩)
      (Or.inr ⟨':', by rw [← hcolon]; congr 1; omega, by decide⟩)
    unfold skipWhitespaceBack
    rw [this]; congr 1; omega
  have s3 : findDelimiter mem (P + A) ':' = some (some (P + A + K + B)) := by
    have := findDelimiterLoop_found mem ':' (by decide) (K + B) (mem.length + 1) (P + A)
      (by omega)
      (fun i hi => by
        by_cases hik : i < K
        · exact hK i hik
        · obtain ⟨c, hc, hw⟩ := hB (i - K) (by omega)
          refine ⟨c, ?_, isWhitespace_ne_nul c hw, isWhitespace_ne_colon c hw⟩
          rw [← hc]; congr 1; omega)
      (by rw [← hcolon]; congr 1; push_cast; ring)
    unfold findDelimiter
    rw [this]; congr 2; push_cast; ring
  have s4 : skipWhitespaceBack mem (P + A) (P + A + K + B - 1) = some (P + A + K - 1) := by
    have := skipWhitespaceBackLoop_spec mem (P + A) B (mem.length + 1)
      (P + A + K + B - 1) (by omega)
      (fun i hi => ⟨by omega, by
        obtain ⟨c, hc, hw⟩ := hB (B - 1 - i) (by omega)
        refine ⟨c, ?_, hw⟩
        rw [← hc]; congr 1; omega⟩)
      (Or.inr (by
        obtain ⟨c, hc, hw⟩ := hK1
        refine ⟨c, ?_, hw⟩
        rw [← hc]; congr 1; omega))
    unfold skipWhitespaceBack
    rw [this]; congr 1; omega
  have s5 : skipWhitespaceFront mem (P + A + K + B + 1) (P + A + K + B)
      = some (P + A + K + B + 1 + W) :=
    skipWhitespaceFrontLoop_spec mem _ W _ (P + A + K + B + 1) (by omega)
      (fun i hi => ⟨by omega, hW i hi⟩) (Or.inr ⟨NUL, hZ, by decide⟩)
  obtain ⟨ck, hck, _⟩ : ∃ c, load mem (P + A + K) = some c ∧ True := by
    by_cases hb : 0 < B
    · obtain ⟨c, hc, _⟩ := hB 0 hb
      exact ⟨c, by simpa using hc, trivial⟩
    · have : B = 0 := by omega
      subst this
      exact ⟨':', by simpa using hcolon, trivial⟩
  obtain ⟨m1, hm1, hl1⟩ := store_ok mem (P + A + K) NUL ck hck
  obtain ⟨cv, hcv, _⟩ := hW 0 hWpos
  have hcv1 : load m1 (P + A + K + B + 1) = some cv := by
    rw [load_store mem m1 _ _ hm1]
    have : ¬ (P + A + K + B + 1 = P + A + K) := by omega
    simp only [this, if_false]
    simpa using hcv
  obtain ⟨m2, hm2, hl2⟩ := store_ok m1 (P + A + K + B + 1) NUL cv hcv1
  refine ⟨m2, ?_, ?_⟩
  · unfold parseCpuInfoEntry
    have e2 : P + A + K - 1 + 1 = P + A + K := by ring
    have n1 : ¬ (P + A = P + A + K + B) := by omega
    have n2 : ¬ (P + A = P + A + K) := by omega
    have n3 : ¬ (P + A + K + B + 1 + W = P + A + K + B + 1) := by omega
    simp only [s1, s2, n1, if_false, s3, s4, e2, n2, s5, n3, hm1, hm2]
  · intro q
    rw [load_store m1 m2 _ _ hm2, load_store mem m1 _ _ hm1]

/-- A line with a key and only whitespace, at least one character of it,
after the colon: `readCpuInfo` reads the key with an empty value. -/
theorem lineEntry_emptyValue (k a b w : List Char) (hk : k ≠ []) (hw0 : w ≠ [])
    (hkn : NUL ∉ k) (hkc : ':' ∉ k)
    (hkh : isWhitespace (k.head hk) = false) (hkl : isWhitespace (k.getLast hk) = false)
    (ha : ∀ x ∈ a, isWhitespace x = true) (hb : ∀ x ∈ b, isWhitespace x = true)
    (hw : ∀ x ∈ w, isWhitespace x = true) :
    lineEntry (a ++ k ++ b ++ ':' :: w) = some (some (k, [])) := by
  have hKpos : 0 < k.length := List.length_pos.mpr hk
  have hWpos : 0 < w.length := List.length_pos.mpr hw0
  generalize hmem : (a ++ k ++ b ++ ':' :: w) ++ [NUL] = mem
  have fA : ∀ i : Nat, i < a.length → ∃ x, load mem ((0 : Int) + i) = some x ∧
      isWhitespace x = true := fun i hi =>
    load_at_ws mem [] a (k ++ b ++ ':' :: w ++ [NUL])
      (by rw [← hmem]; simp [List.append_assoc]) ha i hi _ (by simp)
  have fK : ∀ i : Nat, (hi : i < k.length) →
      load mem ((0 : Int) + a.length + i) = some (k[i]) := fun i hi =>
    load_at mem a k (b ++ ':' :: w ++ [NUL])
      (by rw [← hmem]; simp [List.append_assoc]) i hi _ (by simp)
  have fB : ∀ i : Nat, i < b.length →
      ∃ x, load mem ((0 : Int) + a.length + k.length + i) = some x ∧
        isWhitespace x = true := fun i hi =>
    load_at_ws mem (a ++ k) b (':' :: w ++ [NUL])
      (by rw [← hmem]; simp [List.append_assoc]) hb i hi _
      (by simp only [List.length_append]; push_cast; ring)
  have fcolon : load mem ((0 : Int) + a.length + k.length + b.length) = some ':' :=
    load_at mem (a ++ k ++ b) [':'] (w ++ [NUL])
      (by rw [← hmem]; simp [List.append_assoc]) 0 (by simp) _
      (by simp only [List.length_append]; push_cast; ring)
  have fW : ∀ i : Nat, i < w.length →
      ∃ x, load mem ((0 : Int) + a.length + k.length + b.length + 1 + i) = some x ∧
        isWhitespace x = true := fun i hi =>
    load_at_ws mem (a ++ k ++ b ++ [':']) w [NUL]
      (by rw [← hmem]; simp [List.append_assoc]) hw i hi _
      (by simp only [List.length_append, List.length_cons, List.length_nil]; push_cast; ring)
  have fZ : load mem ((0 : Int) + a.length + k.length + b.length + 1 + w.length) = some NUL :=
    load_at mem (a ++ k ++ b ++ [':'] ++ w) [NUL] []
      (by rw [← hmem]; simp [List.append_assoc]) 0 (by simp) _
      (by simp only [List.length_append, List.length_cons, List.length_nil]; push_cast; ring)
  have hk0 : k[0] = k.head hk := by cases k with
    | nil => exact absurd rfl hk
    | cons x xs => rfl
  have hk1 : k[k.length - 1] = k.getLast hk := (List.getLast_eq_getElem k hk).symm
  obtain ⟨mem2, hparse, hload⟩ := parseCpuInfoEntry_layout_emptyValue mem 0
    a.length k.length b.length w.length hKpos hWpos fA
    (fun i hi => ⟨k[i], fK i hi,
      fun e => hkn (e ▸ List.getElem_mem hi), fun e => hkc (e ▸ List.getElem_mem hi)⟩)
    ⟨k[0], by simpa using fK 0 hKpos, by rw [hk0]; exact hkh⟩
    ⟨k[k.length - 1], by
      have := fK (k.length - 1) (by omega)
      rw [← this]; congr 1; omega, by rw [hk1]; exact hkl⟩
    fB fcolon fW fZ
  have hck : cstrAt mem2 ((0 : Int) + a.length) = some k := by
    apply cstrAt_of_load mem2 _ k hkn
    · intro i hi
      rw [hload, List.getElem?_eq_getElem hi, ← fK i hi]
      have n1 : ¬ ((0 : Int) + a.length + i = (0 : Int) + a.length + k.length
          + b.length + 1) := by omega
      have n2 : ¬ ((0 : Int) + a.length + i = (0 : Int) + a.length + k.length) := by omega
      simp only [n1, n2, if_false]
    · rw [hload]
      have n1 : ¬ ((0 : Int) + a.length + k.length = (0 : Int) + a.length
          + k.length + b.length + 1) := by omega
      simp only [n1, if_false, if_true]
  have hcv : cstrAt mem2 ((0 : Int) + a.length + k.length + b.length + 1 + w.length)
      = some [] := by
    apply cstrAt_of_load mem2 _ [] (by simp)
    · intro i hi; simp at hi
    · rw [hload]
      have n1 : ¬ ((0 : Int) + a.length + k.length + b.length + 1 + w.length + ([] : List Char).length
          = (0 : Int) + a.length + k.length + b.length + 1) := by
        simp only [List.length_nil, Nat.cast_zero]; omega
      have n2 : ¬ ((0 : Int) + a.length + k.length + b.length + 1 + w.length + ([] : List Char).length
          = (0 : Int) + a.length + k.length) := by
        simp only [List.length_nil, Nat.cast_zero]; omega
      simp only [n1, n2, if_false]
      simpa using fZ
  have hnul : NUL ∉ a ++ k ++ b ++ ':' :: w := by
    have h1 := nul_not_mem_of_whitespace a ha
    have h2 := nul_not_mem_of_whitespace b hb
    have h3 := nul_not_mem_of_whitespace w hw
    have h5 : NUL ≠ ':' := by decide
    simp [h1, h2, h3, h5, hkn]
  have hlen : (((a ++ k ++ b ++ ':' :: w).length : Nat) : Int) - 1
      = (0 : Int) + a.length + k.length + b.length + 1 + w.length - 1 := by
    simp only [List.length_append, List.length_cons]; push_cast; ring
  unfold lineEntry parseLine
  have hs := strlen_append_nul _ [] hnul
  have hpos : (a ++ k ++ b ++ ':' :: w).length ≠ 0 := by simp
  simp only [hmem] at hs
  simp only [hmem, hs, hpos, if_false, hlen, hparse, hck, hcv]

/-- The search for the end of an empty key in a line buffer with nothing but
whitespace before the key: it runs below the buffer. -/
theorem skipWhitespaceBackLoop_underrun (mem : Mem) (front : Int) :
    ∀ (n : Nat) (fuel : Nat) (back : Int), back + 1 = n → back < front →
      (∀ i : Nat, i < n → ∃ c, load mem i = some c ∧ isWhitespace c = true) →
      n < fuel → skipWhitespaceBackLoop mem fuel front back = none := by
  intro n
  induction n with
  | zero =>
    intro fuel back hb hlt _ hf
    obtain ⟨f, rfl⟩ : ∃ f, fuel = f + 1 := ⟨fuel - 1, by omega⟩
    have hne : back ≠ front := by omega
    have hneg : back < 0 := by simp at hb; omega
    unfold skipWhitespaceBackLoop
    simp [hne, load_neg mem back hneg]
  | succ n ih =>
    intro fuel back hb hlt hws hf
    obtain ⟨f, rfl⟩ : ∃ f, fuel = f + 1 := ⟨fuel - 1, by omega⟩
    obtain rfl : back = (n : Int) := by push_cast at hb; omega
    have hne : (n : Int) ≠ front := by omega
    obtain ⟨c, hc, hw⟩ := hws n (by omega)
    have key := ih f ((n : Int) - 1) (by omega) (by omega) (fun i hi => hws i (by omega))
      (by omega)
    unfold skipWhitespaceBackLoop
    simp only [hne, if_false, hc, hw, Bool.not_true]
    simpa using key

/-- A line with nothing but whitespace before its first colon and something
else after it, in the line buffer as `readCpuInfo` passes it: the search for
the end of the key starts one cell below the key and runs below the buffer,
so the parser reads the cell before the line buffer. -/
theorem parseCpuInfoEntry_underrun (w post : List Char)
    (hw : ∀ x ∈ w, isWhitespace x = true)
    (hqn : NUL ∉ post) (y : Char) (hy : y ∈ post) (hyw : isWhitespace y = false) :
    parseCpuInfoEntry ((w ++ ':' :: post) ++ [NUL]) 0
        ((((w ++ ':' :: post).length : Nat) : Int) - 1) = none ∧
    skipWhitespaceBack ((w ++ ':' :: post) ++ [NUL]) (w.length : Int) ((w.length : Int) - 1)
      = none := by
  obtain ⟨c, d, hv, hpost, hc, hd, hvh, hvl⟩ := trim_decompose post y hy hyw
  have hVpos : 0 < (trim post).length := List.length_pos.mpr hv
  generalize hmem : (w ++ ':' :: post) ++ [NUL] = mem
  have hmem2 : mem = w ++ [':'] ++ (c ++ trim post ++ d ++ [NUL]) := by
    rw [← hmem]; conv_lhs => rw [hpost]
    simp [List.append_assoc]
  have fW : ∀ i : Nat, i < w.length → ∃ x, load mem i = some x ∧ isWhitespace x = true :=
    fun i hi => load_at_ws mem [] w ([':'] ++ (c ++ trim post ++ d ++ [NUL]))
      (by rw [hmem2]; simp [List.append_assoc]) hw i hi _ (by simp)
  have fcolon : load mem w.length = some ':' :=
    load_at mem w [':'] (c ++ trim post ++ d ++ [NUL]) hmem2 0 (by simp) _ (by simp)
  have fD : ∀ i : Nat, i < d.length →
      ∃ x, load mem ((w.length : Int) + 1 + c.length + (trim post).length + i) = some x ∧
        isWhitespace x = true := fun i hi =>
    load_at_ws mem (w ++ [':'] ++ c ++ trim post) d [NUL]
      (by rw [hmem2]; simp [List.append_assoc]) hd i hi _
      (by simp only [List.length_append, List.length_cons, List.length_nil]; push_cast; ring)
  have fV1 : load mem ((w.length : Int) + 1 + c.length + (trim post).length - 1)
      = some ((trim post).getLast hv) := by
    have := load_at mem (w ++ [':'] ++ c) (trim post) (d ++ [NUL])
      (by rw [hmem2]; simp [List.append_assoc]) ((trim post).length - 1) (by omega)
      ((w.length : Int) + 1 + c.length + (trim post).length - 1)
      (by simp only [List.length_append, List.length_cons, List.length_nil]; push_cast; omega)
    rw [this, List.getLast_eq_getElem]
  have hlen : mem.length = w.length + 1 + c.length + (trim post).length + d.length + 1 := by
    rw [hmem2]; simp only [List.length_append, List.length_cons, List.length_nil]; omega
  have hnul : NUL ∉ w ++ ':' :: post := by
    have h1 := nul_not_mem_of_whitespace w hw
    have h5 : NUL ≠ ':' := by decide
    simp [h1, h5, hqn]
  have hplen : post.length = c.length + (trim post).length + d.length := by
    conv_lhs => rw [hpost]
    simp only [List.length_append]
  have s1 : skipWhitespaceFront mem 0
      ((w.length : Int) + 1 + c.length + (trim post).length + d.length - 1)
      = some (w.length : Int) := by
    have := skipWhitespaceFrontLoop_spec mem
      ((w.length : Int) + 1 + c.length + (trim post).length + d.length - 1) w.length
      (mem.length + 1) 0 (by omega)
      (fun i hi => ⟨by omega, by simpa using fW i hi⟩)
      (Or.inr ⟨':', by simpa using fcolon, by decide⟩)
    unfold skipWhitespaceFront
    rw [this]; simp
  have s2 : skipWhitespaceBack mem (w.length : Int)
      ((w.length : Int) + 1 + c.length + (trim post).length + d.length - 1)
      = some ((w.length : Int) + 1 + c.length + (trim post).length - 1) := by
    have := skipWhitespaceBackLoop_spec mem (w.length : Int) d.length (mem.length + 1)
      ((w.length : Int) + 1 + c.length + (trim post).length + d.length - 1) (by omega)
      (fun i hi => ⟨by omega, by
        obtain ⟨x, hx, hxw⟩ := fD (d.length - 1 - i) (by omega)
        refine ⟨x, ?_, hxw⟩
        rw [← hx]; congr 1; omega⟩)
      (Or.inr ⟨_, by rw [← fV1]; congr 1; omega, hvl⟩)
    unfold skipWhitespaceBack
    rw [this]; congr 1; omega
  have s3 : findDelimiter mem (w.length : Int) ':' = some (some (w.length : Int)) := by
    have := findDelimiterLoop_found mem ':' (by decide) 0 (mem.length + 1) (w.length : Int)
      (by omega) (fun i hi => absurd hi (by omega)) (by simpa using fcolon)
    unfold findDelimiter
    rw [this]; simp
  have s4 : skipWhitespaceBack mem (w.length : Int) ((w.length : Int) - 1) = none :=
    skipWhitespaceBackLoop_underrun mem (w.length : Int) w.length (mem.length + 1)
      ((w.length : Int) - 1) (by omega) (by omega) fW (by omega)
  have hparse : parseCpuInfoEntry mem 0
      ((w.length : Int) + 1 + c.length + (trim post).length + d.length - 1) = none := by
    unfold parseCpuInfoEntry
    have n1 : ¬ ((w.length : Int) = (w.length : Int) + 1 + c.length + (trim post).length - 1) := by
      omega
    simp only [s1, s2, n1, if_false, s3, s4]
  have hl2 : (((w ++ ':' :: post).length : Nat) : Int) - 1
      = (w.length : Int) + 1 + c.length + (trim post).length + d.length - 1 := by
    simp only [List.length_append, List.length_cons, hplen]; push_cast; ring
  rw [hl2]
  exact ⟨hparse, s4⟩

/-- A line with nothing but whitespace before its first colon and something
else after it: the parser reads the cell before the line buffer. -/
theorem lineEntry_emptyKey (w post : List Char) (hw : ∀ x ∈ w, isWhitespace x = true)
    (hqn : NUL ∉ post) (y : Char) (hy : y ∈ post) (hyw : isWhitespace y = false) :
    lineEntry (w ++ ':' :: post) = none := by
  have hparse := (parseCpuInfoEntry_underrun w post hw hqn y hy hyw).1
  have hnul : NUL ∉ w ++ ':' :: post := by
    have h1 := nul_not_mem_of_whitespace w hw
    have h5 : NUL ≠ ':' := by decide
    simp [h1, h5, hqn]
  unfold lineEntry parseLine
  have hs := strlen_append_nul _ [] hnul
  have hpos : (w ++ ':' :: post).length ≠ 0 := by simp
  simp only [List.append_nil] at hs
  simp only [hs, hpos, if_false, hparse]

/-! ## The bounds of the loops are enough

A loop function returns the same with any larger bound: `none` is an access
outside the block, never a bound that ran out. -/

theorem findDelimiterLoop_fuel (mem : Mem) (delimiter : Char) :
    ∀ (fuel : Nat) (str : Int), 0 < fuel → (str < 0 ∨ (mem.length : Int) < str + fuel) →
      ∀ extra : Nat, findDelimiterLoop mem delimiter (fuel + extra) str
        = findDelimiterLoop mem delimiter fuel str := by
  intro fuel
  induction fuel with
  | zero => intro str h; exact absurd h (by omega)
  | succ f ih =>
    intro str _ hb extra
    have e : f + 1 + extra = (f + extra) + 1 := by omega
    rw [e]
    unfold findDelimiterLoop
    cases hl : load mem str with
    | none => rfl
    | some c =>
      have hbd := load_some_bounds mem str c hl
      simp only []
      by_cases h1 : c = NUL
      · simp [h1]
      · by_cases h2 : c = delimiter
        · simp [h1, h2]
        · simp only [h1, h2, if_false]
          exact ih (str + 1) (by omega) (Or.inr (by omega)) extra

theorem skipWhitespaceFrontLoop_fuel (mem : Mem) (back : Int) :
    ∀ (fuel : Nat) (front : Int), 0 < fuel →
      (front < 0 ∨ (mem.length : Int) < front + fuel) →
      ∀ extra : Nat, skipWhitespaceFrontLoop mem (fuel + extra) front back
        = skipWhitespaceFrontLoop mem fuel front back := by
  intro fuel
  induction fuel with
  | zero => intro front h; exact absurd h (by omega)
  | succ f ih =>
    intro front _ hb extra
    have e : f + 1 + extra = (f + extra) + 1 := by omega
    rw [e]
    unfold skipWhitespaceFrontLoop
    by_cases hfb : front = back
    · simp [hfb]
    · simp only [hfb, if_false]
      cases hl : load mem front with
      | none => rfl
      | some c =>
        have hbd := load_some_bounds mem front c hl
        simp only []
        by_cases hw : isWhitespace c = true
        · simp only [hw, Bool.not_true]
          have := ih (front + 1) (by omega) (Or.inr (by omega)) extra
          simpa using this
        · have hw2 : isWhitespace c = false := by simpa using hw
          simp [hw2]

theorem skipWhitespaceBackLoop_fuel (mem : Mem) (front : Int) :
    ∀ (fuel : Nat) (back : Int), 0 < fuel →
      (back + 1 < fuel ∨ (mem.length : Int) ≤ back) →
      ∀ extra : Nat, skipWhitespaceBackLoop mem (fuel + extra) front back
        = skipWhitespaceBackLoop mem fuel front back := by
  intro fuel
  induction fuel with
  | zero => intro back h; exact absurd h (by omega)
  | succ f ih =>
    intro back _ hb extra
    have e : f + 1 + extra = (f + extra) + 1 := by omega
    rw [e]
    unfold skipWhitespaceBackLoop
    by_cases hfb : back = front
    · simp [hfb]
    · simp only [hfb, if_false]
      cases hl : load mem back with
      | none => rfl
      | some c =>
        have hbd := load_some_bounds mem back c hl
        simp only []
        by_cases hw : isWhitespace c = true
        · simp only [hw, Bool.not_true]
          have := ih (back - 1) (by omega) (Or.inl (by omega)) extra
          simpa using this
        · have hw2 : isWhitespace c = false := by simpa using hw
          simp [hw2]

/-- The three helpers of the parser with any larger bound on their loops. -/
theorem parser_loops_fuel (mem : Mem) (p q : Int) (delimiter : Char) (extra : Nat) :
    findDelimiterLoop mem delimiter (mem.length + 1 + extra) p = findDelimiter mem p delimiter ∧
    skipWhitespaceFrontLoop mem (mem.length + 1 + extra) p q = skipWhitespaceFront mem p q ∧
    skipWhitespaceBackLoop mem (mem.length + 1 + extra) p q = skipWhitespaceBack mem p q := by
  refine ⟨?_, ?_, ?_⟩
  · exact findDelimiterLoop_fuel mem delimiter (mem.length + 1) p (by omega)
      (by by_cases h : p < 0
          · exact Or.inl h
          · exact Or.inr (by push_cast; omega)) extra
  · exact skipWhitespaceFrontLoop_fuel mem q (mem.length + 1) p (by omega)
      (by by_cases h : p < 0
          · exact Or.inl h
          · exact Or.inr (by push_cast; omega)) extra
  · exact skipWhitespaceBackLoop_fuel mem p (mem.length + 1) q (by omega)
      (by by_cases h : (mem.length : Int) ≤ q
          · exact Or.inr h
          · exact Or.inl (by push_cast; omega)) extra

/-- The loop of `readCpuInfo` with any larger bound on its turns. -/
theorem readLoop_fuel (fs : FileSystem) (text : List Char) (st : State) (extra : Nat) :
    readLoop fs (text.length + extra) text st = readLoop fs text.length text st := by
  rw [readLoop_eq_foldlM, readLoop_eq_foldlM,
    fgetsLines_fuel (text.length + extra) text.length text (by omega) (le_refl _)]

/-! ## The claims about the line parser -/

theorem head_of_head?_map (s : List Char) (h : s.head?.map isWhitespace = some false) :
    ∃ hs : s ≠ [], isWhitespace (s.head hs) = false := by
  cases s with
  | nil => simp at h
  | cons x xs => exact ⟨by simp, by simpa using h⟩

theorem getLast_of_getLast?_map (s : List Char)
    (h : s.getLast?.map isWhitespace = some false) (hs : s ≠ []) :
    isWhitespace (s.getLast hs) = false := by
  rw [List.getLast?_eq_getLast s hs] at h
  simpa using h

theorem entryStrings_of_cstr (key value : Int) (tmp : Mem) (k v : List Char)
    (hk : cstrAt tmp key = some k) (hv : cstrAt tmp value = some v) :
    entryStrings (⟨some key, some value⟩, tmp) = (some k, some v) := by
  simp [entryStrings, hk, hv]

/-- C1: for a key `k` and a value `v` that are non-empty, hold no NUL and
neither start nor end with a whitespace character, `k` holding no colon, and
for whitespace `a`, `b`, `c`, `d`, the parser applied to the line
`a k b : c v d` (front at its first character, back at its last character)
returns two pointers at which the strings `k` and `v` stand, and `readCpuInfo`
reads the entry `(k, v)` from the line. -/
theorem parseCpuInfoEntry_wellFormed_line (k v a b c d : List Char)
    (hkh : k.head?.map isWhitespace = some false)
    (hkl : k.getLast?.map isWhitespace = some false)
    (hvh : v.head?.map isWhitespace = some false)
    (hvl : v.getLast?.map isWhitespace = some false)
    (hkn : NUL ∉ k) (hvn : NUL ∉ v) (hkc : ':' ∉ k)
    (ha : a.all isWhitespace = true) (hb : b.all isWhitespace = true)
    (hc : c.all isWhitespace = true) (hd : d.all isWhitespace = true) :
    (parseCpuInfoEntry ((a ++ k ++ b ++ ':' :: (c ++ v ++ d)) ++ [NUL]) 0
        (((a ++ k ++ b ++ ':' :: (c ++ v ++ d)).length : Int) - 1)).map entryStrings
      = some (some k, some v) ∧
    lineEntry (a ++ k ++ b ++ ':' :: (c ++ v ++ d)) = some (some (k, v)) := by
  obtain ⟨hk, hkh2⟩ := head_of_head?_map k hkh
  obtain ⟨hv, hvh2⟩ := head_of_head?_map v hvh
  obtain ⟨key, value, tmp, hp, hck, hcv, _, hle⟩ := lineEntry_wellFormed k v a b c d hk hv
    hkn hvn hkc hkh2 (getLast_of_getLast?_map k hkl hk) hvh2 (getLast_of_getLast?_map v hvl hv)
    (fun x hx => List.all_eq_true.mp ha x hx) (fun x hx => List.all_eq_true.mp hb x hx)
    (fun x hx => List.all_eq_true.mp hc x hx) (fun x hx => List.all_eq_true.mp hd x hx)
  exact ⟨by rw [hp, Option.map_some', entryStrings_of_cstr key value tmp k v hck hcv], hle⟩

/-- Witness of C1: the line `"  key  :  value  \n"`. -/
theorem parseCpuInfoEntry_wellFormed_line_witness :
    ("key".toList.head?.map isWhitespace = some false ∧
      "key".toList.getLast?.map isWhitespace = some false ∧
      "value".toList.head?.map isWhitespace = some false ∧
      "value".toList.getLast?.map isWhitespace = some false ∧
      NUL ∉ "key".toList ∧ NUL ∉ "value".toList ∧ ':' ∉ "key".toList ∧
      "  ".toList.all isWhitespace = true ∧ " \t".toList.all isWhitespace = true ∧
      "  ".toList.all isWhitespace = true ∧ "  \n".toList.all isWhitespace = true) ∧
    ((parseCpuInfoEntry (("  ".toList ++ "key".toList ++ " \t".toList
          ++ ':' :: ("  ".toList ++ "value".toList ++ "  \n".toList)) ++ [NUL]) 0
        ((("  ".toList ++ "key".toList ++ " \t".toList
          ++ ':' :: ("  ".toList ++ "value".toList ++ "  \n".toList)).length : Int) - 1)).map
        entryStrings = some (some "key".toList, some "value".toList) ∧
      lineEntry ("  ".toList ++ "key".toList ++ " \t".toList
          ++ ':' :: ("  ".toList ++ "value".toList ++ "  \n".toList))
        = some (some ("key".toList, "value".toList))) :=
  ⟨by decide,
    parseCpuInfoEntry_wellFormed_line "key".toList "value".toList "  ".toList " \t".toList
      "  ".toList "  \n".toList (by decide) (by decide) (by decide) (by decide) (by decide)
      (by decide) (by decide) (by decide) (by decide) (by decide) (by decide)⟩

/-- C2, evaluated on the code: on the lines `"key:\n"` and `"key:   \n"` the
parser returns two non-null pointers, the key `"key"` and an empty value,
where the claim has the absent result; only `"key:"` without a newline is
absent. -/
theorem parseCpuInfoEntry_emptyValue_lines :
    (parseCpuInfoEntry ("key:\n".toList ++ [NUL]) 0 4).map entryStrings
      = some (some "key".toList, some []) ∧
    (parseCpuInfoEntry ("key:   \n".toList ++ [NUL]) 0 7).map entryStrings
      = some (some "key".toList, some []) ∧
    lineEntry "key:\n".toList = some (some ("key".toList, [])) ∧
    lineEntry "key:   \n".toList = some (some ("key".toList, [])) ∧
    (parseCpuInfoEntry ("key:".toList ++ [NUL]) 0 3).map entryStrings = some (none, none) := by
  decide

/-- C3, evaluated on the code: on the line `"  :value\n"`, wherever the line
buffer lies in memory, the parser does not return the absent result (the
search for the end of the key runs below the start of the key); with nothing
in front of the line buffer the lines `":value"` and `"  :value\n"` make the
parser read the cell before the buffer. -/
theorem parseCpuInfoEntry_emptyKey_lines :
    (∀ (below stale : List Char) (tmp : Mem),
      parseCpuInfoEntry (below ++ "  :value\n".toList ++ NUL :: stale) below.length
        ((below.length : Int) + 8) ≠ some (KeyValue.absent, tmp)) ∧
    parseCpuInfoEntry (":value".toList ++ [NUL]) 0 5 = none ∧
    parseCpuInfoEntry ("  :value\n".toList ++ [NUL]) 0 8 = none ∧
    parseCpuInfoEntry (['x'] ++ ":value".toList ++ [NUL]) 1 6
      = some (KeyValue.absent, ['x'] ++ ":value".toList ++ [NUL]) :=
  ⟨parseCpuInfoEntry_emptyKey_mem, by decide, by decide, by decide⟩

/-- C4: a line without a colon has no entry: `readCpuInfo` gets no key and no
value from it (a line of length zero is not handed to the parser), and on
every such line that is not empty the parser returns the absent result and
leaves the buffer as it was. -/
theorem parseCpuInfoEntry_noColon (line : List Char) (hc : ':' ∉ line) (hn : NUL ∉ line) :
    lineEntry line = some none ∧
    (line = [] ∨
      parseCpuInfoEntry (line ++ [NUL]) 0 ((line.length : Int) - 1)
        = some (KeyValue.absent, line ++ [NUL])) := by
  refine ⟨lineEntry_noColon line hc, ?_⟩
  by_cases hl : line = []
  · exact Or.inl hl
  · exact Or.inr (parseCpuInfoEntry_mem_noColon line [] hl hn hc)

/-- Witness of C4: the line `"model name\n"`. -/
theorem parseCpuInfoEntry_noColon_witness :
    (':' ∉ "model name\n".toList ∧ NUL ∉ "model name\n".toList) ∧
    (lineEntry "model name\n".toList = some none ∧
      ("model name\n".toList = [] ∨
        parseCpuInfoEntry ("model name\n".toList ++ [NUL]) 0
            (("model name\n".toList.length : Int) - 1)
          = some (KeyValue.absent, "model name\n".toList ++ [NUL]))) :=
  ⟨by decide, parseCpuInfoEntry_noColon "model name\n".toList (by decide) (by decide)⟩


/-- The parser on a line with text that is not whitespace on both sides of
its first colon. -/
theorem parseCpuInfoEntry_split (pre post : List Char) (hc : ':' ∉ pre)
    (hpn : NUL ∉ pre) (hqn : NUL ∉ post)
    (x : Char) (hx : x ∈ pre) (hxw : isWhitespace x = false)
    (y : Char) (hy : y ∈ post) (hyw : isWhitespace y = false) :
    (parseCpuInfoEntry ((pre ++ ':' :: post) ++ [NUL]) 0
        (((pre ++ ':' :: post).length : Int) - 1)).map entryStrings
      = some (some (trim pre), some (trim post)) := by
  obtain ⟨a, b, hk, hpre, ha, hb, hkh, hkl⟩ := trim_decompose pre x hx hxw
  obtain ⟨c, d, hv, hpost, hc2, hd, hvh, hvl⟩ := trim_decompose post y hy hyw
  obtain ⟨key, value, tmp, hp, hck, hcv, _, _⟩ :=
    lineEntry_wellFormed (trim pre) (trim post) a b c d hk hv
      (not_mem_trim pre NUL hpn) (not_mem_trim post NUL hqn) (not_mem_trim pre ':' hc)
      hkh hkl hvh hvl ha hb hc2 hd
  rw [← hpre, ← hpost] at hp
  rw [hp, Option.map_some', entryStrings_of_cstr key value tmp _ _ hck hcv]

theorem count_trim (s : List Char) (ch : Char) (hw : isWhitespace ch = false) :
    (trim s).count ch = s.count ch := by
  by_cases h : ∃ x ∈ s, isWhitespace x = false
  · obtain ⟨x, hx, hxw⟩ := h
    obtain ⟨a, b, _, hs, ha, hb, _, _⟩ := trim_decompose s x hx hxw
    have ha0 : a.count ch = 0 :=
      List.count_eq_zero.mpr (fun hm => by rw [ha ch hm] at hw; exact absurd hw (by decide))
    have hb0 : b.count ch = 0 :=
      List.count_eq_zero.mpr (fun hm => by rw [hb ch hm] at hw; exact absurd hw (by decide))
    conv_rhs => rw [hs]
    simp [List.count_append, ha0, hb0]
  · have hall : ∀ x ∈ s, isWhitespace x = true := by
      intro x hx
      by_contra hc
      exact h ⟨x, hx, by simpa using hc⟩
    have h1 : s.count ch = 0 :=
      List.count_eq_zero.mpr (fun hm => by rw [hall ch hm] at hw; exact absurd hw (by decide))
    have h2 : (trim s).count ch = 0 :=
      List.count_eq_zero.mpr (fun hm => by
        have hm2 : ch ∈ s := by
          by_contra hc
          exact not_mem_trim s ch hc hm
        rw [hall ch hm2] at hw; exact absurd hw (by decide))
    rw [h1, h2]

/-- C5: a line with a character that is not whitespace before its first colon
and one after it is split at the first colon only: the key is the trimmed text
before the first colon and the value is the trimmed text after it, with as
many colons as the text after the first colon has. -/
theorem parseCpuInfoEntry_firstColon (pre post : List Char) (hc : ':' ∉ pre)
    (hpn : NUL ∉ pre) (hqn : NUL ∉ post)
    (hx : pre.any (fun x => !isWhitespace x) = true)
    (hy : post.any (fun y => !isWhitespace y) = true) :
    (parseCpuInfoEntry ((pre ++ ':' :: post) ++ [NUL]) 0
        (((pre ++ ':' :: post).length : Int) - 1)).map entryStrings
      = some (some (trim pre), some (trim post)) ∧
    lineEntry (pre ++ ':' :: post) = some (some (trim pre, trim post)) ∧
    (trim post).count ':' = post.count ':' := by
  obtain ⟨x, hxm, hxw⟩ := List.any_eq_true.mp hx
  obtain ⟨y, hym, hyw⟩ := List.any_eq_true.mp hy
  have hxw2 : isWhitespace x = false := by simpa using hxw
  have hyw2 : isWhitespace y = false := by simpa using hyw
  exact ⟨parseCpuInfoEntry_split pre post hc hpn hqn x hxm hxw2 y hym hyw2,
    lineEntry_split pre post hc hpn hqn x hxm hxw2 y hym hyw2,
    count_trim post ':' (by decide)⟩

/-- Witness of C5: the line `"time : 12:30:00"`. -/
theorem parseCpuInfoEntry_firstColon_witness :
    (':' ∉ "time ".toList ∧ NUL ∉ "time ".toList ∧ NUL ∉ " 12:30:00".toList ∧
      "time ".toList.any (fun x => !isWhitespace x) = true ∧
      " 12:30:00".toList.any (fun y => !isWhitespace y) = true) ∧
    ((parseCpuInfoEntry (("time ".toList ++ ':' :: " 12:30:00".toList) ++ [NUL]) 0
        ((("time ".toList ++ ':' :: " 12:30:00".toList).length : Int) - 1)).map entryStrings
      = some (some (trim "time ".toList), some (trim " 12:30:00".toList)) ∧
    lineEntry ("time ".toList ++ ':' :: " 12:30:00".toList)
      = some (some (trim "time ".toList, trim " 12:30:00".toList)) ∧
    (trim " 12:30:00".toList).count ':' = " 12:30:00".toList.count ':') ∧
    trim "time ".toList = "time".toList ∧ trim " 12:30:00".toList = "12:30:00".toList :=
  ⟨by decide,
    parseCpuInfoEntry_firstColon "time ".toList " 12:30:00".toList (by decide) (by decide)
      (by decide) (by decide) (by decide),
    by decide, by decide⟩

/-! ## The aggregator on the pieces `fgets` delivers -/

/-- The records `readCpuInfo` produces are, in order, one per piece `fgets`
delivers whose parsed key is "processor", and the `cpuIndex` of each is
`atoi` of the value of its piece.  Stated for the texts on whose pieces the
parser stays inside the line buffer and for file systems in which `read` does
not fail. -/
theorem readCpuInfo_piece_records (text : List Char)
    (files : List Char → Option (List Char)) (garbage : Nat → Char) (res : List CpuInfo)
    (hp : (sourceLines text).all parses = true) :
    (readCpuInfo (fileSystem text files) garbage res).map (List.map (fun r => r.cpuIndex))
      = some ((processorValues (sourceLines text)).map atoi) := by
  have he : ∀ path, (fileSystem text files).sysfs path ≠ some .error := by
    intro path
    unfold fileSystem
    cases files path <;> simp
  have hstack : (State.mk [] (stackArray 8192 garbage)).tmpBuffer.length = 8192 := by
    simp [stackArray]
  obtain ⟨st2, h2, _, hi⟩ := foldlM_processLine_indices (fileSystem text files) he
    (sourceLines text) (State.mk [] (stackArray 8192 garbage))
    (fun line hm => by
      have := List.all_eq_true.mp hp line hm
      unfold parses at this
      intro e; rw [e] at this; simp at this)
    hstack
  rw [readCpuInfo_eq _ garbage res text rfl, h2]
  simpa using hi

/-- A piece whose parsed key is not "processor" changes at most the last
record: the loop body keeps the number of records and every record before the
last. -/
theorem processLine_frame (fs : FileSystem) (st : State) (line k v : List Char)
    (h : lineEntry line = some (some (k, v))) (hk : k ≠ "processor".toList) :
    (processLine fs st line).map (fun st2 => (st2.res.length, st2.res.dropLast))
      = some (st.res.length, st.res.dropLast) := by
  obtain ⟨st2, hs, _, hlen, hdrop, _, _⟩ := entryStep_field fs st k v hk
  rw [processLine_entry fs st line k v h, hs, Option.map_some', hlen, hdrop]

theorem notProcessorLine_spec (line : List Char) (h : notProcessorLine line = true) :
    ∃ e, lineEntry line = some e ∧ ∀ k v, e = some (k, v) → k ≠ "processor".toList := by
  unfold notProcessorLine at h
  cases hle : lineEntry line with
  | none => simp [hle] at h
  | some e =>
    refine ⟨e, rfl, ?_⟩
    intro k v he
    subst he
    simp only [hle] at h
    intro hk
    rw [hk] at h
    simp at h

/-- The pieces before the first piece whose parsed key is "processor" have
no effect: `readCpuInfo` gives on the text what it gives on the text without
them, and a text without such a piece gives the empty sequence. -/
theorem readCpuInfo_leading_pieces (pre rest text : List Char)
    (sysfs : List Char → Option ReadResult) (garbage : Nat → Char) (res : List CpuInfo)
    (hnl : pre = [] ∨ pre.getLast? = some '\n')
    (hpre : (sourceLines pre).all notProcessorLine = true)
    (htext : (sourceLines text).all notProcessorLine = true) :
    readCpuInfo ⟨some (pre ++ rest), sysfs⟩ garbage res
      = readCpuInfo ⟨some rest, sysfs⟩ garbage res ∧
    readCpuInfo ⟨some text, sysfs⟩ garbage res = some [] := by
  constructor
  · rw [readCpuInfo_eq ⟨some (pre ++ rest), sysfs⟩ garbage res (pre ++ rest) rfl,
      readCpuInfo_eq ⟨some rest, sysfs⟩ garbage res rest rfl,
      sourceLines_append pre rest hnl, List.foldlM_append]
    have := foldlM_processLine_noRecord ⟨some (pre ++ rest), sysfs⟩ (sourceLines pre)
      ⟨[], stackArray 8192 garbage⟩ rfl
      (fun line hm => notProcessorLine_spec line (List.all_eq_true.mp hpre line hm))
    rw [this]
    rfl
  · rw [readCpuInfo_eq ⟨some text, sysfs⟩ garbage res text rfl]
    have := foldlM_processLine_noRecord ⟨some text, sysfs⟩ (sourceLines text)
      ⟨[], stackArray 8192 garbage⟩ rfl
      (fun line hm => notProcessorLine_spec line (List.all_eq_true.mp htext line hm))
    rw [this]
    rfl

theorem auxValue_none (fs : FileSystem) (f : AuxFile) (cpuIndex : Int)
    (h : fs.sysfs (auxPath f cpuIndex) = none) : auxValue fs f cpuIndex = none := by
  unfold auxValue; rw [h]

/-- C9, amended: a text of one "processor" line with a decimal value `n` that
an `int` holds, followed by field lines for distinct fields, each with a value
that the member of its field holds, gives, when no auxiliary file opens,
exactly one record: `cpuIndex = n`, implementer, variant and part read as
hexadecimal, architecture and revision read as decimal, 0 for a field
without a line, the three frequencies 0 and `packageId = -1`. -/
theorem readCpuInfo_single_record (pline pvalue : List Char) (n : Nat)
    (fields : List FieldLine) (sysfs : List Char → Option ReadResult)
    (garbage : Nat → Char) (res : List CpuInfo)
    (haux : [AuxFile.minFreq, AuxFile.maxFreq, AuxFile.currentFreq, AuxFile.packageId].all
      (fun f => (sysfs (auxPath f n)).isNone) = true)
    (hpl : isLine pline = true)
    (hpe : lineEntry pline = some (some ("processor".toList, pvalue)))
    (hpn : readDecimal pvalue = some n) (hn : (n : Int) ≤ INT_MAX)
    (hwf : fields.all FieldLine.wellFormed = true)
    (hnd : (fields.map (fun x => x.field)).Nodup) :
    readCpuInfo ⟨some (pline ++ (fields.map (fun x => x.line)).flatten), sysfs⟩
        garbage res
      = some [expectedRecord n fields] := by
  have hnone : ∀ f : AuxFile, sysfs (auxPath f n) = none := by
    intro f
    have h := List.all_eq_true.mp haux f (by cases f <;> simp)
    exact Option.isNone_iff_eq_none.mp h
  have hidx : atoi pvalue = n := atoi_decimal pvalue n hpn hn
  have hwf2 : ∀ x ∈ fields, x.wellFormed = true := fun x hx => List.all_eq_true.mp hwf x hx
  have hlines : ∀ l ∈ fields.map (fun x => x.line), isLine l = true := by
    intro l hl
    obtain ⟨x, hx, rfl⟩ := List.mem_map.mp hl
    exact (FieldLine.wellFormed_spec x (hwf2 x hx)).1
  rw [readCpuInfo_eq _ garbage res _ rfl, sourceLines_line pline _ hpl,
    sourceLines_join _ hlines, List.foldlM_cons]
  have hstack : (stackArray 8192 garbage).length = 8192 := by
    simp [stackArray]
  have ha : ∀ f : AuxFile, auxValue
      ⟨some (pline ++ (fields.map (fun x => x.line)).flatten), sysfs⟩ f n = none :=
    fun f => auxValue_none _ f n (hnone f)
  obtain ⟨tb, hfill, _⟩ := fillAux_eq
    ⟨some (pline ++ (fields.map (fun x => x.line)).flatten), sysfs⟩
    (stackArray 8192 garbage) { cpuIndex := n } hstack
    (fun f => by
      show sysfs (auxPath f n) ≠ some .error
      rw [hnone f]; simp)
  simp only [ha, Option.getD_none] at hfill
  have hfirst : processLine
      ⟨some (pline ++ (fields.map (fun x => x.line)).flatten), sysfs⟩
      ⟨[], stackArray 8192 garbage⟩ pline = some ⟨[{ cpuIndex := n }], tb⟩ := by
    rw [processLine_entry _ _ pline _ _ hpe]
    unfold entryStep
    rw [if_pos rfl, hidx, hfill]
    rfl
  simp only [hfirst]
  rw [show (some (State.mk [{ cpuIndex := (n : Int) }] tb) >>= fun s =>
      List.foldlM (processLine
        ⟨some (pline ++ (fields.map (fun x => x.line)).flatten), sysfs⟩) s
        (fields.map (fun x => x.line)))
    = List.foldlM (processLine
        ⟨some (pline ++ (fields.map (fun x => x.line)).flatten), sysfs⟩)
        (State.mk [{ cpuIndex := (n : Int) }] tb) (fields.map (fun x => x.line)) from rfl,
    foldlM_fieldLines _ fields _ tb hwf2, Option.map_some',
    applyFields_eq_expected n fields hwf2 hnd]

/-- Witness of C9: the text of the specification, "processor" 3 with
implementer 0x41 and part 0xd0a. -/
theorem readCpuInfo_single_record_witness :
    ([AuxFile.minFreq, AuxFile.maxFreq, AuxFile.currentFreq, AuxFile.packageId].all
        (fun f => ((fun _ => none : List Char → Option ReadResult) (auxPath f 3)).isNone) = true ∧
      isLine "processor\t: 3\n".toList = true ∧
      lineEntry "processor\t: 3\n".toList = some (some ("processor".toList, "3".toList)) ∧
      readDecimal "3".toList = some 3 ∧ ((3 : Nat) : Int) ≤ INT_MAX ∧
      [FieldLine.mk .implementer "0x41".toList "CPU implementer\t: 0x41\n".toList,
        FieldLine.mk .part "0xd0a".toList "CPU part\t: 0xd0a\n".toList].all
          FieldLine.wellFormed = true ∧
      ([FieldLine.mk .implementer "0x41".toList "CPU implementer\t: 0x41\n".toList,
        FieldLine.mk .part "0xd0a".toList "CPU part\t: 0xd0a\n".toList].map
          (fun x => x.field)).Nodup) ∧
    readCpuInfo ⟨some ("processor\t: 3\n".toList ++
        ([FieldLine.mk .implementer "0x41".toList "CPU implementer\t: 0x41\n".toList,
          FieldLine.mk .part "0xd0a".toList "CPU part\t: 0xd0a\n".toList].map
            (fun x => x.line)).flatten), fun _ => none⟩ (fun _ => 'x') []
      = some [expectedRecord 3
          [FieldLine.mk .implementer "0x41".toList "CPU implementer\t: 0x41\n".toList,
            FieldLine.mk .part "0xd0a".toList "CPU part\t: 0xd0a\n".toList]] ∧
    expectedRecord 3
        [FieldLine.mk .implementer "0x41".toList "CPU implementer\t: 0x41\n".toList,
          FieldLine.mk .part "0xd0a".toList "CPU part\t: 0xd0a\n".toList]
      = { cpuIndex := 3, cpuImplementer := 0x41, cpuArch := 0, cpuVariant := 0,
          cpuPart := 0xd0a, cpuRevision := 0, minFreq := 0, maxFreq := 0, currentFreq := 0,
          packageId := -1 } ∧
    "processor\t: 3\n".toList ++
        ([FieldLine.mk .implementer "0x41".toList "CPU implementer\t: 0x41\n".toList,
          FieldLine.mk .part "0xd0a".toList "CPU part\t: 0xd0a\n".toList].map
            (fun x => x.line)).flatten
      = "processor\t: 3\nCPU implementer\t: 0x41\nCPU part\t: 0xd0a\n".toList :=
  ⟨by decide,
    readCpuInfo_single_record "processor\t: 3\n".toList "3".toList 3
      [FieldLine.mk .implementer "0x41".toList "CPU implementer\t: 0x41\n".toList,
        FieldLine.mk .part "0xd0a".toList "CPU part\t: 0xd0a\n".toList]
      (fun _ => none) (fun _ => 'x') [] (by decide) (by decide) (by decide) (by decide)
      (by decide) (by decide) (by decide),
    by decide, by decide⟩

/-- Counterexample to C9 as stated: a "CPU part" line with the hexadecimal
value 2^64 gives `cpuPart = LONG_MAX`, not the value read as hexadecimal, and
a "processor" line with the decimal value 2^32 gives `cpuIndex = 0`. -/
theorem readCpuInfo_overflow_counterexample :
    readCpuInfo ⟨some "processor\t: 0\nCPU part\t: 0x10000000000000000\n".toList,
        fun _ => none⟩ (fun _ => 'x') []
      = some [{ cpuIndex := 0, cpuPart := 9223372036854775807 }] ∧
    readHex "0x10000000000000000".toList = some 18446744073709551616 ∧
    readCpuInfo ⟨some "processor\t: 0\nCPU part\t: 0x10000000000000000\n".toList,
        fun _ => none⟩ (fun _ => 'x') []
      ≠ some [expectedRecord 0
          [FieldLine.mk .part "0x10000000000000000".toList
            "CPU part\t: 0x10000000000000000\n".toList]] ∧
    readCpuInfo ⟨some "processor\t: 4294967296\n".toList, fun _ => none⟩ (fun _ => 'x') []
      = some [{ cpuIndex := 0 }] ∧
    readDecimal "4294967296".toList = some 4294967296 := by
  decide

theorem auxPath_injective (f g : AuxFile) (cpuIndex : Int)
    (h : auxPath f cpuIndex = auxPath g cpuIndex) : f = g := by
  unfold auxPath at h
  have h2 := List.append_cancel_left h
  cases f <;> cases g <;> first | rfl | (exact absurd h2 (by decide))

theorem auxValue_update_ne (text : List Char) (files : List Char → Option (List Char))
    (f g : AuxFile) (cpuIndex : Int) (bytes : List Char) (hfg : g ≠ f) :
    auxValue (fileSystem text (Function.update files (auxPath f cpuIndex) (some bytes)))
        g cpuIndex
      = auxValue (fileSystem text files) g cpuIndex := by
  have hne : auxPath g cpuIndex ≠ auxPath f cpuIndex :=
    fun e => hfg (auxPath_injective g f cpuIndex e)
  unfold auxValue fileSystem
  simp only [Function.update_noteq hne]

theorem fileSystem_no_error (text : List Char) (files : List Char → Option (List Char))
    (path : List Char) : (fileSystem text files).sysfs path ≠ some .error := by
  unfold fileSystem
  cases files path <;> simp

/-- C10: for a record opened by a "processor" line and each of its four
lookups: when the file of the lookup does not open, the record is appended
all the same, and it is the record appended when that lookup succeeds with
the field of the lookup at its default (0 for the frequencies, -1 for
`packageId`). -/
theorem processLine_lookup_fails (files : List Char → Option (List Char)) (f : AuxFile)
    (bytes : List Char) (st : State) (line v : List Char)
    (hle : lineEntry line = some (some ("processor".toList, v)))
    (htb : st.tmpBuffer.length = 8192)
    (hf : files (auxPath f (atoi v)) = none) :
    ∃ r1,
      (processLine (fileSystem [] (Function.update files (auxPath f (atoi v)) (some bytes)))
          st line).map State.res = some (st.res ++ [r1]) ∧
      (processLine (fileSystem [] files) st line).map State.res
        = some (st.res ++ [f.reset r1]) := by
  obtain ⟨tb1, h1, _⟩ := fillAux_eq
    (fileSystem [] (Function.update files (auxPath f (atoi v)) (some bytes)))
    st.tmpBuffer { cpuIndex := atoi v } htb (fun g => fileSystem_no_error _ _ _)
  obtain ⟨tb0, h0, _⟩ := fillAux_eq (fileSystem [] files)
    st.tmpBuffer { cpuIndex := atoi v } htb (fun g => fileSystem_no_error _ _ _)
  have hnone : auxValue (fileSystem [] files) f (atoi v) = none :=
    auxValue_none _ _ _ (by unfold fileSystem; simp [hf])
  dsimp only at h1 h0
  refine ⟨{ cpuIndex := atoi v
            minFreq := (auxValue (fileSystem [] (Function.update files (auxPath f (atoi v))
              (some bytes))) .minFreq (atoi v)).getD 0
            maxFreq := (auxValue (fileSystem [] (Function.update files (auxPath f (atoi v))
              (some bytes))) .maxFreq (atoi v)).getD 0
            currentFreq := (auxValue (fileSystem [] (Function.update files
              (auxPath f (atoi v)) (some bytes))) .currentFreq (atoi v)).getD 0
            packageId := (auxValue (fileSystem [] (Function.update files (auxPath f (atoi v))
              (some bytes))) .packageId (atoi v)).getD (-1) }, ?_, ?_⟩
  · rw [processLine_entry _ st line _ v hle]
    unfold entryStep
    rw [if_pos rfl, h1]
    rfl
  · rw [processLine_entry _ st line _ v hle]
    unfold entryStep
    rw [if_pos rfl, h0]
    simp only [Option.map_some', Option.some.injEq, List.append_cancel_left_eq,
      List.cons.injEq, and_true]
    cases f
    · rw [auxValue_update_ne [] files .minFreq .maxFreq _ bytes (by decide),
        auxValue_update_ne [] files .minFreq .currentFreq _ bytes (by decide),
        auxValue_update_ne [] files .minFreq .packageId _ bytes (by decide), hnone]
      rfl
    · rw [auxValue_update_ne [] files .maxFreq .minFreq _ bytes (by decide),
        auxValue_update_ne [] files .maxFreq .currentFreq _ bytes (by decide),
        auxValue_update_ne [] files .maxFreq .packageId _ bytes (by decide), hnone]
      rfl
    · rw [auxValue_update_ne [] files .currentFreq .minFreq _ bytes (by decide),
        auxValue_update_ne [] files .currentFreq .maxFreq _ bytes (by decide),
        auxValue_update_ne [] files .currentFreq .packageId _ bytes (by decide), hnone]
      rfl
    · rw [auxValue_update_ne [] files .packageId .minFreq _ bytes (by decide),
        auxValue_update_ne [] files .packageId .maxFreq _ bytes (by decide),
        auxValue_update_ne [] files .packageId .currentFreq _ bytes (by decide), hnone]
      rfl

/-- Witness of C10: the record of "processor" 2 when the file of the maximum
frequency does not open. -/
theorem processLine_lookup_fails_witness :
    (lineEntry "processor\t: 2\n".toList = some (some ("processor".toList, "2".toList)) ∧
      (State.mk [] (List.replicate 8192 NUL)).tmpBuffer.length = 8192 ∧
      (fun _ => none : List Char → Option (List Char))
        (auxPath .maxFreq (atoi "2".toList)) = none) ∧
    ∃ r1,
      (processLine (fileSystem [] (Function.update (fun _ => none)
          (auxPath .maxFreq (atoi "2".toList)) (some "1800000\n".toList)))
          (State.mk [] (List.replicate 8192 NUL)) "processor\t: 2\n".toList).map State.res
        = some ((State.mk [] (List.replicate 8192 NUL)).res ++ [r1]) ∧
      (processLine (fileSystem [] (fun _ => none))
          (State.mk [] (List.replicate 8192 NUL)) "processor\t: 2\n".toList).map State.res
        = some ((State.mk [] (List.replicate 8192 NUL)).res ++ [AuxFile.maxFreq.reset r1]) :=
  ⟨⟨by decide, List.length_replicate 8192 NUL, rfl⟩,
    processLine_lookup_fails (fun _ => none) .maxFreq "1800000\n".toList
      (State.mk [] (List.replicate 8192 NUL)) "processor\t: 2\n".toList "2".toList
      (by decide) (List.length_replicate 8192 NUL) rfl⟩

/-! ## The result does not depend on what the stack or the vector held -/

theorem store_sizeMax (mem : Mem) (h : mem.length ≤ 8192) :
    store mem (SIZE_MAX : Nat) NUL = none := by
  unfold store
  have h1 : ¬ (((SIZE_MAX : Nat) : Int) < 0) := by omega
  have h2 : ¬ ((((SIZE_MAX : Nat) : Int)).toNat < mem.length) := by
    have : (8192 : Nat) < SIZE_MAX := by unfold SIZE_MAX; norm_num
    omega
  simp only [h1, h2, if_false]

/-- An auxiliary lookup whose `read` fails writes the terminator outside the
buffer. -/
theorem auxLookup_error (fs : FileSystem) (f : AuxFile) (cpuIndex : Int) (tmpBuffer : Mem)
    (hl : tmpBuffer.length = 8192) (he : fs.sysfs (auxPath f cpuIndex) = some .error) :
    auxLookup fs f cpuIndex tmpBuffer = none := by
  unfold auxLookup readFile
  simp only [show (8192 : Nat) ≠ 0 by decide, if_false, he, sysRead,
    store_sizeMax tmpBuffer (by omega)]

theorem auxLookup_indep (fs : FileSystem) (f : AuxFile) (cpuIndex : Int) (b1 b2 : Mem)
    (h1 : b1.length = 8192) (h2 : b2.length = 8192) :
    (auxLookup fs f cpuIndex b1 = none ∧ auxLookup fs f cpuIndex b2 = none) ∨
    ∃ v c1 c2, auxLookup fs f cpuIndex b1 = some (v, c1) ∧
      auxLookup fs f cpuIndex b2 = some (v, c2) ∧ c1.length = 8192 ∧ c2.length = 8192 := by
  by_cases he : fs.sysfs (auxPath f cpuIndex) = some .error
  · exact Or.inl ⟨auxLookup_error fs f cpuIndex b1 h1 he, auxLookup_error fs f cpuIndex b2 h2 he⟩
  · obtain ⟨c1, e1, l1⟩ := auxLookup_eq fs f cpuIndex b1 h1 he
    obtain ⟨c2, e2, l2⟩ := auxLookup_eq fs f cpuIndex b2 h2 he
    exact Or.inr ⟨_, c1, c2, e1, e2, l1, l2⟩

theorem fillAux_indep (fs : FileSystem) (cpuInfo : CpuInfo) (b1 b2 : Mem)
    (h1 : b1.length = 8192) (h2 : b2.length = 8192) :
    (fillAux fs b1 cpuInfo = none ∧ fillAux fs b2 cpuInfo = none) ∨
    ∃ r c1 c2, fillAux fs b1 cpuInfo = some (r, c1) ∧
      fillAux fs b2 cpuInfo = some (r, c2) ∧ c1.length = 8192 ∧ c2.length = 8192 := by
  unfold fillAux
  rcases auxLookup_indep fs .minFreq cpuInfo.cpuIndex b1 b2 h1 h2 with
    ⟨e1, e2⟩ | ⟨v1, c1, d1, e1, e2, l1, m1⟩
  · left; simp only [e1, e2, and_self]
  · simp only [e1, e2]
    have i1 : (match v1 with
        | some n => { cpuInfo with minFreq := n }
        | none => cpuInfo).cpuIndex = cpuInfo.cpuIndex := by cases v1 <;> rfl
    generalize (match v1 with
        | some n => { cpuInfo with minFreq := n }
        | none => cpuInfo) = r1 at i1 ⊢
    rcases auxLookup_indep fs .maxFreq r1.cpuIndex c1 d1 l1 m1 with
      ⟨e3, e4⟩ | ⟨v2, c2, d2, e3, e4, l2, m2⟩
    · left; simp only [e3, e4, and_self]
    · simp only [e3, e4]
      have i2 : (match v2 with
          | some n => { r1 with maxFreq := n }
          | none => r1).cpuIndex = r1.cpuIndex := by cases v2 <;> rfl
      generalize (match v2 with
          | some n => { r1 with maxFreq := n }
          | none => r1) = r2 at i2 ⊢
      rcases auxLookup_indep fs .currentFreq r2.cpuIndex c2 d2 l2 m2 with
        ⟨e5, e6⟩ | ⟨v3, c3, d3, e5, e6, l3, m3⟩
      · left; simp only [e5, e6, and_self]
      · simp only [e5, e6]
        generalize (match v3 with
            | some n => { r2 with currentFreq := n }
            | none => r2) = r3
        rcases auxLookup_indep fs .packageId r3.cpuIndex c3 d3 l3 m3 with
          ⟨e7, e8⟩ | ⟨v4, c4, d4, e7, e8, l4, m4⟩
        · left; simp only [e7, e8, and_self]
        · right
          simp only [e7, e8]
          exact ⟨_, c4, d4, rfl, rfl, l4, m4⟩

/-- The loop body on two states with the same records and buffers of 8192
bytes: undefined on both, or defined on both with the same records. -/
theorem processLine_indep (fs : FileSystem) (s1 s2 : State) (line : List Char)
    (hr : s1.res = s2.res) (h1 : s1.tmpBuffer.length = 8192)
    (h2 : s2.tmpBuffer.length = 8192) :
    (processLine fs s1 line = none ∧ processLine fs s2 line = none) ∨
    ∃ t1 t2, processLine fs s1 line = some t1 ∧ processLine fs s2 line = some t2 ∧
      t1.res = t2.res ∧ t1.tmpBuffer.length = 8192 ∧ t2.tmpBuffer.length = 8192 := by
  unfold processLine
  cases parseLine line with
  | none => left; exact ⟨rfl, rfl⟩
  | some e =>
    cases e with
    | none => right; exact ⟨s1, s2, rfl, rfl, hr, h1, h2⟩
    | some kvt =>
      obtain ⟨key, value, tmp⟩ := kvt
      simp only []
      cases strEqual tmp key (literal "processor") 0 with
      | none => left; exact ⟨rfl, rfl⟩
      | some b =>
        cases b with
        | true =>
          simp only []
          unfold openRecord
          cases atoiAt tmp value with
          | none => left; exact ⟨rfl, rfl⟩
          | some index =>
            simp only []
            rcases fillAux_indep fs { cpuIndex := index } s1.tmpBuffer s2.tmpBuffer h1 h2 with
              ⟨e1, e2⟩ | ⟨r, c1, c2, e1, e2, l1, l2⟩
            · left; simp only [e1, e2, and_self]
            · right
              simp only [e1, e2]
              exact ⟨_, _, rfl, rfl, by simp [hr], l1, l2⟩
        | false =>
          simp only [hr]
          cases s2.res.getLast? with
          | none => right; exact ⟨s1, s2, rfl, rfl, hr, h1, h2⟩
          | some back =>
            simp only []
            cases setField tmp key value back with
            | none => left; exact ⟨rfl, rfl⟩
            | some c => right; exact ⟨_, _, rfl, rfl, rfl, h1, h2⟩

theorem foldlM_processLine_indep (fs : FileSystem) :
    ∀ (lines : List (List Char)) (s1 s2 : State), s1.res = s2.res →
      s1.tmpBuffer.length = 8192 → s2.tmpBuffer.length = 8192 →
      (List.foldlM (processLine fs) s1 lines).map State.res
        = (List.foldlM (processLine fs) s2 lines).map State.res := by
  intro lines
  induction lines with
  | nil => intro s1 s2 hr _ _; simp [List.foldlM, hr]
  | cons line rest ih =>
    intro s1 s2 hr h1 h2
    simp only [List.foldlM_cons]
    rcases processLine_indep fs s1 s2 line hr h1 h2 with
      ⟨e1, e2⟩ | ⟨t1, t2, e1, e2, hr2, l1, l2⟩
    · rw [e1, e2]
    · rw [e1, e2]
      exact ih t1 t2 hr2 l1 l2

theorem stackArray_length (n : Nat) (garbage : Nat → Char) :
    (stackArray n garbage).length = n := by
  simp [stackArray]

/-- `readCpuInfo` gives the same whatever the stack and the vector held. -/
theorem readCpuInfo_indep (fs : FileSystem) (g1 g2 : Nat → Char) (r1 r2 : List CpuInfo) :
    readCpuInfo fs g1 r1 = readCpuInfo fs g2 r2 := by
  cases hsrc : fs.procCpuinfo with
  | none => simp [readCpuInfo, hsrc]
  | some text =>
    rw [readCpuInfo_eq fs g1 r1 text hsrc, readCpuInfo_eq fs g2 r2 text hsrc]
    have l1 : (State.mk [] (stackArray 8192 g1)).tmpBuffer.length = 8192 := by
      simp [stackArray]
    have l2 : (State.mk [] (stackArray 8192 g2)).tmpBuffer.length = 8192 := by
      simp [stackArray]
    exact foldlM_processLine_indep fs (sourceLines text) (State.mk [] (stackArray 8192 g1))
      (State.mk [] (stackArray 8192 g2)) rfl l1 l2

/-! ## The claims about the whole read -/

/-- C12: two calls of `readCpuInfo` against the same files give the same
sequence, whatever the output vector and the stack held before each call; on
a text on whose lines the parser stays inside the line buffer, with reads that
do not fail, both calls return that sequence. -/
theorem readCpuInfo_idempotent (fs : FileSystem) (text : List Char)
    (files : List Char → Option (List Char)) (g1 g2 : Nat → Char) (res1 res2 : List CpuInfo)
    (hp : (sourceLines text).all parses = true) :
    readCpuInfo fs g1 res1 = readCpuInfo fs g2 res2 ∧
    ∃ out, readCpuInfo (fileSystem text files) g1 res1 = some out ∧
      readCpuInfo (fileSystem text files) g2 res2 = some out := by
  refine ⟨readCpuInfo_indep fs g1 g2 res1 res2, ?_⟩
  have hstack : (State.mk [] (stackArray 8192 g1)).tmpBuffer.length = 8192 := by
    simp [stackArray]
  obtain ⟨st2, h2, _, _⟩ := foldlM_processLine_indices (fileSystem text files)
    (fileSystem_no_error text files) (sourceLines text) (State.mk [] (stackArray 8192 g1))
    (fun line hm => by
      have := List.all_eq_true.mp hp line hm
      unfold parses at this
      intro e; rw [e] at this; simp at this)
    hstack
  refine ⟨st2.res, ?_, ?_⟩
  · rw [readCpuInfo_eq _ g1 res1 text rfl, h2]; rfl
  · rw [readCpuInfo_indep (fileSystem text files) g2 g1 res2 res1,
      readCpuInfo_eq _ g1 res1 text rfl, h2]; rfl

/-- Witness of C12: a second call that starts from the result of the first
and from another stack. -/
theorem readCpuInfo_idempotent_witness :
    (sourceLines "processor : 7\nCPU part : 0xd03\n".toList).all parses = true ∧
    (readCpuInfo (fileSystem "processor : 7\nCPU part : 0xd03\n".toList (fun _ => none))
        (fun _ => 'x') []
      = readCpuInfo (fileSystem "processor : 7\nCPU part : 0xd03\n".toList (fun _ => none))
        (fun _ => ' ') [{ cpuIndex := 7, cpuPart := 0xd03 }, { cpuIndex := 9 }] ∧
    ∃ out,
      readCpuInfo (fileSystem "processor : 7\nCPU part : 0xd03\n".toList (fun _ => none))
          (fun _ => 'x') [] = some out ∧
      readCpuInfo (fileSystem "processor : 7\nCPU part : 0xd03\n".toList (fun _ => none))
          (fun _ => ' ') [{ cpuIndex := 7, cpuPart := 0xd03 }, { cpuIndex := 9 }] = some out) :=
  ⟨by decide,
    readCpuInfo_idempotent
      (fileSystem "processor : 7\nCPU part : 0xd03\n".toList (fun _ => none))
      "processor : 7\nCPU part : 0xd03\n".toList (fun _ => none) (fun _ => 'x') (fun _ => ' ')
      [] [{ cpuIndex := 7, cpuPart := 0xd03 }, { cpuIndex := 9 }] (by decide)⟩

/-- C13: when `/proc/cpuinfo` does not open, `readCpuInfo` leaves the empty
sequence, whatever the vector held, and whatever the auxiliary files are:
also when every `read` on them would fail, so none is looked up. -/
theorem readCpuInfo_source_unavailable (sysfs : List Char → Option ReadResult)
    (garbage : Nat → Char) (res : List CpuInfo) :
    readCpuInfo ⟨none, sysfs⟩ garbage res = some [] ∧
    readCpuInfo ⟨none, fun _ => some .error⟩ garbage res = some [] := by
  constructor <;> simp [readCpuInfo]

/-- C14: when `/proc/cpuinfo` opens and is empty, `readCpuInfo` returns the
empty sequence, whatever the vector held. -/
theorem readCpuInfo_empty_source (sysfs : List Char → Option ReadResult)
    (garbage : Nat → Char) (res : List CpuInfo) :
    readCpuInfo ⟨some [], sysfs⟩ garbage res = some [] := by
  simp [readCpuInfo, readLoop]

/-- C15: for every state of the loop and every further line, the indices of
the records before the line are a prefix of the indices after it: no record
is removed or reordered and no `cpuIndex` changes. -/
theorem processLine_indices_prefix (files : List Char → Option (List Char)) (st : State)
    (line : List Char) (hp : parses line = true) (htb : st.tmpBuffer.length = 8192) :
    ∃ st2, processLine (fileSystem [] files) st line = some st2 ∧
      st2.tmpBuffer.length = 8192 ∧
      st.res.map (fun r => r.cpuIndex) <+: st2.res.map (fun r => r.cpuIndex) := by
  unfold parses at hp
  cases hle : lineEntry line with
  | none => rw [hle] at hp; simp at hp
  | some e =>
    cases e with
    | none =>
      exact ⟨st, processLine_absent _ st line hle, htb, List.prefix_refl _⟩
    | some kv =>
      obtain ⟨k, v⟩ := kv
      rw [processLine_entry _ st line k v hle]
      by_cases hk : k = "processor".toList
      · subst hk
        obtain ⟨r, tb, hs, hl, _⟩ := entryStep_processor (fileSystem [] files) st v htb
          (fileSystem_no_error [] files)
        exact ⟨_, hs, hl, by simp⟩
      · obtain ⟨st1, hs, htb1, _, _, hidx, _⟩ := entryStep_field (fileSystem [] files) st k v hk
        exact ⟨st1, hs, by rw [htb1]; exact htb, by rw [hidx]⟩

/-- Witness of C15: a "processor" line after two records. -/
theorem processLine_indices_prefix_witness :
    (parses "processor : 4\n".toList = true ∧
      (State.mk [{ cpuIndex := 0 }, { cpuIndex := 1 }]
        (List.replicate 8192 NUL)).tmpBuffer.length = 8192) ∧
    ∃ st2, processLine (fileSystem [] (fun _ => none))
        (State.mk [{ cpuIndex := 0 }, { cpuIndex := 1 }] (List.replicate 8192 NUL))
        "processor : 4\n".toList = some st2 ∧
      st2.tmpBuffer.length = 8192 ∧
      (State.mk [{ cpuIndex := 0 }, { cpuIndex := 1 }] (List.replicate 8192 NUL)).res.map
          (fun r => r.cpuIndex) <+: st2.res.map (fun r => r.cpuIndex) :=
  ⟨⟨by decide, List.length_replicate 8192 NUL⟩,
    processLine_indices_prefix (fun _ => none)
      (State.mk [{ cpuIndex := 0 }, { cpuIndex := 1 }] (List.replicate 8192 NUL))
      "processor : 4\n".toList (by decide) (List.length_replicate 8192 NUL)⟩

/-! ## Lines that change nothing -/

theorem setBack_getLast (res : List CpuInfo) (back : CpuInfo)
    (h : res.getLast? = some back) : setBack res back = res := by
  unfold setBack
  rcases List.eq_nil_or_concat res with e | ⟨init, b, e⟩
  · subst e; simp at h
  · subst e
    rw [List.concat_eq_append] at h ⊢
    rw [List.getLast?_concat] at h
    cases h
    simp

theorem fieldUpdate_unrecognised (k v : List Char) (c : CpuInfo)
    (h1 : k ≠ "CPU implementer".toList) (h2 : k ≠ "CPU architecture".toList)
    (h3 : k ≠ "CPU variant".toList) (h4 : k ≠ "CPU part".toList)
    (h5 : k ≠ "CPU revision".toList) : fieldUpdate k v c = c := by
  unfold fieldUpdate
  rw [if_neg h1, if_neg h2, if_neg h3, if_neg h4, if_neg h5]

theorem entryStep_unrecognised (fs : FileSystem) (st : State) (k v : List Char)
    (h0 : k ≠ "processor".toList)
    (h1 : k ≠ "CPU implementer".toList) (h2 : k ≠ "CPU architecture".toList)
    (h3 : k ≠ "CPU variant".toList) (h4 : k ≠ "CPU part".toList)
    (h5 : k ≠ "CPU revision".toList) : entryStep fs st k v = some st := by
  unfold entryStep
  rw [if_neg h0]
  cases hb : st.res.getLast? with
  | none => rfl
  | some back =>
    simp only [fieldUpdate_unrecognised k v back h1 h2 h3 h4 h5, setBack_getLast st.res back hb]

/-- Taking a line on which the body of the loop changes nothing out of a
text does not change what `readCpuInfo` returns. -/
theorem readCpuInfo_remove_line (fs1 fs2 : FileSystem) (pre line rest : List Char)
    (garbage : Nat → Char) (res : List CpuInfo)
    (hs : fs1.sysfs = fs2.sysfs)
    (h1 : fs1.procCpuinfo = some (pre ++ line ++ rest))
    (h2 : fs2.procCpuinfo = some (pre ++ rest))
    (hnl : pre = [] ∨ pre.getLast? = some '\n') (hl : isLine line = true)
    (hid : ∀ st, processLine fs1 st line = some st) :
    readCpuInfo fs1 garbage res = readCpuInfo fs2 garbage res := by
  have hp : ∀ st l, processLine fs1 st l = processLine fs2 st l := by
    intro st l
    obtain ⟨p1, s1⟩ := fs1
    obtain ⟨p2, s2⟩ := fs2
    simp only at hs
    subst hs
    rfl
  have hf : processLine fs1 = processLine fs2 := by
    funext st l; exact hp st l
  rw [readCpuInfo_eq fs1 garbage res _ h1, readCpuInfo_eq fs2 garbage res _ h2,
    List.append_assoc, sourceLines_append pre (line ++ rest) hnl,
    sourceLines_append pre rest hnl, sourceLines_line line rest hl,
    List.foldlM_append, List.foldlM_append, ← hf]
  congr 1
  cases List.foldlM (processLine fs1) ⟨[], stackArray 8192 garbage⟩ (sourceLines pre) with
  | none => rfl
  | some st =>
    simp only [Option.some_bind, Option.bind_eq_bind, List.foldlM_cons, hid st]

/-! ## A field written more than once -/

theorem sourceLines_lines (ls : List (List Char)) (rest : List Char)
    (h : ∀ l ∈ ls, isLine l = true) :
    sourceLines (ls.flatten ++ rest) = ls ++ sourceLines rest := by
  induction ls with
  | nil => simp
  | cons l ls ih =>
    rw [List.flatten_cons, List.append_assoc,
      sourceLines_line l _ (h l (List.mem_cons_self _ _)),
      ih (fun x hx => h x (List.mem_cons_of_mem _ hx))]
    rfl

theorem processLine_sysfs (fs1 fs2 : FileSystem) (h : fs1.sysfs = fs2.sysfs) :
    processLine fs1 = processLine fs2 := by
  obtain ⟨p1, s1⟩ := fs1
  obtain ⟨p2, s2⟩ := fs2
  simp only at h
  subst h
  rfl

theorem load_zero_add (mem : Mem) (i : Nat) : load mem ((0 : Int) + i) = mem[i]? := by
  unfold load
  simp

/-- The loop of `strEqual` on two C strings, the second shorter than the
number of turns, given only the cells up to the first position at which the
strings differ: it decides equality. -/
theorem strEqualLoop_prefix (smem pmem : Mem) :
    ∀ (k pat : List Char) (str pattern : Int) (n : Nat), pat.length < n →
      NUL ∉ k → NUL ∉ pat →
      (∀ i : Nat, i ≤ commonPrefixLen k pat → load smem (str + i) = (k ++ [NUL])[i]?) →
      (∀ i : Nat, i ≤ commonPrefixLen k pat → load pmem (pattern + i) = (pat ++ [NUL])[i]?) →
      strEqualLoop smem str pmem pattern n 0 = some (decide (k = pat)) := by
  intro k
  induction k with
  | nil =>
    intro pat str pattern n hn _ hpn hk hp
    obtain ⟨m, rfl⟩ : ∃ m, n = m + 1 := ⟨n - 1, by omega⟩
    have hk0 : load smem str = some NUL := by simpa using hk 0 (Nat.zero_le _)
    cases pat with
    | nil =>
      have hp0 : load pmem pattern = some NUL := by simpa using hp 0 (Nat.zero_le _)
      unfold strEqualLoop
      simp [hk0, hp0]
    | cons y ys =>
      have hy : load pmem pattern = some y := by simpa using hp 0 (Nat.zero_le _)
      have hyn : y ≠ NUL := fun e => hpn (by rw [← e]; exact List.mem_cons_self _ _)
      unfold strEqualLoop
      simp only [Nat.cast_zero, add_zero, hk0, hy]
      have : NUL ≠ y := fun e => hyn e.symm
      simp [this]
  | cons x xs ih =>
    intro pat str pattern n hn hkn hpn hk hp
    obtain ⟨m, rfl⟩ : ∃ m, n = m + 1 := ⟨n - 1, by omega⟩
    have hx : load smem str = some x := by simpa using hk 0 (Nat.zero_le _)
    have hxn : x ≠ NUL := fun e => hkn (by rw [← e]; exact List.mem_cons_self _ _)
    cases pat with
    | nil =>
      have hp0 : load pmem pattern = some NUL := by simpa using hp 0 (Nat.zero_le _)
      unfold strEqualLoop
      simp only [Nat.cast_zero, add_zero, hx, hp0]
      simp [hxn]
    | cons y ys =>
      have hy : load pmem pattern = some y := by simpa using hp 0 (Nat.zero_le _)
      unfold strEqualLoop
      simp only [Nat.cast_zero, add_zero, hx, hy]
      by_cases hxy : x = y
      · subst hxy
        simp only [ne_eq, not_true_eq_false, if_false, hxn]
        have hc : commonPrefixLen (x :: xs) (x :: ys) = commonPrefixLen xs ys + 1 := by
          simp [commonPrefixLen]
        rw [hc] at hk hp
        rw [strEqualLoop_shift, ih ys (str + 1) (pattern + 1) m (by simp at hn; omega)
          (fun h => hkn (List.mem_cons_of_mem _ h)) (fun h => hpn (List.mem_cons_of_mem _ h))
          (fun i hi => by
            have := hk (i + 1) (by omega)
            rw [List.cons_append, List.getElem?_cons_succ] at this
            rw [← this]; congr 1; push_cast; ring)
          (fun i hi => by
            have := hp (i + 1) (by omega)
            rw [List.cons_append, List.getElem?_cons_succ] at this
            rw [← this]; congr 1; push_cast; ring)]
        simp
      · simp [hxy]

/-- The loop of `strEqual` with no more turns than the pattern has
characters: it ends without an answer and returns false. -/
theorem strEqualLoop_long (smem pmem : Mem) :
    ∀ (n : Nat) (k pat : List Char) (str pattern : Int), n ≤ pat.length →
      NUL ∉ k → NUL ∉ pat →
      (∀ i : Nat, i ≤ k.length → load smem (str + i) = (k ++ [NUL])[i]?) →
      (∀ i : Nat, i ≤ pat.length → load pmem (pattern + i) = (pat ++ [NUL])[i]?) →
      strEqualLoop smem str pmem pattern n 0 = some false := by
  intro n
  induction n with
  | zero => intro k pat str pattern _ _ _ _ _; rfl
  | succ m ih =>
    intro k pat str pattern hn hkn hpn hk hp
    cases pat with
    | nil => simp at hn
    | cons y ys =>
      have hy : load pmem pattern = some y := by simpa using hp 0 (Nat.zero_le _)
      have hyn : y ≠ NUL := fun e => hpn (by rw [← e]; exact List.mem_cons_self _ _)
      cases k with
      | nil =>
        have hk0 : load smem str = some NUL := by simpa using hk 0 (Nat.zero_le _)
        unfold strEqualLoop
        simp only [Nat.cast_zero, add_zero, hk0, hy]
        have : NUL ≠ y := fun e => hyn e.symm
        simp [this]
      | cons x xs =>
        have hx : load smem str = some x := by simpa using hk 0 (Nat.zero_le _)
        unfold strEqualLoop
        simp only [Nat.cast_zero, add_zero, hx, hy]
        by_cases hxy : x = y
        · subst hxy
          simp only [ne_eq, not_true_eq_false, if_false, hyn]
          rw [strEqualLoop_shift, ih xs ys (str + 1) (pattern + 1) (by simp at hn; omega)
            (fun h => hkn (List.mem_cons_of_mem _ h)) (fun h => hpn (List.mem_cons_of_mem _ h))
            (fun i hi => by
              have := hk (i + 1) (by simp; omega)
              rw [List.cons_append, List.getElem?_cons_succ] at this
              rw [← this]; congr 1; push_cast; ring)
            (fun i hi => by
              have := hp (i + 1) (by simp; omega)
              rw [List.cons_append, List.getElem?_cons_succ] at this
              rw [← this]; congr 1; push_cast; ring)]
        · simp [hxy]

theorem commonPrefixLen_le (s p : List Char) :
    commonPrefixLen s p ≤ s.length ∧ commonPrefixLen s p ≤ p.length := by
  induction s generalizing p with
  | nil => simp [commonPrefixLen]
  | cons x xs ih =>
    cases p with
    | nil => simp [commonPrefixLen]
    | cons y ys =>
      unfold commonPrefixLen
      split
      · have := ih ys
        simp only [List.length_cons]
        omega
      · simp

/-- C20: on two NUL-terminated strings `strEqual` returns true exactly when
the pattern has fewer than 1000 characters and the strings are the same; for
such a pattern it gives the same answer when the memory of both strings ends
right after the first position at which they differ (after the terminator
when they are the same), so it reads no cell past that position. -/
theorem strEqual_exact (s p : List Char) (hs : NUL ∉ s) (hp : NUL ∉ p) :
    strEqual (s ++ [NUL]) 0 (p ++ [NUL]) 0 = some (decide (p.length < 1000 ∧ s = p)) ∧
    (p.length < 1000 →
      strEqual ((s ++ [NUL]).take (commonPrefixLen s p + 1)) 0
        ((p ++ [NUL]).take (commonPrefixLen s p + 1)) 0 = some (decide (s = p))) := by
  constructor
  · by_cases hl : p.length < 1000
    · have := strEqualLoop_prefix (s ++ [NUL]) (p ++ [NUL]) s p 0 0 kMaxStringSize hl hs hp
        (fun i _ => load_zero_add _ i) (fun i _ => load_zero_add _ i)
      unfold strEqual
      rw [this]
      simp [hl]
    · have := strEqualLoop_long (s ++ [NUL]) (p ++ [NUL]) kMaxStringSize s p 0 0
        (by unfold kMaxStringSize; omega) hs hp
        (fun i _ => load_zero_add _ i) (fun i _ => load_zero_add _ i)
      unfold strEqual
      rw [this]
      simp [hl]
  · intro hl
    exact strEqualLoop_prefix _ _ s p 0 0 kMaxStringSize hl hs hp
      (fun i hi => by
        rw [load_zero_add, List.getElem?_take_of_lt (by omega)])
      (fun i hi => by
        rw [load_zero_add, List.getElem?_take_of_lt (by omega)])

/-- Witness of C20: a proper prefix of the pattern "processor", a string that
starts with it, the pattern itself, and a pattern of 1000 characters compared
with itself. -/
theorem strEqual_exact_witness :
    ((NUL ∉ "process".toList ∧ NUL ∉ "processor".toList ∧ "processor".toList.length < 1000) ∧
      strEqual ("process".toList ++ [NUL]) 0 ("processor".toList ++ [NUL]) 0 = some false ∧
      strEqual ("process".toList ++ [NUL]) 0 ("processor".toList ++ [NUL]) 0
        = some (decide ("processor".toList.length < 1000 ∧
            "process".toList = "processor".toList)) ∧
      strEqual
        (("process".toList ++ [NUL]).take
          (commonPrefixLen "process".toList "processor".toList + 1)) 0
        (("processor".toList ++ [NUL]).take
          (commonPrefixLen "process".toList "processor".toList + 1)) 0
        = some (decide ("process".toList = "processor".toList))) ∧
    ((NUL ∉ "processors".toList ∧ "processor".toList.length < 1000) ∧
      strEqual ("processors".toList ++ [NUL]) 0 ("processor".toList ++ [NUL]) 0 = some false ∧
      strEqual ("processors".toList ++ [NUL]) 0 ("processor".toList ++ [NUL]) 0
        = some (decide ("processor".toList.length < 1000 ∧
            "processors".toList = "processor".toList)) ∧
      strEqual
        (("processors".toList ++ [NUL]).take
          (commonPrefixLen "processors".toList "processor".toList + 1)) 0
        (("processor".toList ++ [NUL]).take
          (commonPrefixLen "processors".toList "processor".toList + 1)) 0
        = some (decide ("processors".toList = "processor".toList))) ∧
    (strEqual ("processor".toList ++ [NUL]) 0 ("processor".toList ++ [NUL]) 0 = some true ∧
      strEqual ("processor".toList ++ [NUL]) 0 ("processor".toList ++ [NUL]) 0
        = some (decide ("processor".toList.length < 1000 ∧
            "processor".toList = "processor".toList)) ∧
      strEqual
        (("processor".toList ++ [NUL]).take
          (commonPrefixLen "processor".toList "processor".toList + 1)) 0
        (("processor".toList ++ [NUL]).take
          (commonPrefixLen "processor".toList "processor".toList + 1)) 0
        = some (decide ("processor".toList = "processor".toList))) ∧
    (NUL ∉ List.replicate 1000 'a' ∧ 1000 ≤ (List.replicate 1000 'a').length) ∧
    strEqual (List.replicate 1000 'a' ++ [NUL]) 0 (List.replicate 1000 'a' ++ [NUL]) 0
      = some false :=
  ⟨⟨by decide, by decide,
      (strEqual_exact "process".toList "processor".toList (by decide) (by decide)).1,
      (strEqual_exact "process".toList "processor".toList (by decide) (by decide)).2
        (by decide)⟩,
    ⟨by decide, by decide,
      (strEqual_exact "processors".toList "processor".toList (by decide) (by decide)).1,
      (strEqual_exact "processors".toList "processor".toList (by decide) (by decide)).2
        (by decide)⟩,
    ⟨by decide,
      (strEqual_exact "processor".toList "processor".toList (by decide) (by decide)).1,
      (strEqual_exact "processor".toList "processor".toList (by decide) (by decide)).2
        (by decide)⟩,
    ⟨fun h => absurd (List.eq_of_mem_replicate h) (by decide),
      le_of_eq (List.length_replicate 1000 'a').symm⟩,
    (strEqual_exact (List.replicate 1000 'a') (List.replicate 1000 'a')
      (fun h => absurd (List.eq_of_mem_replicate h) (by decide))
      (fun h => absurd (List.eq_of_mem_replicate h) (by decide))).1.trans
      (by rw [List.length_replicate]; rfl)⟩

/-! ## The terminator `readFile` writes -/

/-- The buffer after `readFile` when the file opens and `read` delivers
bytes: at most `maxBufferSize - 1` of them, then the terminator. -/
theorem readFile_data (fs : FileSystem) (name bytes : List Char) (dst : Mem)
    (maxBufferSize : Nat) (hs : fs.sysfs name = some (.data bytes))
    (hl : dst.length = maxBufferSize) (hm : 0 < maxBufferSize) :
    readFile fs name dst maxBufferSize
      = some (true, bytes.take (maxBufferSize - 1)
          ++ NUL :: (dst.drop (bytes.take (maxBufferSize - 1)).length).tail) := by
  unfold readFile
  have hg : (bytes.take (maxBufferSize - 1)).length ≤ maxBufferSize - 1 := by simp
  have hdrop : dst.drop (bytes.take (maxBufferSize - 1)).length ≠ [] := by
    intro e
    have := congrArg List.length e
    simp only [List.length_drop, List.length_nil] at this
    omega
  have hst := store_append (bytes.take (maxBufferSize - 1))
    (dst.drop (bytes.take (maxBufferSize - 1)).length) NUL hdrop
  have hle : (bytes.take (maxBufferSize - 1)).length ≤ dst.length := by omega
  have h0 : ¬ maxBufferSize = 0 := by omega
  simp only [h0, if_false, hs, sysRead, hle, if_true, hst]

/-- The outcome of `readFile` when the file opens and `read` returns -1: the
terminator goes to the index `SIZE_MAX`, outside the buffer. -/
theorem readFile_error (fs : FileSystem) (name : List Char) (dst : Mem)
    (maxBufferSize : Nat) (hs : fs.sysfs name = some .error)
    (hl : dst.length ≤ 8192) (hm : 0 < maxBufferSize) :
    readFile fs name dst maxBufferSize = none := by
  unfold readFile
  have h0 : ¬ maxBufferSize = 0 := by omega
  simp only [h0, if_false, hs, sysRead, store_sizeMax dst hl]

/-- C17, evaluated on the code: when `read` delivers bytes, the terminator is
written at the number of bytes read, which is smaller than `maxBufferSize`,
and with `maxBufferSize = 0` nothing is written and the result is false; when
`read` returns -1, `bytesRead` is `SIZE_MAX`, which is not smaller than
`maxBufferSize`, and the write of the terminator is outside the buffer. -/
theorem readFile_terminator_index (fs : FileSystem) (name bytes : List Char) (dst : Mem)
    (garbage : Nat → Char) (m : Nat) :
    (readFile ⟨none, fun _ => some (.data bytes)⟩ name (stackArray (m + 1) garbage) (m + 1)
        = some (true, bytes.take m
            ++ NUL :: ((stackArray (m + 1) garbage).drop (bytes.take m).length).tail) ∧
      (sysRead (.data bytes) (stackArray (m + 1) garbage) m).map Prod.fst
        = some (bytes.take m).length ∧
      (bytes.take m).length < m + 1) ∧
    readFile fs name dst 0 = some (false, dst) ∧
    (sysRead .error (stackArray 8192 garbage) (8192 - 1)).map Prod.fst = some SIZE_MAX ∧
    ¬ SIZE_MAX < 8192 ∧
    store (stackArray 8192 garbage) (SIZE_MAX : Nat) NUL = none ∧
    readFile ⟨none, fun _ => some .error⟩ name (stackArray 8192 garbage) 8192 = none := by
  have hlen : (stackArray (m + 1) garbage).length = m + 1 := stackArray_length _ _
  have hg : (bytes.take m).length ≤ m := by simp
  refine ⟨⟨?_, ?_, by omega⟩, rfl, rfl, by unfold SIZE_MAX; norm_num, ?_, ?_⟩
  · exact readFile_data _ name bytes _ (m + 1) rfl hlen (Nat.succ_pos m)
  · unfold sysRead
    have hle : (bytes.take m).length ≤ (stackArray (m + 1) garbage).length := by omega
    simp only [hle, if_true, Option.map_some']
  · exact store_sizeMax _ (le_of_eq (stackArray_length 8192 garbage))
  · exact readFile_error _ name _ 8192 rfl (le_of_eq (stackArray_length 8192 garbage))
      (by norm_num)

/-! ## Lines the specification has skipped -/

/-- C16, evaluated on the code: on every line with an empty key (nothing but
whitespace before the first colon) and a character other than whitespace
after the colon, held NUL-terminated in the line buffer and passed with front
at index 0 and back at index length-1, the parser makes an access outside the
buffer: `skipWhitespaceBack` is started at the cell before the colon, which
lies below the start of the key, and walks down to the cell before index 0. -/
theorem parseCpuInfoEntry_bounds_emptyKey (w post : List Char)
    (hw : ∀ x ∈ w, isWhitespace x = true)
    (hqn : NUL ∉ post) (y : Char) (hy : y ∈ post) (hyw : isWhitespace y = false) :
    parseCpuInfoEntry ((w ++ ':' :: post) ++ [NUL]) 0
        ((((w ++ ':' :: post).length : Nat) : Int) - 1) = none ∧
    skipWhitespaceBack ((w ++ ':' :: post) ++ [NUL]) (w.length : Int) ((w.length : Int) - 1)
      = none ∧
    load ((w ++ ':' :: post) ++ [NUL]) (-1) = none :=
  ⟨(parseCpuInfoEntry_underrun w post hw hqn y hy hyw).1,
    (parseCpuInfoEntry_underrun w post hw hqn y hy hyw).2, load_neg _ _ (by decide)⟩

/-- Witness of C16: the lines `":value"` and `"  :value\n"`; the line
`"key:\n"`, whose value is empty, stays inside the buffer. -/
theorem parseCpuInfoEntry_bounds_emptyKey_witness :
    (((∀ x ∈ ([] : List Char), isWhitespace x = true) ∧ NUL ∉ "value".toList ∧
        'v' ∈ "value".toList ∧ isWhitespace 'v' = false) ∧
      parseCpuInfoEntry (([] ++ ':' :: "value".toList) ++ [NUL]) 0
          (((([] ++ ':' :: "value".toList).length : Nat) : Int) - 1) = none ∧
      skipWhitespaceBack (([] ++ ':' :: "value".toList) ++ [NUL])
          ((([] : List Char).length : Nat) : Int) (((([] : List Char).length : Nat) : Int) - 1)
        = none ∧
      load (([] ++ ':' :: "value".toList) ++ [NUL]) (-1) = none) ∧
    (((∀ x ∈ "  ".toList, isWhitespace x = true) ∧ NUL ∉ "value\n".toList ∧
        'v' ∈ "value\n".toList) ∧
      parseCpuInfoEntry (("  ".toList ++ ':' :: "value\n".toList) ++ [NUL]) 0
          (((("  ".toList ++ ':' :: "value\n".toList).length : Nat) : Int) - 1) = none ∧
      skipWhitespaceBack (("  ".toList ++ ':' :: "value\n".toList) ++ [NUL])
          (("  ".toList.length : Nat) : Int) ((("  ".toList.length : Nat) : Int) - 1)
        = none ∧
      load (("  ".toList ++ ':' :: "value\n".toList) ++ [NUL]) (-1) = none) ∧
    (parseCpuInfoEntry ("key:\n".toList ++ [NUL]) 0 4).isSome = true :=
  ⟨⟨by decide,
      parseCpuInfoEntry_bounds_emptyKey [] "value".toList (by decide) (by decide) 'v'
        (by decide) (by decide)⟩,
    ⟨by decide,
      parseCpuInfoEntry_bounds_emptyKey "  ".toList "value\n".toList (by decide) (by decide) 'v'
        (by decide) (by decide)⟩,
    by decide⟩

/-- C11, evaluated on the code: a whole line without a colon (a blank or
whitespace-only line, a line with no delimiter) is skipped, `readCpuInfo`
returns for the text what it returns for the text without the line; a line
`"processor :"` followed by a newline is not skipped, it opens a record
with `cpuIndex = 0`; a line `"CPU part :"` followed by a newline sets the
field of the record to 0; and a line with an empty key and a value takes the
parser outside the line buffer. -/
theorem readCpuInfo_absent_lines (sysfs : List Char → Option ReadResult)
    (garbage : Nat → Char) (res : List CpuInfo) (pre line rest : List Char)
    (hnl : pre = [] ∨ pre.getLast? = some '\n') (hl : isLine line = true)
    (hc : ':' ∉ line) :
    (readCpuInfo ⟨some (pre ++ line ++ rest), sysfs⟩ garbage res
      = readCpuInfo ⟨some (pre ++ rest), sysfs⟩ garbage res) ∧
    readCpuInfo ⟨some "processor :\n".toList, fun _ => none⟩ garbage res
      = some [{ cpuIndex := 0 }] ∧
    readCpuInfo ⟨some [], fun _ => none⟩ garbage res = some [] ∧
    readCpuInfo ⟨some "processor : 1\nCPU part : 0xd03\nCPU part :\n".toList, fun _ => none⟩
        garbage res = some [{ cpuIndex := 1, cpuPart := 0 }] ∧
    readCpuInfo ⟨some "processor : 1\nCPU part : 0xd03\n".toList, fun _ => none⟩
        garbage res = some [{ cpuIndex := 1, cpuPart := 0xd03 }] ∧
    readCpuInfo ⟨some "processor : 1\n:x\n".toList, fun _ => none⟩ garbage res = none ∧
    readCpuInfo ⟨some "processor : 1\n".toList, fun _ => none⟩ garbage res
      = some [{ cpuIndex := 1 }] := by
  have hid : ∀ st, processLine ⟨some (pre ++ line ++ rest), sysfs⟩ st line = some st :=
    fun st => processLine_absent _ st line (lineEntry_noColon line hc)
  refine ⟨readCpuInfo_remove_line _ _ pre line rest garbage res rfl rfl rfl hnl hl hid,
    ?_, ?_, ?_, ?_, ?_, ?_⟩
  · rw [readCpuInfo_indep _ garbage (fun _ => 'x') res []]; decide
  · rw [readCpuInfo_indep _ garbage (fun _ => 'x') res []]; decide
  · rw [readCpuInfo_indep _ garbage (fun _ => 'x') res []]; decide
  · rw [readCpuInfo_indep _ garbage (fun _ => 'x') res []]; decide
  · rw [readCpuInfo_indep _ garbage (fun _ => 'x') res []]; decide
  · rw [readCpuInfo_indep _ garbage (fun _ => 'x') res []]; decide

/-- Witness of C11: a blank line between the lines of two records. -/
theorem readCpuInfo_absent_lines_witness :
    (("processor : 0\n".toList = [] ∨ "processor : 0\n".toList.getLast? = some '\n') ∧
      isLine "\n".toList = true ∧ ':' ∉ "\n".toList) ∧
    ((readCpuInfo ⟨some ("processor : 0\n".toList ++ "\n".toList ++ "processor : 1\n".toList),
          fun _ => none⟩ (fun _ => 'x') []
        = readCpuInfo ⟨some ("processor : 0\n".toList ++ "processor : 1\n".toList),
          fun _ => none⟩ (fun _ => 'x') []) ∧
      readCpuInfo ⟨some "processor :\n".toList, fun _ => none⟩ (fun _ => 'x') []
        = some [{ cpuIndex := 0 }] ∧
      readCpuInfo ⟨some [], fun _ => none⟩ (fun _ => 'x') [] = some [] ∧
      readCpuInfo ⟨some "processor : 1\nCPU part : 0xd03\nCPU part :\n".toList,
          fun _ => none⟩ (fun _ => 'x') [] = some [{ cpuIndex := 1, cpuPart := 0 }] ∧
      readCpuInfo ⟨some "processor : 1\nCPU part : 0xd03\n".toList, fun _ => none⟩
          (fun _ => 'x') [] = some [{ cpuIndex := 1, cpuPart := 0xd03 }] ∧
      readCpuInfo ⟨some "processor : 1\n:x\n".toList, fun _ => none⟩ (fun _ => 'x') []
        = none ∧
      readCpuInfo ⟨some "processor : 1\n".toList, fun _ => none⟩ (fun _ => 'x') []
        = some [{ cpuIndex := 1 }]) :=
  ⟨by decide,
    readCpuInfo_absent_lines (fun _ => none) (fun _ => 'x') [] "processor : 0\n".toList
      "\n".toList "processor : 1\n".toList (by decide) (by decide) (by decide)⟩

/-! ## The lines of a text and the pieces `fgets` delivers -/

theorem textLines_flatten : ∀ t : List Char, (textLines t).flatten = t := by
  intro t
  induction t with
  | nil => rfl
  | cons c cs ih =>
    unfold textLines
    by_cases hc : c = '\n'
    · simp only [hc, if_true, List.flatten_cons, ih]; rfl
    · simp only [hc, if_false]
      cases h : textLines cs with
      | nil =>
        rw [h] at ih
        simp only [List.flatten_nil] at ih
        simp [← ih]
      | cons l ls =>
        rw [h] at ih
        simp only [List.flatten_cons] at ih ⊢
        rw [List.cons_append, ih]

/-- A text that starts with a newline-terminated line: its first line and
the lines of what follows. -/
theorem textLines_line (body rest : List Char) (h : '\n' ∉ body) :
    textLines (body ++ '\n' :: rest) = (body ++ ['\n']) :: textLines rest := by
  induction body with
  | nil => simp [textLines]
  | cons c cs ih =>
    have hc : c ≠ '\n' := fun e => h (by simp [e])
    have hcs : '\n' ∉ cs := fun e => h (by simp [e])
    rw [List.cons_append, textLines]
    simp only [hc, if_false, ih hcs]
    rfl

/-- The first line of a text: it is not empty, its only newline is at its
end, it ends with a newline when more lines follow, and the remaining lines
are the lines of the remaining text. -/
theorem textLines_cons_inv :
    ∀ (t l : List Char) (ls : List (List Char)), textLines t = l :: ls →
      l ≠ [] ∧ '\n' ∉ l.dropLast ∧ (ls ≠ [] → l.getLast? = some '\n') ∧
        textLines ls.flatten = ls := by
  intro t
  induction t with
  | nil => intro l ls h; simp [textLines] at h
  | cons c cs ih =>
    intro l ls h
    unfold textLines at h
    by_cases hc : c = '\n'
    · simp only [hc, if_true, List.cons.injEq] at h
      obtain ⟨rfl, rfl⟩ := h
      refine ⟨by simp, by simp, fun _ => by simp, ?_⟩
      rw [textLines_flatten]
    · simp only [hc, if_false] at h
      cases hcs : textLines cs with
      | nil =>
        rw [hcs] at h
        simp only [List.cons.injEq] at h
        obtain ⟨rfl, rfl⟩ := h
        exact ⟨by simp, by simp, fun e => absurd rfl e, rfl⟩
      | cons l2 ls2 =>
        rw [hcs] at h
        simp only [List.cons.injEq] at h
        obtain ⟨rfl, rfl⟩ := h
        obtain ⟨h1, h2, h3, h4⟩ := ih l2 ls2 hcs
        obtain ⟨x, xs, rfl⟩ := List.exists_cons_of_ne_nil h1
        refine ⟨by simp, ?_, ?_, h4⟩
        · rw [List.dropLast_cons₂]
          intro hm
          rcases List.mem_cons.mp hm with e | e
          · exact hc e.symm
          · exact h2 e
        · intro hne
          rw [List.getLast?_cons_cons]
          exact h3 hne

theorem fgetsTake_noNewline :
    ∀ (l : List Char) (n : Nat), '\n' ∉ l → l.length ≤ n → fgetsTake n l = (l, []) := by
  intro l
  induction l with
  | nil => intro n _ _; cases n <;> rfl
  | cons c cs ih =>
    intro n hb hn
    obtain ⟨m, rfl⟩ : ∃ m, n = m + 1 := ⟨n - 1, by simp at hn; omega⟩
    have hc : c ≠ '\n' := fun e => hb (by simp [e])
    have hcs : '\n' ∉ cs := fun e => hb (by simp [e])
    have := ih m hcs (by simp at hn; omega)
    rw [fgetsTake]
    simp only [hc, if_false, this]

theorem fgetsTake_full :
    ∀ (body rest : List Char), '\n' ∉ body →
      fgetsTake body.length (body ++ rest) = (body, rest) := by
  intro body
  induction body with
  | nil => intro rest _; rfl
  | cons c cs ih =>
    intro rest hb
    have hc : c ≠ '\n' := fun e => hb (by simp [e])
    have hcs : '\n' ∉ cs := fun e => hb (by simp [e])
    have := ih rest hcs
    rw [List.cons_append, List.length_cons, fgetsTake]
    simp only [hc, if_false, this]

/-- A piece without a newline that fills the line buffer is delivered by one
`fgets`; the loop goes on with what follows it, in the middle of the line. -/
theorem sourceLines_piece (body rest : List Char) (hn : '\n' ∉ body)
    (hl : body.length = 16383) :
    sourceLines (body ++ rest) = body :: sourceLines rest := by
  have hne : body ++ rest ≠ [] := by
    intro e
    have hb : body = [] := (List.append_eq_nil.mp e).1
    rw [hb] at hl
    simp at hl
  have ht : fgetsTake 16383 (body ++ rest) = (body, rest) := by
    rw [← hl]; exact fgetsTake_full body rest hn
  unfold sourceLines
  obtain ⟨m, hm⟩ : ∃ m, (body ++ rest).length = m + 1 :=
    ⟨(body ++ rest).length - 1, by simp; omega⟩
  rw [hm, fgetsLines_succ _ _ hne, ht]
  congr 1
  apply fgetsLines_fuel
  · simp only [List.length_append] at hm
    show rest.length ≤ m
    omega
  · exact le_refl _

/-- A line of at most 16383 characters is delivered by one `fgets`. -/
theorem sourceLines_single (l : List Char) (hne : l ≠ []) (hd : '\n' ∉ l.dropLast)
    (hlen : l.length ≤ 16383) : sourceLines l = [l] := by
  have ht : fgetsTake 16383 l = (l, []) := by
    by_cases hlast : l.getLast? = some '\n'
    · have hsplit := List.dropLast_append_getLast? '\n' hlast
      have hlen2 : l.dropLast.length < 16383 := by
        have := List.length_pos.mpr hne
        simp; omega
      have := fgetsTake_line l.dropLast 16383 hd hlen2
      rw [hsplit] at this
      exact this
    · apply fgetsTake_noNewline l 16383 _ hlen
      intro hm
      have hsplit := List.dropLast_append_getLast hne
      rw [← hsplit] at hm
      rcases List.mem_append.mp hm with e | e
      · exact hd e
      · rw [List.mem_singleton] at e
        exact hlast (by rw [List.getLast?_eq_getLast l hne, ← e])
  unfold sourceLines
  obtain ⟨m, hm⟩ : ∃ m, l.length = m + 1 :=
    ⟨l.length - 1, by have := List.length_pos.mpr hne; omega⟩
  rw [hm, fgetsLines_succ _ _ hne, ht, fgetsLines_nil]

theorem isLine_of_shape (l : List Char) (hlast : l.getLast? = some '\n')
    (hd : '\n' ∉ l.dropLast) (hlen : l.length ≤ 16383) : isLine l = true := by
  unfold isLine
  simp only [Bool.and_eq_true, decide_eq_true_eq, Bool.not_eq_true']
  refine ⟨⟨hlast, ?_⟩, hlen⟩
  cases hc : l.dropLast.contains '\n' with
  | false => rfl
  | true => exact absurd (by simpa using hc) hd

/-- When every line of a text has at most 16383 characters, the pieces
`fgets(tmp, 16384, fp)` delivers are the lines of the text. -/
theorem sourceLines_of_textLines :
    ∀ (ls : List (List Char)) (t : List Char), textLines t = ls →
      (∀ l ∈ ls, l.length ≤ 16383) → sourceLines t = ls := by
  intro ls
  induction ls with
  | nil =>
    intro t h _
    have := textLines_flatten t
    rw [h] at this
    rw [← this]
    rfl
  | cons l ls ih =>
    intro t h hlen
    obtain ⟨h1, h2, h3, h4⟩ := textLines_cons_inv t l ls h
    have ht : t = l ++ ls.flatten := by
      have := textLines_flatten t
      rw [h] at this
      rw [← this]; rfl
    have hl := hlen l (List.mem_cons_self _ _)
    by_cases hls : ls = []
    · subst hls
      simp only [List.flatten_nil, List.append_nil] at ht
      rw [ht]
      exact sourceLines_single l h1 h2 hl
    · rw [ht, sourceLines_line l _ (isLine_of_shape l (h3 hls) h2 hl),
        ih ls.flatten h4 (fun x hx => hlen x (List.mem_cons_of_mem _ hx))]

theorem sourceLines_eq_textLines (text : List Char) (h : linesFit text = true) :
    sourceLines text = textLines text := by
  unfold linesFit at h
  exact sourceLines_of_textLines _ text rfl
    (fun l hl => by simpa using List.all_eq_true.mp h l hl)

/-- Taking a piece on which the body of the loop changes nothing out of a
text does not change what `readCpuInfo` returns. -/
theorem readCpuInfo_remove_piece (fs1 fs2 : FileSystem) (pre piece rest : List Char)
    (garbage : Nat → Char) (res : List CpuInfo)
    (hs : fs1.sysfs = fs2.sysfs)
    (h1 : fs1.procCpuinfo = some (pre ++ (piece ++ rest)))
    (h2 : fs2.procCpuinfo = some (pre ++ rest))
    (hnl : pre = [] ∨ pre.getLast? = some '\n')
    (hsl : sourceLines (piece ++ rest) = piece :: sourceLines rest)
    (hid : ∀ st, processLine fs1 st piece = some st) :
    readCpuInfo fs1 garbage res = readCpuInfo fs2 garbage res := by
  have hf : processLine fs1 = processLine fs2 := processLine_sysfs fs1 fs2 hs
  rw [readCpuInfo_eq fs1 garbage res _ h1, readCpuInfo_eq fs2 garbage res _ h2,
    sourceLines_append pre (piece ++ rest) hnl,
    sourceLines_append pre rest hnl, hsl,
    List.foldlM_append, List.foldlM_append, ← hf]
  congr 1
  cases List.foldlM (processLine fs1) ⟨[], stackArray 8192 garbage⟩ (sourceLines pre) with
  | none => rfl
  | some st =>
    simp only [Option.some_bind, Option.bind_eq_bind, List.foldlM_cons, hid st]

/-! ## A line longer than the line buffer -/

theorem longPiece_length : longPiece.length = 16383 := by
  unfold longPiece
  rw [List.length_append, List.length_replicate]
  rfl

theorem longPiece_not_mem (c : Char) (h1 : c ∉ "BogoMIPS : ".toList) (h2 : c ≠ 'x') :
    c ∉ longPiece := by
  unfold longPiece
  intro hm
  rcases List.mem_append.mp hm with e | e
  · exact h1 e
  · exact h2 (List.eq_of_mem_replicate e)

theorem longPiece_split (tail : List Char) :
    longPiece ++ tail
      = "BogoMIPS ".toList ++ ':' :: (' ' :: (List.replicate 16372 'x' ++ tail)) := by
  unfold longPiece
  generalize List.replicate 16372 'x' = fill
  rw [List.append_assoc]
  rfl

/-- The entry of a line that starts with the long piece: its key is
"BogoMIPS". -/
theorem lineEntry_longPiece (tail : List Char) (ht : NUL ∉ tail) :
    ∃ v, lineEntry (longPiece ++ tail) = some (some ("BogoMIPS".toList, v)) := by
  have hx : 'x' ∈ List.replicate 16372 'x' := List.mem_replicate.mpr ⟨by norm_num, rfl⟩
  have hq : NUL ∉ ' ' :: (List.replicate 16372 'x' ++ tail) := by
    intro hm
    rcases List.mem_cons.mp hm with e | e
    · exact absurd e (by decide)
    · rcases List.mem_append.mp e with e2 | e2
      · exact absurd (List.eq_of_mem_replicate e2) (by decide)
      · exact ht e2
  have := lineEntry_split "BogoMIPS ".toList (' ' :: (List.replicate 16372 'x' ++ tail))
    (by decide) (by decide) hq 'B' (by decide) (by decide) 'x'
    (List.mem_cons_of_mem _ (List.mem_append_left _ hx)) (by decide)
  rw [longPiece_split tail, this]
  exact ⟨_, by rw [show trim "BogoMIPS ".toList = "BogoMIPS".toList by decide]⟩

theorem lineKey_of_entry (line k v : List Char) (h : lineEntry line = some (some (k, v))) :
    lineKey line = some k := by
  unfold lineKey
  rw [h]

theorem lineKey_longPiece (tail : List Char) (ht : NUL ∉ tail) :
    lineKey (longPiece ++ tail) = some "BogoMIPS".toList := by
  obtain ⟨v, hv⟩ := lineEntry_longPiece tail ht
  exact lineKey_of_entry _ _ v hv

/-- The long piece alone, as `fgets` delivers it, leaves every state of the
loop as it is. -/
theorem processLine_longPiece (fs : FileSystem) (st : State) :
    processLine fs st longPiece = some st := by
  obtain ⟨v, hv⟩ := lineEntry_longPiece [] (by simp)
  rw [List.append_nil] at hv
  rw [processLine_entry fs st longPiece _ v hv]
  exact entryStep_unrecognised fs st _ v (by decide) (by decide) (by decide) (by decide)
    (by decide) (by decide)

theorem sourceLines_longPiece (rest : List Char) :
    sourceLines (longPiece ++ rest) = longPiece :: sourceLines rest :=
  sourceLines_piece longPiece rest (longPiece_not_mem '\n' (by decide) (by decide))
    longPiece_length

/-- The long piece followed by a newline-terminated rest is one line of a
text. -/
theorem textLines_longPiece (tail : List Char) (ht : isLine tail = true) :
    textLines (longPiece ++ tail) = [longPiece ++ tail] := by
  obtain ⟨_, hlast, _⟩ := isLine_spec tail ht
  have hsplit := List.dropLast_append_getLast? '\n' hlast
  have hd : '\n' ∉ tail.dropLast := by
    unfold isLine at ht
    simp only [Bool.and_eq_true, decide_eq_true_eq, Bool.not_eq_true'] at ht
    intro hm
    have : tail.dropLast.contains '\n' = true := by simpa using hm
    rw [this] at ht
    exact absurd ht.1.2 (by decide)
  have hb : '\n' ∉ longPiece ++ tail.dropLast := by
    intro hm
    rcases List.mem_append.mp hm with e | e
    · exact longPiece_not_mem '\n' (by decide) (by decide) e
    · exact hd e
  have := textLines_line (longPiece ++ tail.dropLast) [] hb
  rw [← hsplit, ← List.append_assoc, this]
  rfl

theorem textLines_ne_nil (t : List Char) (h : t ≠ []) : textLines t ≠ [] := by
  intro e
  have := textLines_flatten t
  rw [e] at this
  exact h this.symm

/-- The lines of a text that continues after a newline. -/
theorem textLines_append :
    ∀ (pre rest : List Char), (pre = [] ∨ pre.getLast? = some '\n') →
      textLines (pre ++ rest) = textLines pre ++ textLines rest := by
  intro pre
  induction pre with
  | nil => intro rest _; rfl
  | cons c cs ih =>
    intro rest h
    have h : (c :: cs).getLast? = some '\n' := by
      rcases h with h | h
      · exact absurd h (by simp)
      · exact h
    by_cases hc : c = '\n'
    · subst hc
      have hcs : cs = [] ∨ cs.getLast? = some '\n' := by
        cases cs with
        | nil => exact Or.inl rfl
        | cons d ds => exact Or.inr (by simpa [List.getLast?_cons_cons] using h)
      rw [List.cons_append, textLines, textLines]
      simp only [if_true, ih rest hcs, List.cons_append]
    · have hne : cs ≠ [] := by
        intro e; subst e
        simp at h
        exact hc h
      have hcs : cs.getLast? = some '\n' := by
        obtain ⟨d, ds, rfl⟩ := List.exists_cons_of_ne_nil hne
        simpa [List.getLast?_cons_cons] using h
      obtain ⟨l, ls, hl⟩ := List.exists_cons_of_ne_nil (textLines_ne_nil cs hne)
      rw [List.cons_append, textLines, textLines]
      simp only [hc, if_false, ih rest (Or.inr hcs), hl, List.cons_append]

theorem readLoop_sourceLines (fs : FileSystem) (text : List Char) (st : State) :
    readLoop fs text.length text st = List.foldlM (processLine fs) st (sourceLines text) := by
  rw [readLoop_eq_foldlM]
  rfl

theorem longLine_length (tail : List Char) :
    (longPiece ++ tail).length = 16383 + tail.length := by
  rw [List.length_append, longPiece_length]

/-- What `readCpuInfo` returns for a text with the long piece after a
newline or at its start: what it returns for the text without the piece. -/
theorem readCpuInfo_longPiece (sysfs : List Char → Option ReadResult) (garbage : Nat → Char)
    (res : List CpuInfo) (pre rest : List Char) (hnl : pre = [] ∨ pre.getLast? = some '\n') :
    readCpuInfo ⟨some (pre ++ (longPiece ++ rest)), sysfs⟩ garbage res
      = readCpuInfo ⟨some (pre ++ rest), sysfs⟩ garbage res :=
  readCpuInfo_remove_piece _ _ pre longPiece rest garbage res rfl rfl rfl hnl
    (sourceLines_longPiece rest) (processLine_longPiece _)

theorem readCpuInfo_longPiece_head (sysfs : List Char → Option ReadResult)
    (garbage : Nat → Char) (res : List CpuInfo) (rest : List Char) :
    readCpuInfo ⟨some (longPiece ++ rest), sysfs⟩ garbage res
      = readCpuInfo ⟨some rest, sysfs⟩ garbage res := by
  have := readCpuInfo_longPiece sysfs garbage res [] rest (Or.inl rfl)
  rw [List.nil_append, List.nil_append] at this
  exact this

/-- Counterexample to C8 as stated: a text of one line of 16397 characters
whose parsed key is "BogoMIPS" has no "processor" line; `fgets` delivers
the line in two pieces, the second piece is `"processor : 7\n"`, and
`readCpuInfo` returns a record with `cpuIndex = 7`, not the empty
sequence. -/
theorem readCpuInfo_noProcessor_counterexample :
    textLines (longPiece ++ "processor : 7\n".toList)
      = [longPiece ++ "processor : 7\n".toList] ∧
    (longPiece ++ "processor : 7\n".toList).length = 16383 + 14 ∧
    lineKey (longPiece ++ "processor : 7\n".toList) = some "BogoMIPS".toList ∧
    sourceLines (longPiece ++ "processor : 7\n".toList)
      = [longPiece, "processor : 7\n".toList] ∧
    readCpuInfo ⟨some (longPiece ++ "processor : 7\n".toList), fun _ => none⟩ (fun _ => 'x') []
      = some [{ cpuIndex := 7 }] :=
  ⟨textLines_longPiece _ (by decide), longLine_length _, lineKey_longPiece _ (by decide),
    by rw [sourceLines_longPiece,
      show sourceLines "processor : 7\n".toList = ["processor : 7\n".toList] from by decide],
    (readCpuInfo_longPiece_head _ _ _ _).trans (by decide)⟩

/-- Counterexample to C7 as stated: the loop of `readCpuInfo` on one line of
16397 characters whose parsed key is "BogoMIPS", started with one record:
the line is processed in two turns and adds a record. -/
theorem readLoop_longLine_counterexample :
    textLines (longPiece ++ "processor : 7\n".toList)
      = [longPiece ++ "processor : 7\n".toList] ∧
    lineKey (longPiece ++ "processor : 7\n".toList) = some "BogoMIPS".toList ∧
    (readLoop ⟨none, fun _ => none⟩ (longPiece ++ "processor : 7\n".toList).length
        (longPiece ++ "processor : 7\n".toList) ⟨[{ cpuIndex := 0 }], []⟩).map State.res
      = some [{ cpuIndex := 0 }, { cpuIndex := 7 }] := by
  refine ⟨textLines_longPiece _ (by decide), lineKey_longPiece _ (by decide), ?_⟩
  rw [readLoop_sourceLines, sourceLines_longPiece, List.foldlM_cons, processLine_longPiece]
  simp only [Option.some_bind, Option.bind_eq_bind]
  decide

/-- Counterexample to C6 as stated: a text of two lines, the first with the
parsed key "BogoMIPS" and 16397 characters, the second a "processor" line
with the value 1, gives two records, with `cpuIndex` 7 and 1; and a
"processor" line with the decimal value 2^32 gives `cpuIndex = 0`. -/
theorem readCpuInfo_longLine_counterexample :
    textLines (longPiece ++ ("processor : 7\n".toList ++ "processor : 1\n".toList))
      = [longPiece ++ "processor : 7\n".toList, "processor : 1\n".toList] ∧
    processorValues [longPiece ++ "processor : 7\n".toList, "processor : 1\n".toList]
      = ["1".toList] ∧
    readCpuInfo ⟨some (longPiece ++ ("processor : 7\n".toList ++ "processor : 1\n".toList)),
        fun _ => none⟩ (fun _ => 'x') []
      = some [{ cpuIndex := 7 }, { cpuIndex := 1 }] ∧
    readCpuInfo ⟨some "processor : 4294967296\n".toList, fun _ => none⟩ (fun _ => 'x') []
      = some [{ cpuIndex := 0 }] ∧
    readDecimal "4294967296".toList = some 4294967296 := by
  refine ⟨?_, ?_, (readCpuInfo_longPiece_head _ _ _ _).trans (by decide), by decide, by decide⟩
  · rw [← List.append_assoc, textLines_append _ _ (Or.inr (by
        rw [List.getLast?_append_of_ne_nil _ (by decide)]; decide)),
      textLines_longPiece _ (by decide),
      show textLines "processor : 1\n".toList = ["processor : 1\n".toList] from by decide]
    rfl
  · obtain ⟨v, hv⟩ := lineEntry_longPiece "processor : 7\n".toList (by decide)
    rw [processorValues_cons_other _ _ v _ hv (by decide)]
    decide

/-- Counterexample to C18 as stated: after a "processor" line, one line of
16397 characters whose parsed key is "BogoMIPS": with the line the result
has two records, without it one. -/
theorem readCpuInfo_removal_counterexample :
    textLines ("processor : 0\n".toList ++ (longPiece ++ "processor : 7\n".toList))
      = ["processor : 0\n".toList, longPiece ++ "processor : 7\n".toList] ∧
    lineKey (longPiece ++ "processor : 7\n".toList) = some "BogoMIPS".toList ∧
    readCpuInfo ⟨some ("processor : 0\n".toList ++ (longPiece ++ "processor : 7\n".toList)),
        fun _ => none⟩ (fun _ => 'x') []
      = some [{ cpuIndex := 0 }, { cpuIndex := 7 }] ∧
    readCpuInfo ⟨some "processor : 0\n".toList, fun _ => none⟩ (fun _ => 'x') []
      = some [{ cpuIndex := 0 }] := by
  refine ⟨?_, lineKey_longPiece _ (by decide),
    (readCpuInfo_longPiece _ _ _ _ _ (Or.inr (by decide))).trans (by decide), by decide⟩
  rw [textLines_append _ _ (Or.inr (by decide)), textLines_longPiece _ (by decide),
    show textLines "processor : 0\n".toList = ["processor : 0\n".toList] from by decide]
  rfl

theorem map_atoi_of_readDecimal :
    ∀ (vs : List (List Char)) (ns : List Nat), vs.map readDecimal = ns.map some →
      (∀ n ∈ ns, (n : Int) ≤ INT_MAX) → vs.map atoi = ns.map (fun n : Nat => (n : Int)) := by
  intro vs
  induction vs with
  | nil =>
    intro ns h _
    cases ns with
    | nil => rfl
    | cons n ns => simp at h
  | cons v vs ih =>
    intro ns h hn
    cases ns with
    | nil => simp at h
    | cons n ns =>
      simp only [List.map_cons, List.cons.injEq] at h
      have h1 := atoi_decimal v n h.1 (hn n (List.mem_cons_self _ _))
      have h2 := ih ns h.2 (fun m hm => hn m (List.mem_cons_of_mem _ hm))
      rw [List.map_cons, List.map_cons, h1, h2]

/-- C6, amended: for a text whose lines have at most 16383 characters each
(the newline included) and whose "processor" lines have decimal values that
an `int` holds, the records `readCpuInfo` produces are, in order, one per
line whose parsed key is "processor", and the `cpuIndex` of each is the
decimal value of its line; nothing is merged or reordered. -/
theorem readCpuInfo_processor_records (text : List Char)
    (files : List Char → Option (List Char)) (garbage : Nat → Char) (res : List CpuInfo)
    (ns : List Nat)
    (hfit : linesFit text = true)
    (hp : (textLines text).all parses = true)
    (hv : (processorValues (textLines text)).map readDecimal = ns.map some)
    (hn : ns.all (fun n => decide ((n : Int) ≤ INT_MAX)) = true) :
    (readCpuInfo (fileSystem text files) garbage res).map (List.map (fun r => r.cpuIndex))
      = some (ns.map (fun n : Nat => (n : Int))) := by
  have hs := sourceLines_eq_textLines text hfit
  rw [readCpuInfo_piece_records text files garbage res (by rw [hs]; exact hp), hs,
    map_atoi_of_readDecimal _ ns hv
      (fun n hm => by simpa using List.all_eq_true.mp hn n hm)]

/-- Witness of C6: two "processor" lines with the values 0 and 1, and a
repeated index. -/
theorem readCpuInfo_processor_records_witness :
    (linesFit "processor : 0\nCPU part : 0xd03\n\nprocessor : 1\nprocessor : 1\n".toList
        = true ∧
      (textLines "processor : 0\nCPU part : 0xd03\n\nprocessor : 1\nprocessor : 1\n".toList).all
        parses = true ∧
      (processorValues (textLines
        "processor : 0\nCPU part : 0xd03\n\nprocessor : 1\nprocessor : 1\n".toList)).map
          readDecimal = ([0, 1, 1] : List Nat).map some ∧
      ([0, 1, 1] : List Nat).all (fun n => decide ((n : Int) ≤ INT_MAX)) = true) ∧
    (readCpuInfo (fileSystem
        "processor : 0\nCPU part : 0xd03\n\nprocessor : 1\nprocessor : 1\n".toList
        (fun _ => none)) (fun _ => 'x') []).map (List.map (fun r => r.cpuIndex))
      = some (([0, 1, 1] : List Nat).map (fun n : Nat => (n : Int))) :=
  ⟨by decide,
    readCpuInfo_processor_records _ (fun _ => none) (fun _ => 'x') [] [0, 1, 1]
      (by decide) (by decide) (by decide) (by decide)⟩

/-- C7, amended: a line of at most 16383 characters (the newline included)
whose parsed key is not "processor" is processed in one turn of the loop and
changes at most the last record: the number of records and every record
before the last stay as they were. -/
theorem processLine_field_frame (fs : FileSystem) (st : State) (line k v : List Char)
    (hline : textLines line = [line]) (hfit : line.length ≤ 16383)
    (h : lineEntry line = some (some (k, v))) (hk : k ≠ "processor".toList) :
    readLoop fs line.length line st = processLine fs st line ∧
    (readLoop fs line.length line st).map (fun st2 => (st2.res.length, st2.res.dropLast))
      = some (st.res.length, st.res.dropLast) := by
  have hs : sourceLines line = [line] :=
    sourceLines_of_textLines [line] line hline (fun l hl => by
      rw [List.mem_singleton.mp hl]; exact hfit)
  have h1 : readLoop fs line.length line st = processLine fs st line := by
    rw [readLoop_sourceLines, hs, List.foldlM_cons]
    cases processLine fs st line <;> rfl
  exact ⟨h1, by rw [h1]; exact processLine_frame fs st line k v h hk⟩

/-- Witness of C7: a "CPU part" line after the second "processor" line
leaves the first record as it was. -/
theorem processLine_field_frame_witness :
    (textLines "CPU part\t: 0xd03\n".toList = ["CPU part\t: 0xd03\n".toList] ∧
      "CPU part\t: 0xd03\n".toList.length ≤ 16383 ∧
      lineEntry "CPU part\t: 0xd03\n".toList = some (some ("CPU part".toList, "0xd03".toList)) ∧
      "CPU part".toList ≠ "processor".toList) ∧
    (readLoop (fileSystem [] (fun _ => none)) "CPU part\t: 0xd03\n".toList.length
        "CPU part\t: 0xd03\n".toList
        ⟨[{ cpuIndex := 0, cpuPart := 0xd0a }, { cpuIndex := 1 }], []⟩
      = processLine (fileSystem [] (fun _ => none))
        ⟨[{ cpuIndex := 0, cpuPart := 0xd0a }, { cpuIndex := 1 }], []⟩
        "CPU part\t: 0xd03\n".toList ∧
      (readLoop (fileSystem [] (fun _ => none)) "CPU part\t: 0xd03\n".toList.length
        "CPU part\t: 0xd03\n".toList
        ⟨[{ cpuIndex := 0, cpuPart := 0xd0a }, { cpuIndex := 1 }], []⟩).map
          (fun st2 => (st2.res.length, st2.res.dropLast))
      = some ((State.mk [{ cpuIndex := 0, cpuPart := 0xd0a }, { cpuIndex := 1 }] []).res.length,
          (State.mk [{ cpuIndex := 0, cpuPart := 0xd0a }, { cpuIndex := 1 }] []).res.dropLast)) ∧
    readLoop (fileSystem [] (fun _ => none)) "CPU part\t: 0xd03\n".toList.length
        "CPU part\t: 0xd03\n".toList
        ⟨[{ cpuIndex := 0, cpuPart := 0xd0a }, { cpuIndex := 1 }], []⟩
      = some ⟨[{ cpuIndex := 0, cpuPart := 0xd0a }, { cpuIndex := 1, cpuPart := 0xd03 }], []⟩ :=
  ⟨by decide,
    processLine_field_frame (fileSystem [] (fun _ => none))
      ⟨[{ cpuIndex := 0, cpuPart := 0xd0a }, { cpuIndex := 1 }], []⟩
      "CPU part\t: 0xd03\n".toList "CPU part".toList "0xd03".toList (by decide) (by decide)
      (by decide) (by decide),
    by decide⟩

/-- C8, amended: leading lines of at most 16383 characters each (the newline
included), none with the parsed key "processor", have no effect:
`readCpuInfo` gives on the text what it gives on the text without them; and
a text whose lines have at most 16383 characters each and none of which has
the parsed key "processor" gives the empty sequence. -/
theorem readCpuInfo_leading_lines (pre rest text : List Char)
    (sysfs : List Char → Option ReadResult) (garbage : Nat → Char) (res : List CpuInfo)
    (hnl : pre = [] ∨ pre.getLast? = some '\n')
    (hfitp : linesFit pre = true)
    (hpre : (textLines pre).all notProcessorLine = true)
    (hfit : linesFit text = true)
    (htext : (textLines text).all notProcessorLine = true) :
    readCpuInfo ⟨some (pre ++ rest), sysfs⟩ garbage res
      = readCpuInfo ⟨some rest, sysfs⟩ garbage res ∧
    readCpuInfo ⟨some text, sysfs⟩ garbage res = some [] :=
  readCpuInfo_leading_pieces pre rest text sysfs garbage res hnl
    (by rw [sourceLines_eq_textLines pre hfitp]; exact hpre)
    (by rw [sourceLines_eq_textLines text hfit]; exact htext)

/-- Witness of C8: a "CPU part" line and a line without a colon in front of
the first "processor" line, and a text with a "CPU part" line only. -/
theorem readCpuInfo_leading_lines_witness :
    (("CPU part : 0xd03\nmodel\n".toList = [] ∨
        "CPU part : 0xd03\nmodel\n".toList.getLast? = some '\n') ∧
      linesFit "CPU part : 0xd03\nmodel\n".toList = true ∧
      (textLines "CPU part : 0xd03\nmodel\n".toList).all notProcessorLine = true ∧
      linesFit "CPU part : 0xd03\n".toList = true ∧
      (textLines "CPU part : 0xd03\n".toList).all notProcessorLine = true) ∧
    (readCpuInfo ⟨some ("CPU part : 0xd03\nmodel\n".toList ++ "processor : 2\n".toList),
        fun _ => none⟩ (fun _ => 'x') []
      = readCpuInfo ⟨some "processor : 2\n".toList, fun _ => none⟩ (fun _ => 'x') [] ∧
    readCpuInfo ⟨some "CPU part : 0xd03\n".toList, fun _ => none⟩ (fun _ => 'x') []
      = some []) ∧
    readCpuInfo ⟨some "processor : 2\n".toList, fun _ => none⟩ (fun _ => 'x') []
      = some [{ cpuIndex := 2 }] :=
  ⟨by decide,
    readCpuInfo_leading_lines "CPU part : 0xd03\nmodel\n".toList "processor : 2\n".toList
      "CPU part : 0xd03\n".toList (fun _ => none) (fun _ => 'x') []
      (by decide) (by decide) (by decide) (by decide) (by decide),
    by decide⟩

/-- C18, amended: a line of at most 16383 characters (the newline included;
the last line of the text may lack it) whose parsed key is none of the six
names the loop compares with leaves every state of the loop as it is, and
`readCpuInfo` returns for a text with such a line what it returns for the
text without the line. -/
theorem readCpuInfo_unrecognised_key (sysfs : List Char → Option ReadResult)
    (garbage : Nat → Char) (res : List CpuInfo) (pre line rest k v : List Char)
    (hnl : pre = [] ∨ pre.getLast? = some '\n')
    (hline : textLines line = [line]) (hfit : line.length ≤ 16383)
    (hend : rest = [] ∨ line.getLast? = some '\n')
    (he : lineEntry line = some (some (k, v)))
    (hk : k ∉ ["processor".toList, "CPU implementer".toList, "CPU architecture".toList,
      "CPU variant".toList, "CPU part".toList, "CPU revision".toList]) :
    (∀ st, processLine ⟨some (pre ++ line ++ rest), sysfs⟩ st line = some st) ∧
    readCpuInfo ⟨some (pre ++ line ++ rest), sysfs⟩ garbage res
      = readCpuInfo ⟨some (pre ++ rest), sysfs⟩ garbage res := by
  generalize hp0 : "processor".toList = p0 at hk
  generalize hp1 : "CPU implementer".toList = p1 at hk
  generalize hp2 : "CPU architecture".toList = p2 at hk
  generalize hp3 : "CPU variant".toList = p3 at hk
  generalize hp4 : "CPU part".toList = p4 at hk
  generalize hp5 : "CPU revision".toList = p5 at hk
  simp only [List.mem_cons, List.mem_singleton, List.not_mem_nil, or_false, not_or] at hk
  obtain ⟨h0, h1, h2, h3, h4, h5⟩ := hk
  subst hp0 hp1 hp2 hp3 hp4 hp5
  have hid : ∀ st, processLine ⟨some (pre ++ line ++ rest), sysfs⟩ st line = some st := by
    intro st
    rw [processLine_entry _ st line k v he]
    exact entryStep_unrecognised _ st k v h0 h1 h2 h3 h4 h5
  obtain ⟨s1, s2, _, _⟩ := textLines_cons_inv line line [] hline
  have hsl : sourceLines (line ++ rest) = line :: sourceLines rest := by
    rcases hend with e | e
    · subst e
      rw [List.append_nil, sourceLines_single line s1 s2 hfit]
      rfl
    · exact sourceLines_line line rest (isLine_of_shape line e s2 hfit)
  exact ⟨hid, readCpuInfo_remove_piece _ _ pre line rest garbage res rfl
    (by show some (pre ++ line ++ rest) = some (pre ++ (line ++ rest)); rw [List.append_assoc])
    rfl hnl hsl hid⟩

/-- Witness of C18: the lines "Processor", "CPU  part" (two spaces) and
"BogoMIPS" inside the text of one record, and a "BogoMIPS" line without a
newline at the end of the text. -/
theorem readCpuInfo_unrecognised_key_witness :
    (("processor : 1\n".toList = [] ∨ "processor : 1\n".toList.getLast? = some '\n') ∧
      textLines "Processor : 5\n".toList = ["Processor : 5\n".toList] ∧
      "Processor : 5\n".toList.length ≤ 16383 ∧
      ("CPU part : 0xd05\n".toList = [] ∨ "Processor : 5\n".toList.getLast? = some '\n') ∧
      lineEntry "Processor : 5\n".toList = some (some ("Processor".toList, "5".toList)) ∧
      "Processor".toList ∉ ["processor".toList, "CPU implementer".toList,
        "CPU architecture".toList, "CPU variant".toList, "CPU part".toList,
        "CPU revision".toList] ∧
      textLines "CPU  part : 0xd03\n".toList = ["CPU  part : 0xd03\n".toList] ∧
      lineEntry "CPU  part : 0xd03\n".toList
        = some (some ("CPU  part".toList, "0xd03".toList)) ∧
      "CPU  part".toList ∉ ["processor".toList, "CPU implementer".toList,
        "CPU architecture".toList, "CPU variant".toList, "CPU part".toList,
        "CPU revision".toList] ∧
      textLines "BogoMIPS : 38.40".toList = ["BogoMIPS : 38.40".toList] ∧
      lineEntry "BogoMIPS : 38.40".toList
        = some (some ("BogoMIPS".toList, "38.40".toList)) ∧
      "BogoMIPS".toList ∉ ["processor".toList, "CPU implementer".toList,
        "CPU architecture".toList, "CPU variant".toList, "CPU part".toList,
        "CPU revision".toList]) ∧
    ((∀ st, processLine ⟨some ("processor : 1\n".toList ++ "Processor : 5\n".toList
          ++ "CPU part : 0xd05\n".toList), fun _ => none⟩ st "Processor : 5\n".toList
        = some st) ∧
      readCpuInfo ⟨some ("processor : 1\n".toList ++ "Processor : 5\n".toList
          ++ "CPU part : 0xd05\n".toList), fun _ => none⟩ (fun _ => 'x') []
        = readCpuInfo ⟨some ("processor : 1\n".toList ++ "CPU part : 0xd05\n".toList),
          fun _ => none⟩ (fun _ => 'x') []) ∧
    ((∀ st, processLine ⟨some ("processor : 1\n".toList ++ "CPU  part : 0xd03\n".toList
          ++ "CPU part : 0xd05\n".toList), fun _ => none⟩ st "CPU  part : 0xd03\n".toList
        = some st) ∧
      readCpuInfo ⟨some ("processor : 1\n".toList ++ "CPU  part : 0xd03\n".toList
          ++ "CPU part : 0xd05\n".toList), fun _ => none⟩ (fun _ => 'x') []
        = readCpuInfo ⟨some ("processor : 1\n".toList ++ "CPU part : 0xd05\n".toList),
          fun _ => none⟩ (fun _ => 'x') []) ∧
    ((∀ st, processLine ⟨some ("processor : 1\n".toList ++ "BogoMIPS : 38.40".toList
          ++ []), fun _ => none⟩ st "BogoMIPS : 38.40".toList
        = some st) ∧
      readCpuInfo ⟨some ("processor : 1\n".toList ++ "BogoMIPS : 38.40".toList
          ++ []), fun _ => none⟩ (fun _ => 'x') []
        = readCpuInfo ⟨some ("processor : 1\n".toList ++ []),
          fun _ => none⟩ (fun _ => 'x') []) ∧
    readCpuInfo ⟨some ("processor : 1\n".toList ++ "CPU part : 0xd05\n".toList),
        fun _ => none⟩ (fun _ => 'x') [] = some [{ cpuIndex := 1, cpuPart := 0xd05 }] :=
  ⟨by decide,
    readCpuInfo_unrecognised_key (fun _ => none) (fun _ => 'x') [] "processor : 1\n".toList
      "Processor : 5\n".toList "CPU part : 0xd05\n".toList "Processor".toList "5".toList
      (by decide) (by decide) (by decide) (by decide) (by decide) (by decide),
    readCpuInfo_unrecognised_key (fun _ => none) (fun _ => 'x') [] "processor : 1\n".toList
      "CPU  part : 0xd03\n".toList "CPU part : 0xd05\n".toList "CPU  part".toList
      "0xd03".toList (by decide) (by decide) (by decide) (by decide) (by decide) (by decide),
    readCpuInfo_unrecognised_key (fun _ => none) (fun _ => 'x') [] "processor : 1\n".toList
      "BogoMIPS : 38.40".toList [] "BogoMIPS".toList
      "38.40".toList (by decide) (by decide) (by decide) (by decide) (by decide) (by decide),
    by decide⟩

end CpuFreq
